import Mathlib

/-!
Verification of the Circular library (CircVal.h / CircStat.h).

The development embeds the two headers in exact rational arithmetic:

* `CircType`, `CircVal` — the range-descriptor template `CircValType<L,H,Z>`
  and the circular-value class `CircVal<Type>` with its wrap, arithmetic,
  distance and cross-descriptor conversion operations (`CircVal.h`).
* `CircAverage`, `CircAverage2`, `WeightedCircAverage`,
  `CAvrgSampledCircSignal`, `CircMedian` — the statistics engine
  (`CircStat.h`).

Doubles are modelled as rationals; the helper `Mod` lives in `CircHelper.h`,
which is not among the provided sources, and is therefore modelled from the
specification text.
-/

namespace Circular

/-- Modelled from the spec: `Mod` of `CircHelper.h` (a file the two provided
headers include but which is not itself provided) is a true mathematical
modulo, yielding a non-negative remainder for a positive modulus. -/
def Mod (x y : ℚ) : ℚ := x - y * ⌊x / y⌋

/-- Modelled from the spec: `Sqr` of `CircHelper.h` squares its argument. -/
def Sqr (x : ℚ) : ℚ := x * x

theorem Mod_eq_fract {y : ℚ} (hy : y ≠ 0) (x : ℚ) :
    Mod x y = y * Int.fract (x / y) := by
  unfold Mod Int.fract
  field_simp

theorem Mod_nonneg {y : ℚ} (hy : 0 < y) (x : ℚ) : 0 ≤ Mod x y := by
  rw [Mod_eq_fract hy.ne']
  exact mul_nonneg hy.le (Int.fract_nonneg _)

theorem Mod_lt {y : ℚ} (hy : 0 < y) (x : ℚ) : Mod x y < y := by
  rw [Mod_eq_fract hy.ne']
  calc y * Int.fract (x / y) < y * 1 :=
        (mul_lt_mul_left hy).mpr (Int.fract_lt_one _)
    _ = y := mul_one y

theorem Mod_add_int_mul {y : ℚ} (hy : 0 < y) (x : ℚ) (k : ℤ) :
    Mod (x + k * y) y = Mod x y := by
  rw [Mod_eq_fract hy.ne', Mod_eq_fract hy.ne']
  have h : (x + k * y) / y = x / y + (k : ℚ) := by
    field_simp
  rw [h, Int.fract_add_int]

theorem Mod_eq_self {y : ℚ} (hy : 0 < y) {x : ℚ} (h0 : 0 ≤ x) (h1 : x < y) :
    Mod x y = x := by
  rw [Mod_eq_fract hy.ne']
  have hfr : Int.fract (x / y) = x / y := by
    rw [Int.fract_eq_self]
    constructor
    · positivity
    · rw [div_lt_one hy]
      exact h1
  rw [hfr]
  field_simp

/-- The range descriptor: the `CircValType<L_,H_,Z_>` template of `CircVal.h`,
carrying the `static_assert` validity conditions `H > L`, `Z >= L`, `Z < H`. -/
structure CircType where
  L : ℚ
  H : ℚ
  Z : ℚ
  hLH : L < H
  hLZ : L ≤ Z
  hZH : Z < H

namespace CircType

/-- `R = H_ - L_`, the range width. -/
def R (T : CircType) : ℚ := T.H - T.L

/-- `R_2 = (H_ - L_) / 2`, the half range. -/
def R2 (T : CircType) : ℚ := (T.H - T.L) / 2

theorem R_pos (T : CircType) : 0 < T.R := sub_pos.mpr T.hLH

theorem R2_eq (T : CircType) : T.R2 = T.R / 2 := rfl

/-- `CircVal<Type>::Wrap`: wraps a value into `[L, H)`, with the source's
fast paths for values at most one period away, and the general `Mod` case. -/
def Wrap (T : CircType) (r : ℚ) : ℚ :=
  if T.L ≤ r then
    if r < T.H then r
    else if r < T.H + T.R then r - T.R
    else Mod (r - T.L) T.R + T.L
  else
    if T.L - T.R ≤ r then r + T.R
    else Mod (r - T.L) T.R + T.L

/-- All of `Wrap`'s fast paths agree with the general `Mod` formula. -/
theorem Wrap_eq_mod (T : CircType) (r : ℚ) :
    T.Wrap r = Mod (r - T.L) T.R + T.L := by
  have hR := T.R_pos
  have hRe : T.R = T.H - T.L := rfl
  unfold Wrap
  split_ifs with h1 h2 h3 h4
  · rw [Mod_eq_self hR (by linarith) (by linarith)]
    ring
  · have : r - T.L = (r - T.R - T.L) + (1 : ℤ) * T.R := by push_cast; ring
    rw [this, Mod_add_int_mul hR,
      Mod_eq_self hR (by linarith) (by linarith)]
    ring
  · rfl
  · have : r - T.L = (r + T.R - T.L) + (-1 : ℤ) * T.R := by push_cast; ring
    rw [this, Mod_add_int_mul hR,
      Mod_eq_self hR (by linarith) (by linarith)]
    ring
  · rfl

theorem Wrap_mem (T : CircType) (r : ℚ) :
    T.L ≤ T.Wrap r ∧ T.Wrap r < T.H := by
  rw [Wrap_eq_mod]
  have h0 := Mod_nonneg T.R_pos (r - T.L)
  have h1 := Mod_lt T.R_pos (r - T.L)
  have hRe : T.R = T.H - T.L := rfl
  constructor
  · linarith
  · linarith

theorem Wrap_eq_of_mem (T : CircType) {r : ℚ} (h0 : T.L ≤ r) (h1 : r < T.H) :
    T.Wrap r = r := by
  have hRe : T.R = T.H - T.L := rfl
  rw [Wrap_eq_mod, Mod_eq_self T.R_pos (by linarith) (by linarith)]
  ring

theorem Wrap_idem (T : CircType) (r : ℚ) : T.Wrap (T.Wrap r) = T.Wrap r :=
  T.Wrap_eq_of_mem (T.Wrap_mem r).1 (T.Wrap_mem r).2

theorem Wrap_add_int_mul (T : CircType) (r : ℚ) (k : ℤ) :
    T.Wrap (r + k * T.R) = T.Wrap r := by
  rw [Wrap_eq_mod, Wrap_eq_mod]
  have : r + k * T.R - T.L = (r - T.L) + k * T.R := by ring
  rw [this, Mod_add_int_mul T.R_pos]

theorem Wrap_add_R (T : CircType) (r : ℚ) : T.Wrap (r + T.R) = T.Wrap r := by
  have := T.Wrap_add_int_mul r 1
  simpa using this

theorem Wrap_sub_R (T : CircType) (r : ℚ) : T.Wrap (r - T.R) = T.Wrap r := by
  have := T.Wrap_add_int_mul r (-1)
  simp only [Int.cast_neg, Int.cast_one, neg_mul, one_mul] at this
  rw [← this]
  ring_nf

/-- `Wrap` moves its argument by an integer multiple of the range. -/
theorem Wrap_sub_self (T : CircType) (r : ℚ) :
    ∃ k : ℤ, T.Wrap r = r + k * T.R := by
  refine ⟨-⌊(r - T.L) / T.R⌋, ?_⟩
  rw [Wrap_eq_mod]
  unfold Mod
  push_cast
  ring

theorem Wrap_congr (T : CircType) {r r' : ℚ} (h : ∃ k : ℤ, r' = r + k * T.R) :
    T.Wrap r' = T.Wrap r := by
  obtain ⟨k, rfl⟩ := h
  exact T.Wrap_add_int_mul r k

theorem Wrap_wrap_add_left (T : CircType) (x y : ℚ) :
    T.Wrap (T.Wrap x + y) = T.Wrap (x + y) := by
  obtain ⟨k, hk⟩ := T.Wrap_sub_self x
  refine T.Wrap_congr ⟨k, ?_⟩
  rw [hk]
  ring

end CircType

/-- The circular value `CircVal<Type>`: a rational with the class invariant
`val ∈ [Type::L, Type::H)`. -/
abbrev CircVal (T : CircType) := {q : ℚ // T.L ≤ q ∧ q < T.H}

namespace CircVal

/-- The constructor `CircVal(double r)`: wraps the raw value into range. -/
def ofRat (T : CircType) (r : ℚ) : CircVal T := ⟨T.Wrap r, T.Wrap_mem r⟩

/-- The default constructor `CircVal()`: holds the zero value `Type::Z`. -/
def zero (T : CircType) : CircVal T := ⟨T.Z, T.hLZ, T.hZH⟩

/-- `CircVal<Type>::Sdist`: length of the shortest directed walk from `c1` to
`c2`, in `[-R/2, R/2)`. -/
def Sdist {T : CircType} (c1 c2 : CircVal T) : ℚ :=
  if c2.val - c1.val < -T.R2 then c2.val - c1.val + T.R
  else if T.R2 ≤ c2.val - c1.val then c2.val - c1.val - T.R
  else c2.val - c1.val

/-- `CircVal<Type>::Pdist`: length of the shortest increasing walk from `c1`
to `c2`, in `[0, R)`. -/
def Pdist {T : CircType} (c1 c2 : CircVal T) : ℚ :=
  if c1.val ≤ c2.val then c2.val - c1.val else T.R - c1.val + c2.val

/-- `operator+(CircVal)`: wrapped `Z`-relative addition. -/
def add {T : CircType} (a b : CircVal T) : CircVal T :=
  ofRat T (a.val + b.val - T.Z)

/-- `operator-(CircVal)`: wrapped `Z`-relative subtraction. -/
def sub {T : CircType} (a b : CircVal T) : CircVal T :=
  ofRat T (a.val - b.val + T.Z)

/-- Unary `operator-`: the negative circular value. -/
def neg {T : CircType} (a : CircVal T) : CircVal T :=
  ofRat T (T.Z - Sdist (ofRat T T.Z) a)

/-- `operator~`: the opposite (antipodal) circular value. -/
def opp {T : CircType} (a : CircVal T) : CircVal T :=
  ofRat T (a.val + T.R2)

/-- `operator*(double)`: scaling in the `Z`-relative frame. -/
def smul {T : CircType} (a : CircVal T) (r : ℚ) : CircVal T :=
  ofRat T ((a.val - T.Z) * r + T.Z)

/-- `operator/(double)`: division in the `Z`-relative frame. -/
def sdiv {T : CircType} (a : CircVal T) (r : ℚ) : CircVal T :=
  ofRat T ((a.val - T.Z) / r + T.Z)

/-- `operator+=`: same formula as `operator+`. -/
def addAssign {T : CircType} (a b : CircVal T) : CircVal T :=
  ofRat T (a.val + b.val - T.Z)

/-- `operator-=`: same formula as `operator-`. -/
def subAssign {T : CircType} (a b : CircVal T) : CircVal T :=
  ofRat T (a.val - b.val + T.Z)

/-- `operator*=`: same formula as `operator*`. -/
def mulAssign {T : CircType} (a : CircVal T) (r : ℚ) : CircVal T :=
  ofRat T ((a.val - T.Z) * r + T.Z)

/-- `operator/=`: same formula as `operator/`. -/
def divAssign {T : CircType} (a : CircVal T) (r : ℚ) : CircVal T :=
  ofRat T ((a.val - T.Z) / r + T.Z)

/-- The cross-descriptor conversion constructor
`CircVal(const CircVal<Type2>&)`. -/
def convert (T : CircType) {T2 : CircType} (c : CircVal T2) : CircVal T :=
  ofRat T (Pdist (ofRat T2 T2.Z) c * T.R / T2.R + T.Z)

/-- `ToR`: unwraps to a real in `[L-Z, H-Z)`, sending `Z` to `0`. -/
def ToR {T : CircType} (c : CircVal T) : ℚ := c.val - T.Z

/-- `ToC`: wraps `r + Z`, the inverse of `ToR`. -/
def ToC (T : CircType) (r : ℚ) : CircVal T := ofRat T (r + T.Z)

theorem ofRat_val (T : CircType) (r : ℚ) : (ofRat T r).val = T.Wrap r := rfl

theorem ofRat_val_eq_of_mem (T : CircType) {r : ℚ} (h0 : T.L ≤ r)
    (h1 : r < T.H) : (ofRat T r).val = r :=
  T.Wrap_eq_of_mem h0 h1

theorem ofRat_zero (T : CircType) : ofRat T T.Z = zero T := by
  apply Subtype.ext
  exact T.Wrap_eq_of_mem T.hLZ T.hZH

end CircVal

/-- The branch adjustment at the heart of `Sdist`, as a function of the raw
difference of stored values: wraps `t` into `[-R/2, R/2)`. -/
def sdw (R t : ℚ) : ℚ :=
  if t < -(R / 2) then t + R else if R / 2 ≤ t then t - R else t

theorem CircVal.Sdist_eq_sdw {T : CircType} (c1 c2 : CircVal T) :
    CircVal.Sdist c1 c2 = sdw T.R (c2.val - c1.val) := rfl

/-- The difference of two in-range values lies in `(-R, R)`. -/
theorem CircVal.val_sub_mem {T : CircType} (c1 c2 : CircVal T) :
    -T.R < c2.val - c1.val ∧ c2.val - c1.val < T.R := by
  have h1 := c1.property
  have h2 := c2.property
  have hRe : T.R = T.H - T.L := rfl
  constructor <;> linarith [h1.1, h1.2, h2.1, h2.2]

theorem sdw_mem {R t : ℚ} (hR : 0 < R) (h1 : -R < t) (h2 : t < R) :
    -(R / 2) ≤ sdw R t ∧ sdw R t < R / 2 := by
  unfold sdw
  split_ifs with ha hb <;> constructor <;> linarith

theorem sdw_sub_int (R t : ℚ) : ∃ k : ℤ, sdw R t = t + k * R := by
  unfold sdw
  split_ifs
  · exact ⟨1, by push_cast; ring⟩
  · exact ⟨-1, by push_cast; ring⟩
  · exact ⟨0, by push_cast; ring⟩

theorem sdw_eq_self {R t : ℚ} (h1 : -(R / 2) ≤ t) (h2 : t < R / 2) :
    sdw R t = t := by
  unfold sdw
  rw [if_neg (by linarith), if_neg (by linarith)]

/-- Two values of `[-R/2, R/2)` that differ by a multiple of `R` are equal. -/
theorem halfRange_rep_unique {R a b : ℚ} (hR : 0 < R) (ha1 : -(R / 2) ≤ a)
    (ha2 : a < R / 2) (hb1 : -(R / 2) ≤ b) (hb2 : b < R / 2)
    (h : ∃ k : ℤ, b = a + k * R) : b = a := by
  obtain ⟨k, hk⟩ := h
  have hk1 : (k : ℚ) * R < R := by linarith
  have hk2 : -R < (k : ℚ) * R := by linarith
  have hq1 : (k : ℚ) < 1 := by
    by_contra hc
    push_neg at hc
    nlinarith
  have hq2 : (-1 : ℚ) < (k : ℚ) := by
    by_contra hc
    push_neg at hc
    nlinarith
  have hz : k = 0 := by
    have u1 : k < 1 := by exact_mod_cast hq1
    have u2 : (-1 : ℤ) < k := by exact_mod_cast hq2
    omega
  rw [hk, hz]
  push_cast
  ring

theorem sdw_congr {R t t' : ℚ} (hR : 0 < R) (ht1 : -R < t) (ht2 : t < R)
    (hs1 : -R < t') (hs2 : t' < R) (h : ∃ k : ℤ, t' = t + k * R) :
    sdw R t' = sdw R t := by
  obtain ⟨k, hk⟩ := h
  obtain ⟨k1, hk1⟩ := sdw_sub_int R t
  obtain ⟨k2, hk2⟩ := sdw_sub_int R t'
  have hm1 := sdw_mem hR ht1 ht2
  have hm2 := sdw_mem hR hs1 hs2
  refine halfRange_rep_unique hR hm1.1 hm1.2 hm2.1 hm2.2 ⟨k + k2 - k1, ?_⟩
  rw [hk2, hk, hk1]
  push_cast
  ring

theorem sdw_scale {c : ℚ} (hc : 0 < c) (R t : ℚ) :
    sdw (c * R) (c * t) = c * sdw R t := by
  unfold sdw
  have e1 : c * t < -(c * R / 2) ↔ t < -(R / 2) := by
    rw [show -(c * R / 2) = c * (-(R / 2)) by ring]
    exact mul_lt_mul_left hc
  have e2 : c * R / 2 ≤ c * t ↔ R / 2 ≤ t := by
    rw [show c * R / 2 = c * (R / 2) by ring]
    exact mul_le_mul_left hc
  by_cases ht1 : t < -(R / 2)
  · rw [if_pos (e1.mpr ht1), if_pos ht1]
    ring
  · by_cases ht2 : R / 2 ≤ t
    · rw [if_neg (by rw [e1]; exact ht1), if_pos (e2.mpr ht2), if_neg ht1,
        if_pos ht2]
      ring
    · rw [if_neg (by rw [e1]; exact ht1), if_neg (by rw [e2]; exact ht2),
        if_neg ht1, if_neg ht2]

theorem abs_sdw_le {R t : ℚ} (hR : 0 < R) (h1 : -R < t) (h2 : t < R)
    (k : ℤ) : |sdw R t| ≤ |t + k * R| := by
  obtain ⟨k0, hk0⟩ := sdw_sub_int R t
  have hm := sdw_mem hR h1 h2
  have habs : |sdw R t| ≤ R / 2 := abs_le.mpr ⟨hm.1, hm.2.le⟩
  have hrw : t + k * R = sdw R t + ((k - k0 : ℤ) : ℚ) * R := by
    rw [hk0]
    push_cast
    ring
  rw [hrw]
  set m : ℤ := k - k0 with hm_def
  rcases lt_trichotomy m 0 with hm0 | hm0 | hm0
  · have hq : (m : ℚ) ≤ -1 := by exact_mod_cast Int.le_sub_one_of_lt hm0
    have hle : sdw R t + (m : ℚ) * R ≤ -(R / 2) := by nlinarith [hm.1, hm.2]
    calc |sdw R t| ≤ R / 2 := habs
      _ ≤ -(sdw R t + (m : ℚ) * R) := by linarith
      _ ≤ |sdw R t + (m : ℚ) * R| := neg_le_abs _
  · rw [hm0]
    simp
  · have hq : (1 : ℚ) ≤ (m : ℚ) := by exact_mod_cast hm0
    have hle : R / 2 ≤ sdw R t + (m : ℚ) * R := by nlinarith [hm.1, hm.2]
    calc |sdw R t| ≤ R / 2 := habs
      _ ≤ sdw R t + (m : ℚ) * R := hle
      _ ≤ |sdw R t + (m : ℚ) * R| := le_abs_self _

theorem sq_sdw_le {R t : ℚ} (hR : 0 < R) (h1 : -R < t) (h2 : t < R)
    (k : ℤ) : (sdw R t) ^ 2 ≤ (t + k * R) ^ 2 := by
  have h := abs_sdw_le hR h1 h2 k
  calc (sdw R t) ^ 2 = |sdw R t| ^ 2 := (sq_abs _).symm
    _ ≤ |t + k * R| ^ 2 := by
        exact pow_le_pow_left (abs_nonneg _) h 2
    _ = (t + k * R) ^ 2 := sq_abs _

/-- `Pdist` bounds, used both by C6 and by the conversion analysis. -/
theorem CircVal.Pdist_mem {T : CircType} (c1 c2 : CircVal T) :
    0 ≤ CircVal.Pdist c1 c2 ∧ CircVal.Pdist c1 c2 < T.R := by
  have h1 := c1.property
  have h2 := c2.property
  have hRe : T.R = T.H - T.L := rfl
  unfold Pdist
  split_ifs with h <;> constructor <;> linarith [h1.1, h1.2, h2.1, h2.2]

/-- `Pdist` differs from the raw value difference by a multiple of `R`. -/
theorem CircVal.Pdist_sub_int {T : CircType} (c1 c2 : CircVal T) :
    ∃ k : ℤ, CircVal.Pdist c1 c2 = c2.val - c1.val + k * T.R := by
  unfold Pdist
  split_ifs
  · exact ⟨0, by push_cast; ring⟩
  · exact ⟨1, by push_cast; ring⟩

/-- A `CircVal`'s stored value is inside `[L, H)`. -/
def inRange (T : CircType) (c : CircVal T) : Prop :=
  T.L ≤ c.val ∧ c.val < T.H

/-- C2: every `CircVal` construction (from a raw value, by default, or by
cross-descriptor conversion) and every arithmetic result (`+`, `-`, scalar
`*`, scalar `/`, unary negate, opposite, and the compound assignments) has a
stored value in `[L, H)`; `Wrap r ∈ [L, H)` for every `r`, and
`Wrap (Wrap r) = Wrap r`. -/
theorem C2_wrap_range_invariant (T T2 : CircType) (r s : ℚ) (a b : CircVal T)
    (c : CircVal T2) :
    (T.L ≤ T.Wrap r ∧ T.Wrap r < T.H) ∧
    T.Wrap (T.Wrap r) = T.Wrap r ∧
    inRange T (CircVal.ofRat T r) ∧
    inRange T (CircVal.zero T) ∧
    inRange T (CircVal.convert T c) ∧
    inRange T (CircVal.add a b) ∧
    inRange T (CircVal.sub a b) ∧
    inRange T (CircVal.smul a s) ∧
    inRange T (CircVal.sdiv a s) ∧
    inRange T (CircVal.neg a) ∧
    inRange T (CircVal.opp a) ∧
    inRange T (CircVal.addAssign a b) ∧
    inRange T (CircVal.subAssign a b) ∧
    inRange T (CircVal.mulAssign a s) ∧
    inRange T (CircVal.divAssign a s) :=
  ⟨T.Wrap_mem r, T.Wrap_idem r, (CircVal.ofRat T r).property,
    (CircVal.zero T).property, (CircVal.convert T c).property,
    (CircVal.add a b).property, (CircVal.sub a b).property,
    (CircVal.smul a s).property, (CircVal.sdiv a s).property,
    (CircVal.neg a).property, (CircVal.opp a).property,
    (CircVal.addAssign a b).property, (CircVal.subAssign a b).property,
    (CircVal.mulAssign a s).property, (CircVal.divAssign a s).property⟩

/-- C6: `Sdist` lands in `[-R/2, R/2)`, `Pdist` lands in `[0, R)`, and
`Sdist(a,b) = -Sdist(b,a)` exactly away from the antipodal boundary value
`Sdist(b,a) = -R/2`. -/
theorem C6_distance_bounds (T : CircType) (a b : CircVal T) :
    (-(T.R / 2) ≤ CircVal.Sdist a b ∧ CircVal.Sdist a b < T.R / 2) ∧
    (0 ≤ CircVal.Pdist a b ∧ CircVal.Pdist a b < T.R) ∧
    (CircVal.Sdist a b = -CircVal.Sdist b a ↔
      CircVal.Sdist b a ≠ -(T.R / 2)) := by
  have hR := T.R_pos
  have hd := CircVal.val_sub_mem a b
  have hd' := CircVal.val_sub_mem b a
  rw [CircVal.Sdist_eq_sdw, CircVal.Sdist_eq_sdw]
  have hm := sdw_mem hR hd.1 hd.2
  have hm' := sdw_mem hR hd'.1 hd'.2
  refine ⟨hm, CircVal.Pdist_mem a b, ?_, ?_⟩
  · intro heq hcon
    rw [hcon] at heq
    simp only [neg_neg] at heq
    linarith [hm.2, heq]
  · intro hne
    have hmem1 : -(T.R / 2) ≤ -sdw T.R (a.val - b.val) := by
      linarith [hm'.2]
    have hmem2 : -sdw T.R (a.val - b.val) < T.R / 2 := by
      rcases lt_or_eq_of_le hm'.1 with hlt | heq
      · linarith
      · exact absurd heq.symm hne
    obtain ⟨k1, hk1⟩ := sdw_sub_int T.R (b.val - a.val)
    obtain ⟨k2, hk2⟩ := sdw_sub_int T.R (a.val - b.val)
    exact halfRange_rep_unique hR hm.1 hm.2 hmem1 hmem2
      ⟨-k1 - k2, by rw [hk2, hk1]; push_cast; ring⟩ |>.symm

/-- C7: commutativity and associativity of `+`, inverses via unary negate,
and the zero value as additive identity. -/
theorem C7_group_laws (T : CircType) (a b c : CircVal T) :
    CircVal.add a b = CircVal.add b a ∧
    CircVal.add a (CircVal.add b c) = CircVal.add (CircVal.add a b) c ∧
    CircVal.add a (CircVal.neg a) = CircVal.zero T ∧
    CircVal.add a (CircVal.zero T) = a := by
  refine ⟨?_, ?_, ?_, ?_⟩
  · apply Subtype.ext
    simp only [CircVal.add, CircVal.ofRat_val]
    ring_nf
  · apply Subtype.ext
    simp only [CircVal.add, CircVal.ofRat_val]
    rw [show a.val + T.Wrap (b.val + c.val - T.Z) - T.Z
        = T.Wrap (b.val + c.val - T.Z) + (a.val - T.Z) by ring,
      T.Wrap_wrap_add_left,
      show T.Wrap (a.val + b.val - T.Z) + c.val - T.Z
        = T.Wrap (a.val + b.val - T.Z) + (c.val - T.Z) by ring,
      T.Wrap_wrap_add_left]
    congr 1
    ring
  · apply Subtype.ext
    simp only [CircVal.add, CircVal.neg, CircVal.ofRat_val, CircVal.zero]
    rw [show a.val + T.Wrap (T.Z - CircVal.Sdist (CircVal.ofRat T T.Z) a) - T.Z
        = T.Wrap (T.Z - CircVal.Sdist (CircVal.ofRat T T.Z) a)
          + (a.val - T.Z) by ring,
      T.Wrap_wrap_add_left]
    rw [CircVal.Sdist_eq_sdw]
    have hz : (CircVal.ofRat T T.Z).val = T.Z :=
      CircVal.ofRat_val_eq_of_mem T T.hLZ T.hZH
    rw [hz]
    obtain ⟨k, hk⟩ := sdw_sub_int T.R (a.val - T.Z)
    rw [show T.Z - sdw T.R (a.val - T.Z) + (a.val - T.Z)
        = T.Z + (a.val - T.Z - sdw T.R (a.val - T.Z)) by ring, hk,
      show T.Z + (a.val - T.Z - (a.val - T.Z + (k : ℚ) * T.R))
        = T.Z + (-k : ℤ) * T.R by push_cast; ring,
      T.Wrap_add_int_mul]
    exact T.Wrap_eq_of_mem T.hLZ T.hZH
  · apply Subtype.ext
    simp only [CircVal.add, CircVal.zero, CircVal.ofRat_val]
    rw [show a.val + T.Z - T.Z = a.val by ring]
    exact T.Wrap_eq_of_mem a.property.1 a.property.2

/-- For `0 ≤ d < R`, the wrap of `Z + d` sits at positive walk `d` from the
zero value. -/
theorem CircVal.Pdist_zero_ofRat {T : CircType} {d : ℚ} (h0 : 0 ≤ d)
    (h1 : d < T.R) :
    CircVal.Pdist (CircVal.zero T) (CircVal.ofRat T (d + T.Z)) = d := by
  have hRe : T.R = T.H - T.L := rfl
  have hZ1 := T.hLZ
  have hZ2 := T.hZH
  by_cases hcase : d + T.Z < T.H
  · have hv : (CircVal.ofRat T (d + T.Z)).val = d + T.Z :=
      CircVal.ofRat_val_eq_of_mem T (by linarith) hcase
    unfold CircVal.Pdist
    rw [hv]
    simp only [CircVal.zero]
    rw [if_pos (by linarith)]
    ring
  · push_neg at hcase
    have hv : (CircVal.ofRat T (d + T.Z)).val = d + T.Z - T.R := by
      rw [CircVal.ofRat_val, ← T.Wrap_sub_R (d + T.Z)]
      exact T.Wrap_eq_of_mem (by linarith) (by linarith)
    unfold CircVal.Pdist
    rw [hv]
    simp only [CircVal.zero]
    rw [if_neg (by intro hcon; linarith)]
    ring

/-- The cross-descriptor conversion, written through `zero` rather than the
wrapped `GetZ()` argument. -/
theorem CircVal.convert_eq (T : CircType) {T2 : CircType} (c : CircVal T2) :
    CircVal.convert T c
      = CircVal.ofRat T
          (CircVal.Pdist (CircVal.zero T2) c * T.R / T2.R + T.Z) := by
  unfold CircVal.convert
  rw [CircVal.ofRat_zero]

/-- The proportional offset from zero is preserved exactly by conversion. -/
theorem CircVal.Pdist_zero_convert (T : CircType) {T2 : CircType}
    (c : CircVal T2) :
    CircVal.Pdist (CircVal.zero T) (CircVal.convert T c)
      = CircVal.Pdist (CircVal.zero T2) c * T.R / T2.R := by
  have hP := CircVal.Pdist_mem (CircVal.zero T2) c
  have hR := T.R_pos
  have hR2 := T2.R_pos
  have hd0 : 0 ≤ CircVal.Pdist (CircVal.zero T2) c * T.R / T2.R :=
    div_nonneg (mul_nonneg hP.1 hR.le) hR2.le
  have hd1 : CircVal.Pdist (CircVal.zero T2) c * T.R / T2.R < T.R := by
    rw [div_lt_iff₀ hR2]
    calc CircVal.Pdist (CircVal.zero T2) c * T.R < T2.R * T.R :=
          mul_lt_mul_of_pos_right hP.2 hR
      _ = T.R * T2.R := by ring
  rw [CircVal.convert_eq]
  exact CircVal.Pdist_zero_ofRat hd0 hd1

/-- C10: cross-descriptor conversion round-trips exactly, and preserves the
proportional non-negative offset from the zero point `Pdist(Z,·)/R`. -/
theorem C10_conversion_roundtrip (T T2 : CircType) (c : CircVal T2) :
    CircVal.convert T2 (CircVal.convert T c) = c ∧
    CircVal.Pdist (CircVal.zero T) (CircVal.convert T c) / T.R
      = CircVal.Pdist (CircVal.zero T2) c / T2.R := by
  have hR := T.R_pos
  have hR2 := T2.R_pos
  constructor
  · apply Subtype.ext
    rw [CircVal.convert_eq T2 (CircVal.convert T c),
      CircVal.Pdist_zero_convert, CircVal.ofRat_val]
    rw [show CircVal.Pdist (CircVal.zero T2) c * T.R / T2.R * T2.R / T.R
        = CircVal.Pdist (CircVal.zero T2) c by field_simp]
    obtain ⟨k, hk⟩ := CircVal.Pdist_sub_int (CircVal.zero T2) c
    have hzv : (CircVal.zero T2).val = T2.Z := rfl
    rw [hzv] at hk
    rw [show CircVal.Pdist (CircVal.zero T2) c + T2.Z
        = c.val + (k : ℚ) * T2.R by rw [hk]; ring,
      T2.Wrap_add_int_mul]
    exact T2.Wrap_eq_of_mem c.property.1 c.property.2
  · rw [CircVal.Pdist_zero_convert]
    field_simp
    ring

/-- The unsigned-degree descriptor `UnsignedDegRange = CircValType<0,360,0>`. -/
def degT : CircType := ⟨0, 360, 0, by norm_num, le_refl 0, by norm_num⟩

/-- The `[0,360)` representative of a sample:
`CircVal<UnsignedDegRange>(a)`. -/
def toDegVal {T : CircType} (a : CircVal T) : ℚ := (CircVal.convert degT a).val

/-- The running `(fMinSumSqrDiff, MinAvrgVals)` pair of the average sweep. -/
abbrev MinState := ℚ × List ℚ

/-- The `TestSum` lambda of `CircAverage`: a strictly lower objective value
replaces the result list, an exact tie appends to it. -/
def TestSum (st : MinState) (fTestAvrg fTestSumDiffSqr : ℚ) : MinState :=
  if fTestSumDiffSqr < st.1 then (fTestSumDiffSqr, [fTestAvrg])
  else if fTestSumDiffSqr = st.1 then (st.1, st.2 ++ [fTestAvrg])
  else st

/-- The `SumSqr` lambda of `CircAverage`: the objective at 180 with no
wrapping set. -/
def SumSqrSeed (sz fSum fSumSqr : ℚ) : ℚ := 32400 * sz - 360 * fSum + fSumSqr

/-- The `SumSqrC` lambda of `CircAverage`. -/
def SumSqrCf (sz fSum fSumSqr x nC fSumC : ℚ) : ℚ :=
  x * (sz * x - 2 * fSum) + fSumSqr - 2 * 360 * fSumC
    + nC * (2 * 360 * x + 360 * 360)

/-- The `SumSqrD` lambda of `CircAverage`. -/
def SumSqrDf (sz fSum fSumSqr x nD fSumD : ℚ) : ℚ :=
  x * (sz * x - 2 * fSum) + fSumSqr + 2 * 360 * fSumD
    + nD * (-(2 * 360) * x + 360 * 360)

/-- The first sweep loop of `CircAverage` (candidate averages in
`(180,360)`, wrapping set `D`), with the after-loop last sector folded into
the base case. -/
def sweepD (sz fSum fSumSqr : ℚ) :
    List ℚ → ℕ → ℚ → ℚ → MinState → MinState
  | [], d, fSumD, fLowerBound, st =>
    let fTestAvrg := (fSum + 360 * (d : ℚ)) / sz
    if fTestAvrg < 360 ∧ fTestAvrg > fLowerBound then
      TestSum st fTestAvrg (SumSqrDf sz fSum fSumSqr fTestAvrg (d : ℚ) fSumD)
    else st
  | x :: xs, d, fSumD, fLowerBound, st =>
    let fTestAvrg := (fSum + 360 * (d : ℚ)) / sz
    let st' :=
      if fTestAvrg > fLowerBound + 180 ∧ fTestAvrg ≤ x + 180 then
        TestSum st fTestAvrg (SumSqrDf sz fSum fSumSqr fTestAvrg (d : ℚ) fSumD)
      else st
    sweepD sz fSum fSumSqr xs (d + 1) (fSumD + x) x st'

/-- The second sweep loop of `CircAverage` (candidate averages in `[0,180)`,
wrapping set `C`), with the after-loop last sector folded into the base
case. -/
def sweepC (sz fSum fSumSqr : ℚ) :
    List ℚ → ℕ → ℚ → ℚ → MinState → MinState
  | [], c, fSumC, fUpperBound, st =>
    let fTestAvrg := (fSum - 360 * (c : ℚ)) / sz
    if fTestAvrg ≥ 0 ∧ fTestAvrg < fUpperBound then
      TestSum st fTestAvrg (SumSqrCf sz fSum fSumSqr fTestAvrg (c : ℚ) fSumC)
    else st
  | x :: xs, c, fSumC, fUpperBound, st =>
    let fTestAvrg := (fSum - 360 * (c : ℚ)) / sz
    let st' :=
      if fTestAvrg ≥ x - 180 ∧ fTestAvrg < fUpperBound - 180 then
        TestSum st fTestAvrg (SumSqrCf sz fSum fSumSqr fTestAvrg (c : ℚ) fSumC)
      else st
    sweepC sz fSum fSumSqr xs (c + 1) (fSumC + x) x st'

/-- The position-level body of `CircAverage` over the `[0,360)`
representatives of the samples: seed at 180, sweep the `D` sectors over the
ascending lower angles, then the `C` sectors over the descending upper
angles. -/
def circAvgState (angles : List ℚ) : MinState :=
  let sz : ℚ := (angles.length : ℚ)
  let fSum := angles.sum
  let fSumSqr := (angles.map Sqr).sum
  let lower := List.insertionSort (· ≤ ·) (angles.filter (fun v => v < 180))
  let upper := List.insertionSort (· ≥ ·) (angles.filter (fun v => 180 < v))
  let st0 : MinState := (SumSqrSeed sz fSum fSumSqr, [180])
  let st1 := sweepD sz fSum fSumSqr lower 0 0 0 st0
  sweepC sz fSum fSumSqr upper 0 0 360 st1

/-- `CircAverage<T>`: convert the samples to `[0,360)`, run the sector
sweep, collect the tied minimizers as a set of `T`-values. -/
def CircAverage (T : CircType) (A : List (CircVal T)) : Finset (CircVal T) :=
  ((circAvgState (A.map toDegVal)).2.map
    (fun v => CircVal.convert T (CircVal.ofRat degT v))).toFinset

/-- The loop of `CircAverage2` over the shift index `i ∈ [1, count)`,
consuming `Angles[i-1]` and carrying `(fSumSqr, fMinSumSqrDiff,
MinShiftIdx)`. -/
def avg2Loop (count fSum : ℚ) :
    List ℚ → ℕ → ℚ × ℚ × List ℕ → ℚ × ℚ × List ℕ
  | [], _, st => st
  | a :: rest, i, (run, m, idxs) =>
    let run' := run + 720 * a
    let v := run' + 360 * 360 * (i : ℚ) - Sqr (fSum + 360 * (i : ℚ)) / count
    let st' :=
      if v < m then (run', v, [i])
      else if v = m then (run', m, idxs ++ [i])
      else (run', m, idxs)
    avg2Loop count fSum rest (i + 1) st'

/-- The position-level body of `CircAverage2`: the minimal objective value
and the winning shift indices. -/
def circAvg2State (angles : List ℚ) : ℚ × List ℕ :=
  let count : ℚ := (angles.length : ℚ)
  let fSum := angles.sum
  let fSumSqr := (angles.map Sqr).sum
  let sorted := List.insertionSort (· ≤ ·) angles
  let st := avg2Loop count fSum sorted.dropLast 1
    (fSumSqr, fSumSqr - Sqr fSum / count, [0])
  (st.2.1, st.2.2)

/-- `CircAverage2<T>`: sort once, sweep the `count` rotation offsets of the
branch cut, convert the winning shifted means back to `T`. -/
def CircAverage2 (T : CircType) (A : List (CircVal T)) : Finset (CircVal T) :=
  ((circAvg2State (A.map toDegVal)).2.map
    (fun i : ℕ => CircVal.convert T (CircVal.ofRat degT
      (((A.map toDegVal).sum + 360 * (i : ℚ)) / ((A.length : ℚ)))))).toFinset

/-- The `std::pair<double,double>` ascending lexicographic order used to
sort the weighted angle lists. -/
abbrev pairLe (p q : ℚ × ℚ) : Prop := p.1 < q.1 ∨ (p.1 = q.1 ∧ p.2 ≤ q.2)

/-- The descending order `greater<pair<double,double>>`. -/
abbrev pairGe (p q : ℚ × ℚ) : Prop := pairLe q p

/-- The `SumSqr` lambda of `WeightedCircAverage`. -/
def WSumSqrSeed (fASumW fASumWA fASumWA2 : ℚ) : ℚ :=
  32400 * fASumW - 360 * fASumWA + fASumWA2

/-- The `SumSqrC` lambda of `WeightedCircAverage`. -/
def WSumSqrCf (fASumW fASumWA fASumWA2 x fCSumW fCSumWC : ℚ) : ℚ :=
  fASumWA2 + x * x * fASumW - 2 * x * fASumWA - 720 * fCSumWC
    + (129600 + 720 * x) * fCSumW

/-- The `SumSqrD` lambda of `WeightedCircAverage`. -/
def WSumSqrDf (fASumW fASumWA fASumWA2 x fDSumW fDSumWD : ℚ) : ℚ :=
  fASumWA2 + x * x * fASumW - 2 * x * fASumWA + 720 * fDSumWD
    + (129600 - 720 * x) * fDSumW

/-- The first (set `D`) sweep loop of `WeightedCircAverage`. -/
def sweepDW (fASumW fASumWA fASumWA2 : ℚ) :
    List (ℚ × ℚ) → ℚ → ℚ → ℚ → MinState → MinState
  | [], fDSumW, fDSumWD, fLowerBound, st =>
    let fTestAvrg := (fASumWA + 360 * fDSumW) / fASumW
    if fTestAvrg < 360 ∧ fTestAvrg > fLowerBound then
      TestSum st fTestAvrg
        (WSumSqrDf fASumW fASumWA fASumWA2 fTestAvrg fDSumW fDSumWD)
    else st
  | p :: xs, fDSumW, fDSumWD, fLowerBound, st =>
    let fTestAvrg := (fASumWA + 360 * fDSumW) / fASumW
    let st' :=
      if fTestAvrg > fLowerBound + 180 ∧ fTestAvrg ≤ p.1 + 180 then
        TestSum st fTestAvrg
          (WSumSqrDf fASumW fASumWA fASumWA2 fTestAvrg fDSumW fDSumWD)
      else st
    sweepDW fASumW fASumWA fASumWA2 xs (fDSumW + p.2) (fDSumWD + p.2 * p.1)
      p.1 st'

/-- The second (set `C`) sweep loop of `WeightedCircAverage`. -/
def sweepCW (fASumW fASumWA fASumWA2 : ℚ) :
    List (ℚ × ℚ) → ℚ → ℚ → ℚ → MinState → MinState
  | [], fCSumW, fCSumWC, fUpperBound, st =>
    let fTestAvrg := (fASumWA - 360 * fCSumW) / fASumW
    if fTestAvrg ≥ 0 ∧ fTestAvrg < fUpperBound then
      TestSum st fTestAvrg
        (WSumSqrCf fASumW fASumWA fASumWA2 fTestAvrg fCSumW fCSumWC)
    else st
  | p :: xs, fCSumW, fCSumWC, fUpperBound, st =>
    let fTestAvrg := (fASumWA - 360 * fCSumW) / fASumW
    let st' :=
      if fTestAvrg ≥ p.1 - 180 ∧ fTestAvrg < fUpperBound - 180 then
        TestSum st fTestAvrg
          (WSumSqrCf fASumW fASumWA fASumWA2 fTestAvrg fCSumW fCSumWC)
      else st
    sweepCW fASumW fASumWA fASumWA2 xs (fCSumW + p.2) (fCSumWC + p.2 * p.1)
      p.1 st'

/-- The position-level body of `WeightedCircAverage` over
`([0,360)-angle, weight)` pairs. The source accumulates `fASumWA2` with `=`
rather than `+=`, so that accumulator holds only the last sample's
`w·v²`; this is embedded faithfully by the overwriting fold. The source
emplaces each winning average into the result `std::set` as it is found;
collecting the winning positions and converting them at the end builds the
same set. -/
def circWAvgState (wangles : List (ℚ × ℚ)) : MinState :=
  let fASumW := (wangles.map (fun p => p.2)).sum
  let fASumWA := (wangles.map (fun p => p.2 * p.1)).sum
  let fASumWA2 := wangles.foldl (fun _ p => p.2 * p.1 * p.1) 0
  let lower := List.insertionSort pairLe (wangles.filter (fun p => p.1 < 180))
  let upper := List.insertionSort pairGe (wangles.filter (fun p => 180 < p.1))
  let st0 : MinState := (WSumSqrSeed fASumW fASumWA fASumWA2, [180])
  let st1 := sweepDW fASumW fASumWA fASumWA2 lower 0 0 0 st0
  sweepCW fASumW fASumWA fASumWA2 upper 0 0 360 st1

/-- `WeightedCircAverage<T>` over `(value, weight)` pairs. -/
def WeightedCircAverage (T : CircType) (A : List (CircVal T × ℚ)) :
    Finset (CircVal T) :=
  ((circWAvgState (A.map (fun p => (toDegVal p.1, p.2)))).2.map
    (fun v => CircVal.convert T (CircVal.ofRat degT v))).toFinset

/-- The state of `CAvrgSampledCircSignal`; `prevC` and `prevTime` start
uninitialized in the source and are given arbitrary defaults here (they are
never read before being written). -/
structure AvrgSampledState (T : CircType) where
  nSamples : ℕ
  prevC : CircVal T
  prevTime : ℚ
  intervals : List (CircVal T × ℚ)

/-- The constructor `CAvrgSampledCircSignal()`. -/
def AvrgSampledState.init (T : CircType) : AvrgSampledState T :=
  ⟨0, CircVal.zero T, 0, []⟩

/-- `AddMeasurement`: on the second and later samples, push the interval
midpoint (half the shortest signed walk from the previous sample) weighted
by the elapsed time. -/
def AddMeasurement {T : CircType} (s : AvrgSampledState T) (C : CircVal T)
    (fTime : ℚ) : AvrgSampledState T :=
  let ints :=
    if s.nSamples ≠ 0 then
      s.intervals ++
        [(CircVal.ofRat T
            (T.Wrap (s.prevC.val + CircVal.Sdist s.prevC C / 2)),
          fTime - s.prevTime)]
    else s.intervals
  ⟨s.nSamples + 1, C, fTime, ints⟩

/-- `GetAvrg`: no result for zero samples (the source returns `false`), the
sample itself for one, and the first element of the weighted average set
otherwise (`*WeightedCircAverage(...).begin()`, the least element of the
`std::set`). -/
def GetAvrg {T : CircType} (s : AvrgSampledState T) : WithTop (CircVal T) :=
  match s.nSamples with
  | 0 => ⊤
  | 1 => (s.prevC : WithTop (CircVal T))
  | _ + 2 => (WeightedCircAverage T s.intervals).min

/-- The candidate list built by `CircMedian` for an even sample count: for
each circularly-consecutive pair of the sorted samples the midpoint of their
shortest arc, and the second bisector as well when the pair is exactly
antipodal (`d = -R/2`). -/
def medPairCands (T : CircType) (S : List (CircVal T)) : List (CircVal T) :=
  ((S.zip (S.rotate 1)).map (fun p =>
    let d := CircVal.Sdist p.1 p.2
    if d = -(T.R / 2) then
      [CircVal.ofRat T (p.1.val + d / 2), CircVal.ofRat T (p.2.val + d / 2)]
    else
      [CircVal.ofRat T (p.1.val + d / 2)])).flatten

/-- The candidate set `B` of `CircMedian`: consecutive-pair midpoints for an
even count, the deduplicated samples themselves for an odd count. -/
def medCandSet (T : CircType) (A : List (CircVal T)) : Finset (CircVal T) :=
  if A.length % 2 = 0 then
    (medPairCands T (List.insertionSort (· ≤ ·) A)).toFinset
  else A.toFinset

/-- The objective of `CircMedian`: `Σ |Sdist(b, aᵢ)|`. -/
def medObj (T : CircType) (A : List (CircVal T)) (b : CircVal T) : ℚ :=
  (A.map (fun a => |CircVal.Sdist b a|)).sum

/-- The evaluation loop of `CircMedian` over the candidates, iterated in the
ascending order of the `std::set`; the running minimum starts at
`numeric_limits<double>::max()`, modelled by `none`. -/
def medEvalLoop (T : CircType) (A : List (CircVal T)) :
    List (CircVal T) → Option ℚ × Finset (CircVal T) →
      Option ℚ × Finset (CircVal T)
  | [], st => st
  | b :: bs, (m, X) =>
    let fSum := medObj T A b
    let st' : Option ℚ × Finset (CircVal T) :=
      match m with
      | none => (some fSum, {b})
      | some mv =>
        if fSum = mv then (m, insert b X)
        else if fSum < mv then (some fSum, {b})
        else (m, X)
    medEvalLoop T A bs st'

/-- `CircMedian<T>`: generate the candidate set, evaluate the exact
objective at each candidate, keep the tied minimizers. -/
def CircMedian (T : CircType) (A : List (CircVal T)) : Finset (CircVal T) :=
  (medEvalLoop T A ((medCandSet T A).sort (· ≤ ·)) (none, ∅)).2

/-- The mean objective `Σ Sdist(x, sᵢ)²` over the sample, at a circular
value `x`. -/
def avgObj (T : CircType) (A : List (CircVal T)) (x : CircVal T) : ℚ :=
  (A.map (fun a => (CircVal.Sdist x a) ^ 2)).sum

theorem degT_L : degT.L = 0 := rfl

theorem degT_H : degT.H = 360 := rfl

theorem degT_R : degT.R = 360 := by
  norm_num [CircType.R, degT]

theorem degT_Z : degT.Z = 0 := rfl

/-- The mean objective over raw `[0,360)` positions. -/
def Fd (l : List ℚ) (x : ℚ) : ℚ := (l.map (fun a => (sdw 360 (a - x)) ^ 2)).sum

/-- Sum of squared distances on the line to a list of shifted sample
representatives. -/
def SumSq (P : List ℚ) (x : ℚ) : ℚ := (P.map (fun p => (x - p) ^ 2)).sum

theorem SumSq_expand (P : List ℚ) (x : ℚ) :
    SumSq P x = (P.length : ℚ) * x ^ 2 - 2 * x * P.sum
      + (P.map (fun p => p ^ 2)).sum := by
  induction P with
  | nil => simp [SumSq]
  | cons p P ih =>
    simp only [SumSq, List.map_cons, List.sum_cons, List.length_cons] at *
    rw [ih]
    push_cast
    ring

theorem SumSq_sub_vertex (P : List ℚ) (hne : P ≠ []) (x : ℚ) :
    SumSq P x - SumSq P (P.sum / (P.length : ℚ))
      = (P.length : ℚ) * (x - P.sum / (P.length : ℚ)) ^ 2 := by
  have hl : ((P.length : ℚ)) ≠ 0 := by
    have : 0 < P.length := List.length_pos.mpr hne
    exact_mod_cast this.ne'
  rw [SumSq_expand, SumSq_expand]
  field_simp
  ring

theorem SumSq_vertex_le (P : List ℚ) (hne : P ≠ []) (x : ℚ) :
    SumSq P (P.sum / (P.length : ℚ)) ≤ SumSq P x := by
  have hl : (0 : ℚ) < (P.length : ℚ) := by
    exact_mod_cast List.length_pos.mpr hne
  have h := SumSq_sub_vertex P hne x
  nlinarith [sq_nonneg (x - P.sum / (P.length : ℚ))]

theorem SumSq_vertex_eq (P : List ℚ) (hne : P ≠ []) (x : ℚ)
    (h : SumSq P x ≤ SumSq P (P.sum / (P.length : ℚ))) :
    x = P.sum / (P.length : ℚ) := by
  have hl : (0 : ℚ) < (P.length : ℚ) := by
    exact_mod_cast List.length_pos.mpr hne
  have hv := SumSq_sub_vertex P hne x
  have hsq : (x - P.sum / (P.length : ℚ)) ^ 2 ≤ 0 := by nlinarith
  have hz : (x - P.sum / (P.length : ℚ)) ^ 2 = 0 :=
    le_antisymm hsq (sq_nonneg _)
  have := (pow_eq_zero_iff (by norm_num : (2 : ℕ) ≠ 0)).mp hz
  linarith [sub_eq_zero.mp this]

/-- `P` consists of one representative per sample, each a shift of the
corresponding angle by a multiple of 360, in order. -/
abbrev IsCover (P l : List ℚ) : Prop :=
  List.Forall₂ (fun p a : ℚ => ∃ k : ℤ, p = a + (k : ℚ) * 360) P l

theorem Fd_wrap_le_SumSq {l P : List ℚ} (hl : ∀ a ∈ l, 0 ≤ a ∧ a < 360)
    (hc : IsCover P l) (y : ℚ) : Fd l (degT.Wrap y) ≤ SumSq P y := by
  induction hc with
  | nil => simp [Fd, SumSq]
  | @cons p a P' l' hpa hrest ih =>
    simp only [Fd, SumSq, List.map_cons, List.sum_cons] at *
    have hbounds := hl a (List.mem_cons_self a l')
    have hwm := degT.Wrap_mem y
    rw [degT_L, degT_H] at hwm
    obtain ⟨j, hj⟩ := degT.Wrap_sub_self y
    rw [degT_R] at hj
    obtain ⟨k, hk⟩ := hpa
    have hterm : (sdw 360 (a - degT.Wrap y)) ^ 2 ≤ (y - p) ^ 2 := by
      have h1 : -(360 : ℚ) < a - degT.Wrap y := by linarith [hbounds.1, hwm.2]
      have h2 : a - degT.Wrap y < 360 := by linarith [hbounds.2, hwm.1]
      have hrw : (y - p) ^ 2
          = (a - degT.Wrap y + ((j + k : ℤ) : ℚ) * 360) ^ 2 := by
        rw [hk, hj]
        push_cast
        ring_nf
      rw [hrw]
      exact sq_sdw_le (by norm_num) h1 h2 (j + k)
    have hrest2 : Fd l' (degT.Wrap y) ≤ SumSq P' y :=
      ih (fun b hb => hl b (List.mem_cons_of_mem a hb))
    simp only [Fd, SumSq] at hrest2
    linarith

/-- The pointwise-optimal cover at `x`: each sample replaced by its nearest
representative. -/
def optCover (x : ℚ) (l : List ℚ) : List ℚ :=
  l.map (fun a => x + sdw 360 (a - x))

theorem optCover_isCover (x : ℚ) (l : List ℚ) : IsCover (optCover x l) l := by
  induction l with
  | nil => exact List.Forall₂.nil
  | cons a l ih =>
    simp only [optCover, List.map_cons]
    refine List.Forall₂.cons ?_ ih
    obtain ⟨k, hk⟩ := sdw_sub_int 360 (a - x)
    exact ⟨k, by rw [hk]; ring⟩

theorem SumSq_optCover (x : ℚ) (l : List ℚ) :
    SumSq (optCover x l) x = Fd l x := by
  induction l with
  | nil => simp [SumSq, Fd, optCover]
  | cons a l ih =>
    simp only [SumSq, Fd, optCover, List.map_cons, List.sum_cons] at *
    rw [show x - (x + sdw 360 (a - x)) = -sdw 360 (a - x) by ring]
    rw [neg_pow, show ((-1 : ℚ)) ^ 2 = 1 by norm_num, one_mul]
    linarith

theorem optCover_length (x : ℚ) (l : List ℚ) :
    (optCover x l).length = l.length := by
  simp [optCover]

theorem optCover_sum (x : ℚ) (l : List ℚ) :
    ∃ K : ℤ, (optCover x l).sum = l.sum + K * 360 := by
  induction l with
  | nil => exact ⟨0, by simp [optCover]⟩
  | cons a l ih =>
    obtain ⟨K, hK⟩ := ih
    obtain ⟨k, hk⟩ := sdw_sub_int 360 (a - x)
    refine ⟨K + k, ?_⟩
    simp only [optCover, List.map_cons, List.sum_cons] at *
    rw [hK, hk]
    push_cast
    ring

theorem optCover_window {x : ℚ} (l : List ℚ) (hx0 : 0 ≤ x) (hx1 : x < 360)
    (hl : ∀ a ∈ l, 0 ≤ a ∧ a < 360) :
    ∀ p ∈ optCover x l, x - 180 ≤ p ∧ p < x + 180 := by
  intro p hp
  simp only [optCover, List.mem_map] at hp
  obtain ⟨a, ha, rfl⟩ := hp
  have hb := hl a ha
  have hm := @sdw_mem 360 (a - x) (by norm_num)
    (by linarith [hb.1]) (by linarith [hb.2])
  norm_num at hm
  constructor <;> linarith [hm.1, hm.2]

/-- Some position of `[0,360)` attains the global minimum of the circular
mean objective: it can be found among the wrapped shifted means. -/
theorem Fd_exists_min (l : List ℚ) (hne : l ≠ [])
    (hl : ∀ a ∈ l, 0 ≤ a ∧ a < 360) :
    ∃ w, (0 ≤ w ∧ w < 360) ∧
      (∃ K : ℤ, w = degT.Wrap ((l.sum + K * 360) / (l.length : ℚ))) ∧
      ∀ y, 0 ≤ y → y < 360 → Fd l w ≤ Fd l y := by
  have hlen : 0 < l.length := List.length_pos.mpr hne
  have hlenq : (0 : ℚ) < (l.length : ℚ) := by exact_mod_cast hlen
  classical
  set V : Finset ℚ :=
    (Finset.range l.length).image
      (fun i : ℕ => degT.Wrap ((l.sum + (i : ℚ) * 360) / (l.length : ℚ)))
    with hV
  have hVne : V.Nonempty := by
    rw [hV]
    exact Finset.Nonempty.image ⟨0, Finset.mem_range.mpr hlen⟩ _
  obtain ⟨w, hwV, hwmin⟩ := Finset.exists_min_image V (Fd l) hVne
  have hwrap : ∀ v ∈ V, ∃ i : ℕ,
      v = degT.Wrap ((l.sum + (i : ℚ) * 360) / (l.length : ℚ)) := by
    intro v hv
    rw [hV] at hv
    obtain ⟨i, _, hi⟩ := Finset.mem_image.mp hv
    exact ⟨i, hi.symm⟩
  obtain ⟨iw, hiw⟩ := hwrap w hwV
  have hwm : 0 ≤ w ∧ w < 360 := by
    rw [hiw]
    have := degT.Wrap_mem ((l.sum + (iw : ℚ) * 360) / (l.length : ℚ))
    rw [degT_L, degT_H] at this
    exact this
  have hWV : ∀ K : ℤ, degT.Wrap ((l.sum + K * 360) / (l.length : ℚ)) ∈ V := by
    intro K
    have hNz : (l.length : ℤ) ≠ 0 := by exact_mod_cast hlen.ne'
    set r : ℤ := K % (l.length : ℤ) with hr
    set q : ℤ := K / (l.length : ℤ) with hq
    have hKqr : K = (l.length : ℤ) * q + r := (Int.ediv_add_emod K _).symm
    have hr0 : 0 ≤ r := Int.emod_nonneg K hNz
    have hrlt : r < (l.length : ℤ) := Int.emod_lt_of_pos K (by exact_mod_cast hlen)
    have harg : (l.sum + (K : ℚ) * 360) / (l.length : ℚ)
        = (l.sum + (r : ℚ) * 360) / (l.length : ℚ) + (q : ℚ) * 360 := by
      rw [show (K : ℚ) = (l.length : ℚ) * (q : ℚ) + (r : ℚ) by
        exact_mod_cast congrArg (fun z : ℤ => (z : ℚ)) hKqr]
      field_simp
      ring
    have hwrapeq : degT.Wrap ((l.sum + (K : ℚ) * 360) / (l.length : ℚ))
        = degT.Wrap ((l.sum + (r : ℚ) * 360) / (l.length : ℚ)) := by
      rw [harg, show ((l.sum + (r : ℚ) * 360) / (l.length : ℚ) + (q : ℚ) * 360)
          = (l.sum + (r : ℚ) * 360) / (l.length : ℚ) + (q : ℤ) * degT.R by
        rw [degT_R]]
      exact degT.Wrap_add_int_mul _ q
    rw [hwrapeq, hV]
    refine Finset.mem_image.mpr ⟨r.toNat, Finset.mem_range.mpr (by omega), ?_⟩
    have hcast : ((r.toNat : ℕ) : ℚ) = (r : ℚ) := by
      exact_mod_cast congrArg (fun z : ℤ => (z : ℚ)) (Int.toNat_of_nonneg hr0)
    rw [hcast]
  have hmin : ∀ y, 0 ≤ y → y < 360 → Fd l w ≤ Fd l y := by
    intro y hy0 hy1
    have h1 : Fd l y = SumSq (optCover y l) y := (SumSq_optCover y l).symm
    have hPne : optCover y l ≠ [] := by
      simp only [optCover]
      exact fun hcon => hne (List.map_eq_nil_iff.mp hcon)
    set μ := (optCover y l).sum / ((optCover y l).length : ℚ) with hμ
    have h2 : SumSq (optCover y l) μ ≤ SumSq (optCover y l) y :=
      SumSq_vertex_le _ hPne y
    have h3 : Fd l (degT.Wrap μ) ≤ SumSq (optCover y l) μ :=
      Fd_wrap_le_SumSq hl (optCover_isCover y l) μ
    obtain ⟨K, hK⟩ := optCover_sum y l
    have hμrw : μ = (l.sum + (K : ℚ) * 360) / (l.length : ℚ) := by
      rw [hμ, hK, optCover_length]
    have h4 : degT.Wrap μ ∈ V := by
      rw [hμrw]
      exact hWV K
    have h5 := hwmin _ h4
    linarith
  refine ⟨w, hwm, ⟨iw, ?_⟩, hmin⟩
  rw [hiw]
  norm_num

theorem Fd_perm {l l' : List ℚ} (h : l.Perm l') (x : ℚ) :
    Fd l x = Fd l' x :=
  (h.map _).sum_eq

theorem SumSq_perm {P P' : List ℚ} (h : P.Perm P') (x : ℚ) :
    SumSq P x = SumSq P' x :=
  (h.map _).sum_eq

theorem sqr_sum_eq (l : List ℚ) :
    (l.map Sqr).sum = (l.map (fun a => a ^ 2)).sum := by
  induction l with
  | nil => simp
  | cons a l ih =>
    simp only [List.map_cons, List.sum_cons, ih, Sqr]
    ring_nf

theorem sum_map_addc (p : List ℚ) (c : ℚ) :
    (p.map (fun a => a + c)).sum = p.sum + c * (p.length : ℚ) := by
  induction p with
  | nil => simp
  | cons a p ih =>
    simp only [List.map_cons, List.sum_cons, List.length_cons, ih]
    push_cast
    ring

theorem sqsum_map_addc (p : List ℚ) (c : ℚ) :
    ((p.map (fun a => a + c)).map (fun a => a ^ 2)).sum
      = (p.map (fun a => a ^ 2)).sum + 2 * c * p.sum
        + c ^ 2 * (p.length : ℚ) := by
  induction p with
  | nil => simp
  | cons a p ih =>
    simp only [List.map_cons, List.sum_cons, List.length_cons, ih]
    push_cast
    ring

/-- The shifted-sample system for a candidate mean in `[180, 360)`: all
samples below the threshold `t` (the antipode of the candidate) are pushed
up one turn. -/
def coverD (t : ℚ) (l : List ℚ) : List ℚ :=
  l.map (fun a => if a < t then a + 360 else a)

/-- The shifted-sample system for a candidate mean in `[0, 180]`: all
samples above the threshold `t` are pushed down one turn. -/
def coverC (t : ℚ) (l : List ℚ) : List ℚ :=
  l.map (fun a => if t < a then a - 360 else a)

theorem coverD_isCover (t : ℚ) (l : List ℚ) : IsCover (coverD t l) l := by
  induction l with
  | nil => exact List.Forall₂.nil
  | cons a l ih =>
    simp only [coverD, List.map_cons] at *
    refine List.Forall₂.cons ?_ ih
    by_cases h : a < t
    · exact ⟨1, by rw [if_pos h]; push_cast; ring⟩
    · exact ⟨0, by rw [if_neg h]; push_cast; ring⟩

theorem coverC_isCover (t : ℚ) (l : List ℚ) : IsCover (coverC t l) l := by
  induction l with
  | nil => exact List.Forall₂.nil
  | cons a l ih =>
    simp only [coverC, List.map_cons] at *
    refine List.Forall₂.cons ?_ ih
    by_cases h : t < a
    · exact ⟨-1, by rw [if_pos h]; push_cast; ring⟩
    · exact ⟨0, by rw [if_neg h]; push_cast; ring⟩

/-- When the prefix of a decomposition is entirely below the threshold and
the remainder entirely at or above it, the `D` cover is an explicit bump of
the prefix. -/
theorem coverD_eq_append (t : ℚ) (pre mid : List ℚ)
    (hpre : ∀ a ∈ pre, a < t) (hmid : ∀ a ∈ mid, ¬a < t) :
    coverD t (pre ++ mid) = pre.map (fun a => a + 360) ++ mid := by
  unfold coverD
  rw [List.map_append]
  congr 1
  · exact List.map_congr_left fun a ha => if_pos (hpre a ha)
  · rw [show mid = mid.map id from (List.map_id mid).symm]
    rw [List.map_map]
    exact List.map_congr_left fun a ha => by
      simp only [Function.comp_apply, id]
      exact if_neg (hmid a (by simpa using ha))

theorem coverC_eq_append (t : ℚ) (pre mid : List ℚ)
    (hpre : ∀ a ∈ pre, t < a) (hmid : ∀ a ∈ mid, ¬t < a) :
    coverC t (pre ++ mid) = pre.map (fun a => a - 360) ++ mid := by
  unfold coverC
  rw [List.map_append]
  congr 1
  · exact List.map_congr_left fun a ha => if_pos (hpre a ha)
  · rw [show mid = mid.map id from (List.map_id mid).symm]
    rw [List.map_map]
    exact List.map_congr_left fun a ha => by
      simp only [Function.comp_apply, id]
      exact if_neg (hmid a (by simpa using ha))

/-- Exactness of the `D` cover at its candidate: for `w ∈ [180, 360)` the
cover realises the circular objective on the line. -/
theorem coverD_exact {l : List ℚ} (hl : ∀ a ∈ l, 0 ≤ a ∧ a < 360) {w : ℚ}
    (hw1 : 180 ≤ w) (hw2 : w < 360) :
    SumSq (coverD (w - 180) l) w = Fd l w := by
  induction l with
  | nil => simp [SumSq, Fd, coverD]
  | cons a l ih =>
    have hb := hl a (List.mem_cons_self a l)
    have hrest := ih fun b hb' => hl b (List.mem_cons_of_mem a hb')
    simp only [SumSq, Fd, coverD, List.map_cons, List.sum_cons] at *
    have hhead : (w - (if a < w - 180 then a + 360 else a)) ^ 2
        = (sdw 360 (a - w)) ^ 2 := by
      by_cases h : a < w - 180
      · rw [if_pos h]
        have hs : sdw 360 (a - w) = a - w + 360 := by
          unfold sdw
          rw [if_pos (by norm_num; linarith)]
        rw [hs]
        ring
      · rw [if_neg h]
        push_neg at h
        have hs : sdw 360 (a - w) = a - w - 360 ∨ sdw 360 (a - w) = a - w := by
          unfold sdw
          rw [if_neg (by norm_num; linarith [hb.1])]
          by_cases h2 : (360 : ℚ) / 2 ≤ a - w
          · rw [if_pos h2]
            exact Or.inl rfl
          · rw [if_neg h2]
            exact Or.inr rfl
        rcases hs with hs | hs
        · have : a - w = 180 := by
            have hmem := @sdw_mem 360 (a - w) (by norm_num)
              (by linarith [hb.1]) (by linarith [hb.2])
            rw [hs] at hmem
            norm_num at hmem
            linarith [hmem.1, hmem.2]
          rw [hs, this, show w - a = -(180 : ℚ) by linarith]
          norm_num
        · rw [hs]
          ring
    linarith [hhead, hrest]

/-- Exactness of the `C` cover at its candidate: for `w ∈ [0, 180]` the
cover realises the circular objective on the line. -/
theorem coverC_exact {l : List ℚ} (hl : ∀ a ∈ l, 0 ≤ a ∧ a < 360) {w : ℚ}
    (hw1 : 0 ≤ w) (hw2 : w ≤ 180) :
    SumSq (coverC (w + 180) l) w = Fd l w := by
  induction l with
  | nil => simp [SumSq, Fd, coverC]
  | cons a l ih =>
    have hb := hl a (List.mem_cons_self a l)
    have hrest := ih fun b hb' => hl b (List.mem_cons_of_mem a hb')
    simp only [SumSq, Fd, coverC, List.map_cons, List.sum_cons] at *
    have hhead : (w - (if w + 180 < a then a - 360 else a)) ^ 2
        = (sdw 360 (a - w)) ^ 2 := by
      by_cases h : w + 180 < a
      · rw [if_pos h]
        have hs : sdw 360 (a - w) = a - w - 360 := by
          unfold sdw
          rw [if_neg (by norm_num; linarith [hb.1]),
            if_pos (by norm_num; linarith)]
        rw [hs]
        ring
      · rw [if_neg h]
        push_neg at h
        have hs : sdw 360 (a - w) = a - w - 360 ∨ sdw 360 (a - w) = a - w := by
          unfold sdw
          rw [if_neg (by norm_num; linarith [hb.1])]
          by_cases h2 : (360 : ℚ) / 2 ≤ a - w
          · rw [if_pos h2]
            exact Or.inl rfl
          · rw [if_neg h2]
            exact Or.inr rfl
        rcases hs with hs | hs
        · have : a - w = 180 := by
            have hmem := @sdw_mem 360 (a - w) (by norm_num)
              (by linarith [hb.1]) (by linarith [hb.2])
            rw [hs] at hmem
            norm_num at hmem
            linarith [hmem.1, hmem.2]
          rw [hs, this, show w - a = -(180 : ℚ) by linarith]
          norm_num
        · rw [hs]
          ring
    linarith [hhead, hrest]

/-- The `SumSqrD` formula computes the line objective of the bumped-prefix
cover. -/
theorem SumSqrDf_eq_SumSq {l : List ℚ} (pre mid : List ℚ)
    (hperm : (pre ++ mid).Perm l) (x : ℚ) :
    SumSqrDf (l.length : ℚ) l.sum ((l.map Sqr).sum) x (pre.length : ℚ)
      pre.sum = SumSq (pre.map (fun a => a + 360) ++ mid) x := by
  have hlen : pre.length + mid.length = l.length := by
    have := hperm.length_eq
    simpa using this
  have hsum : pre.sum + mid.sum = l.sum := by
    have := hperm.sum_eq
    simpa using this
  have hsq : (pre.map (fun a => a ^ 2)).sum + (mid.map (fun a => a ^ 2)).sum
      = (l.map (fun a => a ^ 2)).sum := by
    have := (hperm.map (fun a => a ^ 2)).sum_eq
    simpa using this
  rw [SumSq_expand]
  unfold SumSqrDf
  rw [sqr_sum_eq]
  rw [List.length_append, List.sum_append, List.map_append, List.sum_append]
  rw [List.length_map, sum_map_addc, sqsum_map_addc]
  rw [← hlen, ← hsum, ← hsq]
  push_cast
  ring

/-- The `SumSqrC` formula computes the line objective of the dropped-prefix
cover. -/
theorem SumSqrCf_eq_SumSq {l : List ℚ} (pre mid : List ℚ)
    (hperm : (pre ++ mid).Perm l) (x : ℚ) :
    SumSqrCf (l.length : ℚ) l.sum ((l.map Sqr).sum) x (pre.length : ℚ)
      pre.sum = SumSq (pre.map (fun a => a - 360) ++ mid) x := by
  have hlen : pre.length + mid.length = l.length := by
    have := hperm.length_eq
    simpa using this
  have hsum : pre.sum + mid.sum = l.sum := by
    have := hperm.sum_eq
    simpa using this
  have hsq : (pre.map (fun a => a ^ 2)).sum + (mid.map (fun a => a ^ 2)).sum
      = (l.map (fun a => a ^ 2)).sum := by
    have := (hperm.map (fun a => a ^ 2)).sum_eq
    simpa using this
  rw [SumSq_expand]
  unfold SumSqrCf
  rw [sqr_sum_eq]
  rw [List.length_append, List.sum_append, List.map_append, List.sum_append]
  have hsub : pre.map (fun a => a - 360) = pre.map (fun a => a + -360) := by
    exact List.map_congr_left fun a _ => by ring
  rw [hsub, List.length_map, sum_map_addc, sqsum_map_addc]
  rw [← hlen, ← hsum, ← hsq]
  push_cast
  ring

/-- A cover built from a bumped-up prefix and an untouched remainder. -/
theorem isCover_bumpD (pre mid : List ℚ) :
    IsCover (pre.map (fun a => a + 360) ++ mid) (pre ++ mid) := by
  refine List.rel_append ?_ ?_
  · induction pre with
    | nil => exact List.Forall₂.nil
    | cons a p ih =>
      simp only [List.map_cons]
      exact List.Forall₂.cons ⟨1, by push_cast; ring⟩ ih
  · exact List.forall₂_same.mpr fun a _ => ⟨0, by push_cast; ring⟩

/-- A cover built from a bumped-down prefix and an untouched remainder. -/
theorem isCover_bumpC (pre mid : List ℚ) :
    IsCover (pre.map (fun a => a - 360) ++ mid) (pre ++ mid) := by
  refine List.rel_append ?_ ?_
  · induction pre with
    | nil => exact List.Forall₂.nil
    | cons a p ih =>
      simp only [List.map_cons]
      exact List.Forall₂.cons ⟨-1, by push_cast; ring⟩ ih
  · exact List.forall₂_same.mpr fun a _ => ⟨0, by push_cast; ring⟩

theorem coverD_length (t : ℚ) (l : List ℚ) :
    (coverD t l).length = l.length := by
  simp [coverD]

theorem coverD_sum (t : ℚ) (l : List ℚ) :
    (coverD t l).sum
      = l.sum + 360 * ((l.filter (fun a => a < t)).length : ℚ) := by
  induction l with
  | nil => simp [coverD]
  | cons a l ih =>
    by_cases h : a < t
    · rw [show coverD t (a :: l) = (a + 360) :: coverD t l from by
        simp [coverD, if_pos h]]
      rw [List.filter_cons_of_pos (by simpa using h)]
      simp only [List.sum_cons, List.length_cons, ih]
      push_cast
      ring
    · rw [show coverD t (a :: l) = a :: coverD t l from by
        simp [coverD, if_neg h]]
      rw [List.filter_cons_of_neg (by simpa using h)]
      simp only [List.sum_cons, ih]
      ring

theorem coverC_length (t : ℚ) (l : List ℚ) :
    (coverC t l).length = l.length := by
  simp [coverC]

theorem coverC_sum (t : ℚ) (l : List ℚ) :
    (coverC t l).sum
      = l.sum - 360 * ((l.filter (fun a => t < a)).length : ℚ) := by
  induction l with
  | nil => simp [coverC]
  | cons a l ih =>
    by_cases h : t < a
    · rw [show coverC t (a :: l) = (a - 360) :: coverC t l from by
        simp [coverC, if_pos h]]
      rw [List.filter_cons_of_pos (by simpa using h)]
      simp only [List.sum_cons, List.length_cons, ih]
      push_cast
      ring
    · rw [show coverC t (a :: l) = a :: coverC t l from by
        simp [coverC, if_neg h]]
      rw [List.filter_cons_of_neg (by simpa using h)]
      simp only [List.sum_cons, ih]
      ring

/-- A global minimizer in `[180, 360)` is the vertex of its own `D` cover:
the shifted arithmetic mean with one full turn added per wrapped sample. -/
theorem minimizer_vertexD {l : List ℚ} (hne : l ≠ [])
    (hl0 : ∀ a ∈ l, 0 ≤ a ∧ a < 360) {w : ℚ} (hw1 : 180 ≤ w) (hw2 : w < 360)
    (hmin : ∀ y, 0 ≤ y → y < 360 → Fd l w ≤ Fd l y) :
    w = (l.sum + 360 * ((l.filter (fun a => a < w - 180)).length : ℚ))
        / (l.length : ℚ) := by
  have hex : SumSq (coverD (w - 180) l) w = Fd l w := coverD_exact hl0 hw1 hw2
  have hco := coverD_isCover (w - 180) l
  have hcne : coverD (w - 180) l ≠ [] := by
    simp only [coverD]
    intro hcon
    exact hne (List.map_eq_nil_iff.mp hcon)
  have h2 := SumSq_vertex_le (coverD (w - 180) l) hcne w
  have h3 : Fd l (degT.Wrap ((coverD (w - 180) l).sum
      / ((coverD (w - 180) l).length : ℚ)))
      ≤ SumSq (coverD (w - 180) l) ((coverD (w - 180) l).sum
        / ((coverD (w - 180) l).length : ℚ)) :=
    Fd_wrap_le_SumSq hl0 hco _
  have hWμ := degT.Wrap_mem ((coverD (w - 180) l).sum
    / ((coverD (w - 180) l).length : ℚ))
  rw [degT_L, degT_H] at hWμ
  have h4 := hmin _ hWμ.1 hWμ.2
  have h5 : SumSq (coverD (w - 180) l) w
      ≤ SumSq (coverD (w - 180) l) ((coverD (w - 180) l).sum
        / ((coverD (w - 180) l).length : ℚ)) := by
    rw [hex]
    linarith
  have h6 := SumSq_vertex_eq (coverD (w - 180) l) hcne w h5
  rw [coverD_sum, coverD_length] at h6
  exact h6

/-- A global minimizer in `[0, 180]` is the vertex of its own `C` cover:
the shifted arithmetic mean with one full turn removed per wrapped sample. -/
theorem minimizer_vertexC {l : List ℚ} (hne : l ≠ [])
    (hl0 : ∀ a ∈ l, 0 ≤ a ∧ a < 360) {w : ℚ} (hw1 : 0 ≤ w) (hw2 : w ≤ 180)
    (hmin : ∀ y, 0 ≤ y → y < 360 → Fd l w ≤ Fd l y) :
    w = (l.sum - 360 * ((l.filter (fun a => w + 180 < a)).length : ℚ))
        / (l.length : ℚ) := by
  have hex : SumSq (coverC (w + 180) l) w = Fd l w := coverC_exact hl0 hw1 hw2
  have hco := coverC_isCover (w + 180) l
  have hcne : coverC (w + 180) l ≠ [] := by
    simp only [coverC]
    intro hcon
    exact hne (List.map_eq_nil_iff.mp hcon)
  have h2 := SumSq_vertex_le (coverC (w + 180) l) hcne w
  have h3 : Fd l (degT.Wrap ((coverC (w + 180) l).sum
      / ((coverC (w + 180) l).length : ℚ)))
      ≤ SumSq (coverC (w + 180) l) ((coverC (w + 180) l).sum
        / ((coverC (w + 180) l).length : ℚ)) :=
    Fd_wrap_le_SumSq hl0 hco _
  have hWμ := degT.Wrap_mem ((coverC (w + 180) l).sum
    / ((coverC (w + 180) l).length : ℚ))
  rw [degT_L, degT_H] at hWμ
  have h4 := hmin _ hWμ.1 hWμ.2
  have h5 : SumSq (coverC (w + 180) l) w
      ≤ SumSq (coverC (w + 180) l) ((coverC (w + 180) l).sum
        / ((coverC (w + 180) l).length : ℚ)) := by
    rw [hex]
    linarith
  have h6 := SumSq_vertex_eq (coverC (w + 180) l) hcne w h5
  rw [coverC_sum, coverC_length] at h6
  exact h6

theorem TestSum_sound {l : List ℚ} {st : MinState} {v val : ℚ}
    (hs : ∀ u ∈ st.2, Fd l (degT.Wrap u) ≤ st.1)
    (hval : Fd l (degT.Wrap v) ≤ val) :
    ∀ u ∈ (TestSum st v val).2, Fd l (degT.Wrap u) ≤ (TestSum st v val).1 := by
  unfold TestSum
  split_ifs with h1 h2
  · intro u hu
    simp only [List.mem_singleton] at hu
    subst hu
    exact hval
  · intro u hu
    simp only [List.mem_append, List.mem_singleton] at hu
    rcases hu with hu | hu
    · exact hs u hu
    · subst hu
      rw [← h2]
      exact hval
  · exact hs

theorem TestSum_ge {M : ℚ} {st : MinState} {v val : ℚ}
    (h : M ≤ st.1) (hval : M ≤ val) : M ≤ (TestSum st v val).1 := by
  unfold TestSum
  split_ifs with h1 h2
  · exact hval
  · exact h
  · exact h

theorem TestSum_got {M : ℚ} {st : MinState} {v : ℚ} (h : M ≤ st.1) :
    (TestSum st v M).1 = M ∧ v ∈ (TestSum st v M).2 := by
  unfold TestSum
  split_ifs with h1 h2
  · exact ⟨rfl, List.mem_singleton_self v⟩
  · exact ⟨h2.symm, List.mem_append_right _ (List.mem_singleton_self v)⟩
  · exact absurd (lt_of_le_of_ne h h2) h1

theorem TestSum_keep {M w : ℚ} {st : MinState} {v val : ℚ}
    (hg : st.1 = M ∧ w ∈ st.2) (hval : M ≤ val) :
    (TestSum st v val).1 = M ∧ w ∈ (TestSum st v val).2 := by
  unfold TestSum
  split_ifs with h1 h2
  · rw [hg.1] at h1
    linarith
  · exact ⟨hg.1, List.mem_append_left _ hg.2⟩
  · exact hg

/-- Every candidate probed by the `D` sweep over-approximates the circular
objective at its (wrapped) position; hence the sweep preserves any state
predicate stable under such candidates. -/
theorem sweepD_preserve (l : List ℚ) (hl0 : ∀ a ∈ l, 0 ≤ a ∧ a < 360)
    (Q : MinState → Prop)
    (hQ : ∀ st v val, Q st → Fd l (degT.Wrap v) ≤ val → Q (TestSum st v val)) :
    ∀ (xs pre rest : List ℚ) (bound : ℚ) (st : MinState),
      (pre ++ (xs ++ rest)).Perm l → Q st →
      Q (sweepD (l.length : ℚ) l.sum ((l.map Sqr).sum) xs pre.length pre.sum
          bound st) := by
  intro xs
  induction xs with
  | nil =>
    intro pre rest bound st hperm hq
    simp only [sweepD]
    by_cases hc : (l.sum + 360 * (pre.length : ℚ)) / (l.length : ℚ) < 360 ∧
        (l.sum + 360 * (pre.length : ℚ)) / (l.length : ℚ) > bound
    · rw [if_pos hc]
      refine hQ st _ _ hq ?_
      have hperm' : (pre ++ rest).Perm l := by simpa using hperm
      rw [SumSqrDf_eq_SumSq pre rest hperm']
      calc Fd l (degT.Wrap ((l.sum + 360 * (pre.length : ℚ))
            / (l.length : ℚ)))
          = Fd (pre ++ rest) (degT.Wrap ((l.sum + 360 * (pre.length : ℚ))
            / (l.length : ℚ))) := Fd_perm hperm'.symm _
        _ ≤ SumSq (pre.map (fun a => a + 360) ++ rest)
            ((l.sum + 360 * (pre.length : ℚ)) / (l.length : ℚ)) :=
            Fd_wrap_le_SumSq
              (fun a ha => hl0 a (hperm'.subset ha))
              (isCover_bumpD pre rest) _
    · rw [if_neg hc]
      exact hq
  | cons x xs ih =>
    intro pre rest bound st hperm hq
    simp only [sweepD]
    have hperm' : (pre ++ ((x :: xs) ++ rest)).Perm l := hperm
    have hpermc : (pre ++ (x :: (xs ++ rest))).Perm l := by
      simpa using hperm
    have hq' : Q (if (l.sum + 360 * (pre.length : ℚ)) / (l.length : ℚ)
          > bound + 180 ∧
          (l.sum + 360 * (pre.length : ℚ)) / (l.length : ℚ) ≤ x + 180 then
        TestSum st ((l.sum + 360 * (pre.length : ℚ)) / (l.length : ℚ))
          (SumSqrDf (l.length : ℚ) l.sum ((l.map Sqr).sum)
            ((l.sum + 360 * (pre.length : ℚ)) / (l.length : ℚ))
            (pre.length : ℚ) pre.sum)
      else st) := by
      split_ifs with hc
      · refine hQ st _ _ hq ?_
        have hpermm : (pre ++ (x :: xs ++ rest)).Perm l := by simpa using hperm
        rw [SumSqrDf_eq_SumSq pre (x :: xs ++ rest) hpermm]
        calc Fd l (degT.Wrap ((l.sum + 360 * (pre.length : ℚ))
              / (l.length : ℚ)))
            = Fd (pre ++ (x :: xs ++ rest))
              (degT.Wrap ((l.sum + 360 * (pre.length : ℚ))
                / (l.length : ℚ))) := Fd_perm hpermm.symm _
          _ ≤ SumSq (pre.map (fun a => a + 360) ++ (x :: xs ++ rest))
              ((l.sum + 360 * (pre.length : ℚ)) / (l.length : ℚ)) :=
              Fd_wrap_le_SumSq
                (fun a ha => hl0 a (hpermm.subset ha))
                (isCover_bumpD pre (x :: xs ++ rest)) _
      · exact hq
    have hrec := ih (pre ++ [x]) rest x _ (by simpa using hperm) hq'
    simpa using hrec

/-- Every candidate probed by the `C` sweep over-approximates the circular
objective at its (wrapped) position; hence the sweep preserves any state
predicate stable under such candidates. -/
theorem sweepC_preserve (l : List ℚ) (hl0 : ∀ a ∈ l, 0 ≤ a ∧ a < 360)
    (Q : MinState → Prop)
    (hQ : ∀ st v val, Q st → Fd l (degT.Wrap v) ≤ val → Q (TestSum st v val)) :
    ∀ (xs pre rest : List ℚ) (bound : ℚ) (st : MinState),
      (pre ++ (xs ++ rest)).Perm l → Q st →
      Q (sweepC (l.length : ℚ) l.sum ((l.map Sqr).sum) xs pre.length pre.sum
          bound st) := by
  intro xs
  induction xs with
  | nil =>
    intro pre rest bound st hperm hq
    simp only [sweepC]
    by_cases hc : (l.sum - 360 * (pre.length : ℚ)) / (l.length : ℚ) ≥ 0 ∧
        (l.sum - 360 * (pre.length : ℚ)) / (l.length : ℚ) < bound
    · rw [if_pos hc]
      refine hQ st _ _ hq ?_
      have hperm' : (pre ++ rest).Perm l := by simpa using hperm
      rw [SumSqrCf_eq_SumSq pre rest hperm']
      calc Fd l (degT.Wrap ((l.sum - 360 * (pre.length : ℚ))
            / (l.length : ℚ)))
          = Fd (pre ++ rest) (degT.Wrap ((l.sum - 360 * (pre.length : ℚ))
            / (l.length : ℚ))) := Fd_perm hperm'.symm _
        _ ≤ SumSq (pre.map (fun a => a - 360) ++ rest)
            ((l.sum - 360 * (pre.length : ℚ)) / (l.length : ℚ)) :=
            Fd_wrap_le_SumSq
              (fun a ha => hl0 a (hperm'.subset ha))
              (isCover_bumpC pre rest) _
    · rw [if_neg hc]
      exact hq
  | cons x xs ih =>
    intro pre rest bound st hperm hq
    simp only [sweepC]
    have hq' : Q (if (l.sum - 360 * (pre.length : ℚ)) / (l.length : ℚ)
          ≥ x - 180 ∧
          (l.sum - 360 * (pre.length : ℚ)) / (l.length : ℚ)
            < bound - 180 then
        TestSum st ((l.sum - 360 * (pre.length : ℚ)) / (l.length : ℚ))
          (SumSqrCf (l.length : ℚ) l.sum ((l.map Sqr).sum)
            ((l.sum - 360 * (pre.length : ℚ)) / (l.length : ℚ))
            (pre.length : ℚ) pre.sum)
      else st) := by
      split_ifs with hc
      · refine hQ st _ _ hq ?_
        have hpermm : (pre ++ (x :: xs ++ rest)).Perm l := by simpa using hperm
        rw [SumSqrCf_eq_SumSq pre (x :: xs ++ rest) hpermm]
        calc Fd l (degT.Wrap ((l.sum - 360 * (pre.length : ℚ))
              / (l.length : ℚ)))
            = Fd (pre ++ (x :: xs ++ rest))
              (degT.Wrap ((l.sum - 360 * (pre.length : ℚ))
                / (l.length : ℚ))) := Fd_perm hpermm.symm _
          _ ≤ SumSq (pre.map (fun a => a - 360) ++ (x :: xs ++ rest))
              ((l.sum - 360 * (pre.length : ℚ)) / (l.length : ℚ)) :=
              Fd_wrap_le_SumSq
                (fun a ha => hl0 a (hpermm.subset ha))
                (isCover_bumpC pre (x :: xs ++ rest)) _
      · exact hq
    have hrec := ih (pre ++ [x]) rest x _ (by simpa using hperm) hq'
    simpa using hrec

/-- Any `D`-sweep candidate value over-approximates the wrapped objective. -/
theorem candD_ge (l : List ℚ) (hl0 : ∀ a ∈ l, 0 ≤ a ∧ a < 360)
    (pre mid : List ℚ) (hperm : (pre ++ mid).Perm l) (v : ℚ) :
    Fd l (degT.Wrap v)
      ≤ SumSqrDf (l.length : ℚ) l.sum ((l.map Sqr).sum) v (pre.length : ℚ)
          pre.sum := by
  rw [SumSqrDf_eq_SumSq pre mid hperm]
  calc Fd l (degT.Wrap v) = Fd (pre ++ mid) (degT.Wrap v) :=
        Fd_perm hperm.symm _
    _ ≤ SumSq (pre.map (fun a => a + 360) ++ mid) v :=
        Fd_wrap_le_SumSq (fun a ha => hl0 a (hperm.subset ha))
          (isCover_bumpD pre mid) _

/-- Any `C`-sweep candidate value over-approximates the wrapped objective. -/
theorem candC_ge (l : List ℚ) (hl0 : ∀ a ∈ l, 0 ≤ a ∧ a < 360)
    (pre mid : List ℚ) (hperm : (pre ++ mid).Perm l) (v : ℚ) :
    Fd l (degT.Wrap v)
      ≤ SumSqrCf (l.length : ℚ) l.sum ((l.map Sqr).sum) v (pre.length : ℚ)
          pre.sum := by
  rw [SumSqrCf_eq_SumSq pre mid hperm]
  calc Fd l (degT.Wrap v) = Fd (pre ++ mid) (degT.Wrap v) :=
        Fd_perm hperm.symm _
    _ ≤ SumSq (pre.map (fun a => a - 360) ++ mid) v :=
        Fd_wrap_le_SumSq (fun a ha => hl0 a (hperm.subset ha))
          (isCover_bumpC pre mid) _

/-- If the global minimizer lies in `(180, 360)`, the `D` sweep probes it
exactly and records both the minimal value and the position. -/
theorem sweepD_reach (l : List ℚ) (hl0 : ∀ a ∈ l, 0 ≤ a ∧ a < 360)
    {w : ℚ} (hw1 : 180 < w) (hw2 : w < 360)
    (hmin : ∀ y, 0 ≤ y → y < 360 → Fd l w ≤ Fd l y) :
    ∀ (xs pre rest : List ℚ) (bound : ℚ) (st : MinState),
      (pre ++ (xs ++ rest)).Perm l →
      List.Sorted (· ≤ ·) xs →
      (∀ a ∈ rest, ¬a < w - 180) →
      bound < w - 180 →
      w = (l.sum + 360 * ((pre.length : ℚ)
            + ((xs.filter (fun a => a < w - 180)).length : ℚ)))
          / (l.length : ℚ) →
      (∀ a ∈ pre, a < w - 180) →
      Fd l w ≤ st.1 →
      ((sweepD (l.length : ℚ) l.sum ((l.map Sqr).sum) xs pre.length pre.sum
          bound st).1 = Fd l w ∧
        w ∈ (sweepD (l.length : ℚ) l.sum ((l.map Sqr).sum) xs pre.length
          pre.sum bound st).2) := by
  have hQkeep : ∀ st v val,
      (st.1 = Fd l w ∧ w ∈ st.2) → Fd l (degT.Wrap v) ≤ val →
      ((TestSum st v val).1 = Fd l w ∧ w ∈ (TestSum st v val).2) := by
    intro st v val hq hv
    have hwm := degT.Wrap_mem v
    rw [degT_L, degT_H] at hwm
    exact TestSum_keep hq (le_trans (hmin _ hwm.1 hwm.2) hv)
  intro xs
  induction xs with
  | nil =>
    intro pre rest bound st hperm hsort hrest hbound hvert hpre hge
    simp only [sweepD]
    have hveq : (l.sum + 360 * (pre.length : ℚ)) / (l.length : ℚ) = w := by
      rw [hvert]
      norm_num
    rw [hveq]
    rw [if_pos ⟨hw2, lt_of_lt_of_le hbound (by linarith)⟩]
    have hpermm : (pre ++ rest).Perm l := by simpa using hperm
    have hval : SumSqrDf (l.length : ℚ) l.sum ((l.map Sqr).sum) w
        (pre.length : ℚ) pre.sum = Fd l w := by
      rw [SumSqrDf_eq_SumSq pre rest hpermm,
        ← coverD_eq_append (w - 180) pre rest hpre hrest]
      calc SumSq (coverD (w - 180) (pre ++ rest)) w
          = Fd (pre ++ rest) w :=
            coverD_exact (fun a ha => hl0 a (hpermm.subset ha)) hw1.le hw2
        _ = Fd l w := Fd_perm hpermm _
    rw [hval]
    exact TestSum_got hge
  | cons x xs ih =>
    intro pre rest bound st hperm hsort hrest hbound hvert hpre hge
    simp only [sweepD]
    have hpermm : (pre ++ (x :: xs ++ rest)).Perm l := by simpa using hperm
    by_cases hx : x < w - 180
    · -- consume x and recurse
      have hstep : Fd l w ≤ (if (l.sum + 360 * (pre.length : ℚ))
            / (l.length : ℚ) > bound + 180 ∧
          (l.sum + 360 * (pre.length : ℚ)) / (l.length : ℚ) ≤ x + 180 then
          TestSum st ((l.sum + 360 * (pre.length : ℚ)) / (l.length : ℚ))
            (SumSqrDf (l.length : ℚ) l.sum ((l.map Sqr).sum)
              ((l.sum + 360 * (pre.length : ℚ)) / (l.length : ℚ))
              (pre.length : ℚ) pre.sum)
        else st).1 := by
        split_ifs with hc
        · have hcand := candD_ge l hl0 pre (x :: xs ++ rest) hpermm
            ((l.sum + 360 * (pre.length : ℚ)) / (l.length : ℚ))
          have hwm := degT.Wrap_mem
            ((l.sum + 360 * (pre.length : ℚ)) / (l.length : ℚ))
          rw [degT_L, degT_H] at hwm
          exact TestSum_ge hge (le_trans (hmin _ hwm.1 hwm.2) hcand)
        · exact hge
      have hvert' : w = (l.sum + 360 * (((pre ++ [x]).length : ℚ)
            + ((xs.filter (fun a => a < w - 180)).length : ℚ)))
          / (l.length : ℚ) := by
        conv_lhs => rw [hvert]
        congr 1
        rw [List.filter_cons_of_pos (by simpa using hx)]
        push_cast [List.length_cons, List.length_append, List.length_nil]
        ring
      have hrec := ih (pre ++ [x]) rest x _ (by simpa using hperm)
        hsort.of_cons hrest hx hvert'
        (fun a ha => by
          rcases List.mem_append.mp ha with ha | ha
          · exact hpre a ha
          · rw [List.mem_singleton.mp ha]
            exact hx)
        hstep
      simpa using hrec
    · -- the target sector is reached at this step
      have hxs0 : xs.filter (fun a => a < w - 180) = [] := by
        rw [List.filter_eq_nil_iff]
        intro b hb
        have hxb : x ≤ b := (List.sorted_cons.mp hsort).1 b hb
        simp only [decide_eq_true_eq]
        intro hcon
        exact hx (lt_of_le_of_lt hxb hcon)
      have hcnt : (x :: xs).filter (fun a => a < w - 180) = [] := by
        rw [List.filter_cons_of_neg (by simpa using hx), hxs0]
      have hveq : (l.sum + 360 * (pre.length : ℚ)) / (l.length : ℚ) = w := by
        rw [hvert, hcnt]
        norm_num
      rw [hveq]
      push_neg at hx
      rw [if_pos ⟨by linarith, by linarith⟩]
      have hpermr : (pre ++ (x :: xs ++ rest)).Perm l := hpermm
      have hval : SumSqrDf (l.length : ℚ) l.sum ((l.map Sqr).sum) w
          (pre.length : ℚ) pre.sum = Fd l w := by
        rw [SumSqrDf_eq_SumSq pre (x :: xs ++ rest) hpermr,
          ← coverD_eq_append (w - 180) pre (x :: xs ++ rest) hpre ?hmid]
        case hmid =>
          intro a ha
          rcases List.mem_cons.mp ha with ha | ha
          · rw [ha]
            exact fun hcon => absurd hx (not_le.mpr hcon)
          · rcases List.mem_append.mp ha with ha | ha
            · intro hcon
              have hxb : x ≤ a := (List.sorted_cons.mp hsort).1 a ha
              linarith
            · exact hrest a ha
        calc SumSq (coverD (w - 180) (pre ++ (x :: xs ++ rest))) w
            = Fd (pre ++ (x :: xs ++ rest)) w :=
              coverD_exact (fun a ha => hl0 a (hpermr.subset ha)) hw1.le hw2
          _ = Fd l w := Fd_perm hpermr _
      rw [hval]
      have hgot := @TestSum_got (Fd l w) st w hge
      have hrec := sweepD_preserve l hl0
        (fun s => s.1 = Fd l w ∧ w ∈ s.2) hQkeep xs (pre ++ [x]) rest x
        (TestSum st w (Fd l w)) (by simpa using hperm) hgot
      simpa using hrec

/-- If the global minimizer lies in `[0, 180)`, the `C` sweep probes it
exactly and records both the minimal value and the position. -/
theorem sweepC_reach (l : List ℚ) (hl0 : ∀ a ∈ l, 0 ≤ a ∧ a < 360)
    {w : ℚ} (hw1 : 0 ≤ w) (hw2 : w < 180)
    (hmin : ∀ y, 0 ≤ y → y < 360 → Fd l w ≤ Fd l y) :
    ∀ (xs pre rest : List ℚ) (bound : ℚ) (st : MinState),
      (pre ++ (xs ++ rest)).Perm l →
      List.Sorted (· ≥ ·) xs →
      (∀ a ∈ rest, ¬w + 180 < a) →
      w + 180 < bound →
      w = (l.sum - 360 * ((pre.length : ℚ)
            + ((xs.filter (fun a => w + 180 < a)).length : ℚ)))
          / (l.length : ℚ) →
      (∀ a ∈ pre, w + 180 < a) →
      Fd l w ≤ st.1 →
      ((sweepC (l.length : ℚ) l.sum ((l.map Sqr).sum) xs pre.length pre.sum
          bound st).1 = Fd l w ∧
        w ∈ (sweepC (l.length : ℚ) l.sum ((l.map Sqr).sum) xs pre.length
          pre.sum bound st).2) := by
  have hQkeep : ∀ st v val,
      (st.1 = Fd l w ∧ w ∈ st.2) → Fd l (degT.Wrap v) ≤ val →
      ((TestSum st v val).1 = Fd l w ∧ w ∈ (TestSum st v val).2) := by
    intro st v val hq hv
    have hwm := degT.Wrap_mem v
    rw [degT_L, degT_H] at hwm
    exact TestSum_keep hq (le_trans (hmin _ hwm.1 hwm.2) hv)
  intro xs
  induction xs with
  | nil =>
    intro pre rest bound st hperm hsort hrest hbound hvert hpre hge
    simp only [sweepC]
    have hveq : (l.sum - 360 * (pre.length : ℚ)) / (l.length : ℚ) = w := by
      rw [hvert]
      norm_num
    rw [hveq]
    rw [if_pos ⟨hw1, by linarith⟩]
    have hpermm : (pre ++ rest).Perm l := by simpa using hperm
    have hval : SumSqrCf (l.length : ℚ) l.sum ((l.map Sqr).sum) w
        (pre.length : ℚ) pre.sum = Fd l w := by
      rw [SumSqrCf_eq_SumSq pre rest hpermm,
        ← coverC_eq_append (w + 180) pre rest hpre hrest]
      calc SumSq (coverC (w + 180) (pre ++ rest)) w
          = Fd (pre ++ rest) w :=
            coverC_exact (fun a ha => hl0 a (hpermm.subset ha)) hw1 hw2.le
        _ = Fd l w := Fd_perm hpermm _
    rw [hval]
    exact TestSum_got hge
  | cons x xs ih =>
    intro pre rest bound st hperm hsort hrest hbound hvert hpre hge
    simp only [sweepC]
    have hpermm : (pre ++ (x :: xs ++ rest)).Perm l := by simpa using hperm
    by_cases hx : w + 180 < x
    · -- consume x and recurse
      have hstep : Fd l w ≤ (if (l.sum - 360 * (pre.length : ℚ))
            / (l.length : ℚ) ≥ x - 180 ∧
          (l.sum - 360 * (pre.length : ℚ)) / (l.length : ℚ)
            < bound - 180 then
          TestSum st ((l.sum - 360 * (pre.length : ℚ)) / (l.length : ℚ))
            (SumSqrCf (l.length : ℚ) l.sum ((l.map Sqr).sum)
              ((l.sum - 360 * (pre.length : ℚ)) / (l.length : ℚ))
              (pre.length : ℚ) pre.sum)
        else st).1 := by
        split_ifs with hc
        · have hcand := candC_ge l hl0 pre (x :: xs ++ rest) hpermm
            ((l.sum - 360 * (pre.length : ℚ)) / (l.length : ℚ))
          have hwm := degT.Wrap_mem
            ((l.sum - 360 * (pre.length : ℚ)) / (l.length : ℚ))
          rw [degT_L, degT_H] at hwm
          exact TestSum_ge hge (le_trans (hmin _ hwm.1 hwm.2) hcand)
        · exact hge
      have hvert' : w = (l.sum - 360 * (((pre ++ [x]).length : ℚ)
            + ((xs.filter (fun a => w + 180 < a)).length : ℚ)))
          / (l.length : ℚ) := by
        conv_lhs => rw [hvert]
        congr 1
        rw [List.filter_cons_of_pos (by simpa using hx)]
        push_cast [List.length_cons, List.length_append, List.length_nil]
        ring
      have hrec := ih (pre ++ [x]) rest x _ (by simpa using hperm)
        hsort.of_cons hrest hx hvert'
        (fun a ha => by
          rcases List.mem_append.mp ha with ha | ha
          · exact hpre a ha
          · rw [List.mem_singleton.mp ha]
            exact hx)
        hstep
      simpa using hrec
    · -- the target sector is reached at this step
      have hxs0 : xs.filter (fun a => w + 180 < a) = [] := by
        rw [List.filter_eq_nil_iff]
        intro b hb
        have hxb : b ≤ x := (List.sorted_cons.mp hsort).1 b hb
        simp only [decide_eq_true_eq]
        intro hcon
        exact hx (lt_of_lt_of_le hcon hxb)
      have hcnt : (x :: xs).filter (fun a => w + 180 < a) = [] := by
        rw [List.filter_cons_of_neg (by simpa using hx), hxs0]
      have hveq : (l.sum - 360 * (pre.length : ℚ)) / (l.length : ℚ) = w := by
        rw [hvert, hcnt]
        norm_num
      rw [hveq]
      push_neg at hx
      rw [if_pos ⟨by linarith, by linarith⟩]
      have hval : SumSqrCf (l.length : ℚ) l.sum ((l.map Sqr).sum) w
          (pre.length : ℚ) pre.sum = Fd l w := by
        rw [SumSqrCf_eq_SumSq pre (x :: xs ++ rest) hpermm,
          ← coverC_eq_append (w + 180) pre (x :: xs ++ rest) hpre ?hmid]
        case hmid =>
          intro a ha
          rcases List.mem_cons.mp ha with ha | ha
          · rw [ha]
            exact fun hcon => absurd hx (not_le.mpr hcon)
          · rcases List.mem_append.mp ha with ha | ha
            · intro hcon
              have hxb : a ≤ x := (List.sorted_cons.mp hsort).1 a ha
              linarith
            · exact hrest a ha
        calc SumSq (coverC (w + 180) (pre ++ (x :: xs ++ rest))) w
            = Fd (pre ++ (x :: xs ++ rest)) w :=
              coverC_exact (fun a ha => hl0 a (hpermm.subset ha)) hw1 hw2.le
          _ = Fd l w := Fd_perm hpermm _
      rw [hval]
      have hgot := @TestSum_got (Fd l w) st w hge
      have hrec := sweepC_preserve l hl0
        (fun s => s.1 = Fd l w ∧ w ∈ s.2) hQkeep xs (pre ++ [x]) rest x
        (TestSum st w (Fd l w)) (by simpa using hperm) hgot
      simpa using hrec

/-- The degree representative lies in `[0, 360)`. -/
theorem toDegVal_mem {T : CircType} (a : CircVal T) :
    0 ≤ toDegVal a ∧ toDegVal a < 360 :=
  (CircVal.convert degT a).property

/-- Over the degree descriptor, `Pdist` from zero reads off the raw value. -/
theorem Pdist_degT_zero (c : CircVal degT) :
    CircVal.Pdist (CircVal.zero degT) c = c.val := by
  have hz : (CircVal.zero degT).val = 0 := rfl
  unfold CircVal.Pdist
  rw [hz, if_pos (show (0 : ℚ) ≤ c.val from c.property.1)]
  ring

/-- `toDegVal` is the proportional offset from zero scaled to degrees. -/
theorem toDegVal_eq (T : CircType) (a : CircVal T) :
    toDegVal a = CircVal.Pdist (CircVal.zero T) a * 360 / T.R := by
  unfold toDegVal
  rw [← Pdist_degT_zero (CircVal.convert degT a), CircVal.Pdist_zero_convert,
    degT_R]

/-- Converting a degree position into `T` and reading it back in degrees
wraps the position into `[0, 360)`. -/
theorem toDegVal_convert_ofRat (T : CircType) (u : ℚ) :
    toDegVal (CircVal.convert T (CircVal.ofRat degT u)) = degT.Wrap u := by
  have hR := T.R_pos.ne'
  rw [toDegVal_eq, CircVal.Pdist_zero_convert, Pdist_degT_zero, degT_R,
    CircVal.ofRat_val]
  field_simp

/-- Degree-frame wrapped differences scale the `Sdist` of the original
descriptor by `360 / R`. -/
theorem sdw_toDegVal {T : CircType} (x s : CircVal T) :
    sdw 360 (toDegVal s - toDegVal x) = CircVal.Sdist x s * (360 / T.R) := by
  have hR := T.R_pos
  have hRne := hR.ne'
  have hc : (0 : ℚ) < 360 / T.R := by positivity
  have hcR : 360 / T.R * T.R = 360 := by field_simp
  have ht := CircVal.val_sub_mem x s
  obtain ⟨ks, hks⟩ := CircVal.Pdist_sub_int (CircVal.zero T) s
  obtain ⟨kx, hkx⟩ := CircVal.Pdist_sub_int (CircVal.zero T) x
  have hzv : (CircVal.zero T).val = T.Z := rfl
  have hdiff : toDegVal s - toDegVal x
      = 360 / T.R * (s.val - x.val) + ((ks - kx : ℤ) : ℚ) * 360 := by
    rw [toDegVal_eq, toDegVal_eq, hks, hkx, hzv]
    push_cast
    field_simp
    ring
  have hms := toDegVal_mem s
  have hmx := toDegVal_mem x
  have hb1 : -(360 : ℚ) < toDegVal s - toDegVal x := by
    linarith [hms.1, hms.2, hmx.1, hmx.2]
  have hb2 : toDegVal s - toDegVal x < 360 := by
    linarith [hms.1, hms.2, hmx.1, hmx.2]
  have hb3 : -(360 : ℚ) < 360 / T.R * (s.val - x.val) := by
    have h := mul_lt_mul_of_pos_left ht.1 hc
    rw [show 360 / T.R * -T.R = -360 by field_simp] at h
    exact h
  have hb4 : 360 / T.R * (s.val - x.val) < 360 := by
    have h := mul_lt_mul_of_pos_left ht.2 hc
    rw [hcR] at h
    exact h
  calc sdw 360 (toDegVal s - toDegVal x)
      = sdw 360 (360 / T.R * (s.val - x.val)) := by
        apply sdw_congr (by norm_num) hb3 hb4 hb1 hb2
        exact ⟨ks - kx, hdiff⟩
    _ = sdw (360 / T.R * T.R) (360 / T.R * (s.val - x.val)) := by rw [hcR]
    _ = 360 / T.R * sdw T.R (s.val - x.val) := sdw_scale hc T.R _
    _ = CircVal.Sdist x s * (360 / T.R) := by
        rw [CircVal.Sdist_eq_sdw]
        ring

/-- The degree objective of the converted sample computes the `T`-frame
objective scaled by `(360 / R)²`. -/
theorem Fd_toDegVal (T : CircType) (A : List (CircVal T)) (x : CircVal T) :
    Fd (A.map toDegVal) (toDegVal x) = (360 / T.R) ^ 2 * avgObj T A x := by
  unfold Fd avgObj
  rw [List.map_map]
  induction A with
  | nil => simp
  | cons a A ih =>
    simp only [List.map_cons, List.sum_cons, Function.comp] at *
    rw [ih, sdw_toDegVal]
    ring

/-- The seed value probed at 180 equals the circular objective there. -/
theorem SumSqrSeed_eq_Fd (l : List ℚ) (hl0 : ∀ a ∈ l, 0 ≤ a ∧ a < 360) :
    SumSqrSeed (l.length : ℚ) l.sum ((l.map Sqr).sum) = Fd l 180 := by
  induction l with
  | nil => simp [SumSqrSeed, Fd]
  | cons a l ih =>
    have hb := hl0 a (List.mem_cons_self a l)
    have hrest := ih fun b hb' => hl0 b (List.mem_cons_of_mem a hb')
    have hsd : sdw 360 (a - 180) = a - 180 :=
      sdw_eq_self (by linarith [hb.1]) (by linarith [hb.2])
    simp only [SumSqrSeed, Fd, Sqr, List.map_cons, List.sum_cons,
      List.length_cons] at *
    rw [hsd]
    push_cast
    linear_combination hrest

/-- Positions already in `[0, 360)` are fixed by the degree wrap. -/
theorem degT_Wrap_eq_self {u : ℚ} (h0 : 0 ≤ u) (h1 : u < 360) :
    degT.Wrap u = u := degT.Wrap_eq_of_mem h0 h1

/-- Filtering the sorted lower list by a sub-180 threshold counts the same
elements as filtering the full list. -/
theorem filter_lower_length (l : List ℚ) {t : ℚ} (ht : t ≤ 180) :
    ((List.insertionSort (· ≤ ·) (l.filter (fun v => v < 180))).filter
        (fun a => a < t)).length
      = (l.filter (fun a => a < t)).length := by
  have hperm : List.Perm
      ((List.insertionSort (· ≤ ·) (l.filter (fun v => v < 180))).filter
        (fun a => a < t))
      ((l.filter (fun v => v < 180)).filter (fun a => a < t)) :=
    (List.perm_insertionSort _ _).filter _
  rw [hperm.length_eq, List.filter_filter]
  congr 1
  apply List.filter_congr
  intro a _
  by_cases h : a < t
  · simp [h, lt_of_lt_of_le h ht]
  · simp [h]

/-- Filtering the sorted upper list by a super-180 threshold counts the
same elements as filtering the full list. -/
theorem filter_upper_length (l : List ℚ) {t : ℚ} (ht : 180 ≤ t) :
    ((List.insertionSort (· ≥ ·) (l.filter (fun v => 180 < v))).filter
        (fun a => t < a)).length
      = (l.filter (fun a => t < a)).length := by
  have hperm : List.Perm
      ((List.insertionSort (· ≥ ·) (l.filter (fun v => 180 < v))).filter
        (fun a => t < a))
      ((l.filter (fun v => 180 < v)).filter (fun a => t < a)) :=
    (List.perm_insertionSort _ _).filter _
  rw [hperm.length_eq, List.filter_filter]
  congr 1
  apply List.filter_congr
  intro a _
  by_cases h : t < a
  · simp [h, lt_of_le_of_lt ht h]
  · simp [h]

/-- The sorted lower list with the non-lower remainder permutes the whole
sample. -/
theorem lower_append_perm (l : List ℚ) :
    List.Perm (List.insertionSort (· ≤ ·) (l.filter (fun v => v < 180))
      ++ l.filter (fun v => ¬ v < 180)) l := by
  have h := List.filter_append_perm (fun v => decide (v < 180)) l
  have e : l.filter (fun x => !decide (x < 180))
      = l.filter (fun v => ¬ v < 180) := by
    apply List.filter_congr
    intro a _
    rw [← decide_not]
  rw [e] at h
  exact ((List.perm_insertionSort _ _).append_right _).trans h

/-- The sorted upper list with the non-upper remainder permutes the whole
sample. -/
theorem upper_append_perm (l : List ℚ) :
    List.Perm (List.insertionSort (· ≥ ·) (l.filter (fun v => 180 < v))
      ++ l.filter (fun v => ¬ 180 < v)) l := by
  have h := List.filter_append_perm (fun v => decide (180 < v)) l
  have e : l.filter (fun x => !decide (180 < x))
      = l.filter (fun v => ¬ 180 < v) := by
    apply List.filter_congr
    intro a _
    rw [← decide_not]
  rw [e] at h
  exact ((List.perm_insertionSort _ _).append_right _).trans h

/-- The sector sweep of `CircAverage` attains the global minimum of the
degree objective, records any prescribed minimizer, and every recorded
position wraps to a minimizer. -/
theorem circAvgState_char (l : List ℚ) (hne : l ≠ [])
    (hl0 : ∀ a ∈ l, 0 ≤ a ∧ a < 360) {w : ℚ} (hw0 : 0 ≤ w) (hw1 : w < 360)
    (hmin : ∀ y, 0 ≤ y → y < 360 → Fd l w ≤ Fd l y) :
    (circAvgState l).1 = Fd l w ∧ w ∈ (circAvgState l).2 ∧
      ∀ u ∈ (circAvgState l).2, Fd l (degT.Wrap u) = Fd l w := by
  classical
  set lower := List.insertionSort (· ≤ ·) (l.filter (fun v => v < 180))
    with hlowdef
  set upper := List.insertionSort (· ≥ ·) (l.filter (fun v => 180 < v))
    with huppdef
  set st0 : MinState :=
    (SumSqrSeed (l.length : ℚ) l.sum ((l.map Sqr).sum), [180]) with hst0
  set st1 := sweepD (l.length : ℚ) l.sum ((l.map Sqr).sum) lower 0 0 0 st0
    with hst1
  set st2 := sweepC (l.length : ℚ) l.sum ((l.map Sqr).sum) upper 0 0 360 st1
    with hst2
  have hstate : circAvgState l = st2 := rfl
  have hseed1 : st0.1 = Fd l 180 := SumSqrSeed_eq_Fd l hl0
  have hFd180 : Fd l w ≤ Fd l 180 := hmin 180 (by norm_num) (by norm_num)
  have hsound0 : ∀ u ∈ st0.2, Fd l (degT.Wrap u) ≤ st0.1 := by
    intro u hu
    simp only [hst0, List.mem_singleton] at hu
    subst hu
    rw [degT_Wrap_eq_self (by norm_num) (by norm_num), hseed1]
  have hQs : ∀ st v val, (∀ u ∈ st.2, Fd l (degT.Wrap u) ≤ st.1) →
      Fd l (degT.Wrap v) ≤ val →
      ∀ u ∈ (TestSum st v val).2, Fd l (degT.Wrap u) ≤ (TestSum st v val).1 :=
    fun _ _ _ hs hv => TestSum_sound hs hv
  have hQge : ∀ st v val, Fd l w ≤ st.1 → Fd l (degT.Wrap v) ≤ val →
      Fd l w ≤ (TestSum st v val).1 := by
    intro st v val hq hv
    have hwm := degT.Wrap_mem v
    rw [degT_L, degT_H] at hwm
    exact TestSum_ge hq (le_trans (hmin _ hwm.1 hwm.2) hv)
  have hQkeep : ∀ st v val, (st.1 = Fd l w ∧ w ∈ st.2) →
      Fd l (degT.Wrap v) ≤ val →
      ((TestSum st v val).1 = Fd l w ∧ w ∈ (TestSum st v val).2) := by
    intro st v val hq hv
    have hwm := degT.Wrap_mem v
    rw [degT_L, degT_H] at hwm
    exact TestSum_keep hq (le_trans (hmin _ hwm.1 hwm.2) hv)
  have hpermD : (([] : List ℚ)
      ++ (lower ++ l.filter (fun v => ¬ v < 180))).Perm l := by
    rw [hlowdef]
    simpa using lower_append_perm l
  have hpermC : (([] : List ℚ)
      ++ (upper ++ l.filter (fun v => ¬ 180 < v))).Perm l := by
    rw [huppdef]
    simpa using upper_append_perm l
  have hsound1 : ∀ u ∈ st1.2, Fd l (degT.Wrap u) ≤ st1.1 := by
    have h := sweepD_preserve l hl0
      (fun st => ∀ u ∈ st.2, Fd l (degT.Wrap u) ≤ st.1) hQs lower []
      (l.filter (fun v => ¬ v < 180)) 0 st0 hpermD hsound0
    exact h
  have hsound2 : ∀ u ∈ st2.2, Fd l (degT.Wrap u) ≤ st2.1 := by
    have h := sweepC_preserve l hl0
      (fun st => ∀ u ∈ st.2, Fd l (degT.Wrap u) ≤ st.1) hQs upper []
      (l.filter (fun v => ¬ 180 < v)) 360 st1 hpermC hsound1
    exact h
  have hgot2 : st2.1 = Fd l w ∧ w ∈ st2.2 := by
    rcases lt_trichotomy w 180 with hlt | heq | hgt
    · have hge1 : Fd l w ≤ st1.1 := by
        have h := sweepD_preserve l hl0 (fun st => Fd l w ≤ st.1) hQge
          lower [] (l.filter (fun v => ¬ v < 180)) 0 st0 hpermD
          (show Fd l w ≤ st0.1 by rw [hseed1]; exact hFd180)
        exact h
      have hfl := filter_upper_length l
        (show (180 : ℚ) ≤ w + 180 by linarith)
      have hreach := sweepC_reach l hl0 hw0 hlt hmin upper []
        (l.filter (fun v => ¬ 180 < v)) 360 st1 hpermC
        (List.sorted_insertionSort _ _)
        (fun a ha => by
          have h2 := List.of_mem_filter ha
          simp only [decide_eq_true_eq] at h2
          intro hcon
          exact h2 (by linarith))
        (by linarith)
        (by
          conv_lhs => rw [minimizer_vertexC hne hl0 hw0 hlt.le hmin]
          rw [huppdef, ← hfl]
          norm_num)
        (fun a ha => absurd ha (List.not_mem_nil a))
        hge1
      exact hreach
    · have hgot0 : st0.1 = Fd l w ∧ w ∈ st0.2 := by
        refine ⟨by rw [heq]; exact hseed1, ?_⟩
        rw [heq, hst0]
        exact List.mem_singleton_self 180
      have hgot1 : st1.1 = Fd l w ∧ w ∈ st1.2 :=
        sweepD_preserve l hl0 (fun st => st.1 = Fd l w ∧ w ∈ st.2) hQkeep
          lower [] (l.filter (fun v => ¬ v < 180)) 0 st0 hpermD hgot0
      exact sweepC_preserve l hl0 (fun st => st.1 = Fd l w ∧ w ∈ st.2)
        hQkeep upper [] (l.filter (fun v => ¬ 180 < v)) 360 st1 hpermC hgot1
    · have hfl := filter_lower_length l
        (show w - 180 ≤ (180 : ℚ) by linarith)
      have hreach := sweepD_reach l hl0 hgt hw1 hmin lower []
        (l.filter (fun v => ¬ v < 180)) 0 st0 hpermD
        (List.sorted_insertionSort _ _)
        (fun a ha => by
          have h2 := List.of_mem_filter ha
          simp only [decide_eq_true_eq] at h2
          intro hcon
          linarith)
        (by linarith)
        (by
          conv_lhs => rw [minimizer_vertexD hne hl0 hgt.le hw1 hmin]
          rw [hlowdef, ← hfl]
          norm_num)
        (fun a ha => absurd ha (List.not_mem_nil a))
        (show Fd l w ≤ st0.1 by rw [hseed1]; exact hFd180)
      exact sweepC_preserve l hl0 (fun st => st.1 = Fd l w ∧ w ∈ st.2)
        hQkeep upper [] (l.filter (fun v => ¬ 180 < v)) 360 st1 hpermC hreach
  refine ⟨?_, ?_, ?_⟩
  · rw [hstate]
    exact hgot2.1
  · rw [hstate]
    exact hgot2.2
  · intro u hu
    rw [hstate] at hu
    have h1 := hsound2 u hu
    have hwm := degT.Wrap_mem u
    rw [degT_L, degT_H] at hwm
    have h2 := hmin _ hwm.1 hwm.2
    rw [hgot2.1] at h1
    exact le_antisymm h1 h2

/-- Membership in the `CircAverage` result set, described through the
degree-frame minimizers. -/
theorem CircAverage_mem_iff (T : CircType) (A : List (CircVal T))
    (hne : A ≠ []) (x : CircVal T) :
    x ∈ CircAverage T A ↔
      ∃ m, (0 ≤ m ∧ m < 360) ∧
        (∀ y, 0 ≤ y → y < 360 →
          Fd (A.map toDegVal) m ≤ Fd (A.map toDegVal) y) ∧
        x = CircVal.convert T (CircVal.ofRat degT m) := by
  have hlne : A.map toDegVal ≠ [] := fun hcon =>
    hne (List.map_eq_nil_iff.mp hcon)
  have hl0 : ∀ a ∈ A.map toDegVal, 0 ≤ a ∧ a < 360 := by
    intro a ha
    obtain ⟨s, _, rfl⟩ := List.mem_map.mp ha
    exact toDegVal_mem s
  constructor
  · intro hx
    rw [CircAverage, List.mem_toFinset] at hx
    simp only [List.mem_map] at hx
    obtain ⟨u, hu, hxu⟩ := hx
    obtain ⟨w, hwb, _, hwmin⟩ := Fd_exists_min (A.map toDegVal) hlne hl0
    have hchar := circAvgState_char (A.map toDegVal) hlne hl0 hwb.1 hwb.2
      hwmin
    have hu2 := hchar.2.2 u hu
    have hwm := degT.Wrap_mem u
    rw [degT_L, degT_H] at hwm
    refine ⟨degT.Wrap u, hwm, ?_, ?_⟩
    · intro y hy0 hy1
      rw [hu2]
      exact hwmin y hy0 hy1
    · rw [← hxu]
      congr 1
      apply Subtype.ext
      rw [CircVal.ofRat_val, CircVal.ofRat_val, degT.Wrap_idem]
  · rintro ⟨m, hmb, hmmin, rfl⟩
    have hchar := circAvgState_char (A.map toDegVal) hlne hl0 hmb.1 hmb.2
      hmmin
    rw [CircAverage, List.mem_toFinset]
    simp only [List.mem_map]
    exact ⟨m, hchar.2.1, rfl⟩

/-- C1: for every non-empty sample vector over one descriptor, the result
set of `CircAverage` is non-empty, and every member achieves a sum of
squared shortest signed distances to the samples equal to the true global
minimum of that objective over the whole circle. -/
theorem C1_average_global_min (T : CircType) (A : List (CircVal T))
    (hne : A ≠ []) :
    (CircAverage T A).Nonempty ∧
      ∀ x ∈ CircAverage T A, ∀ y : CircVal T,
        avgObj T A x ≤ avgObj T A y := by
  have hlne : A.map toDegVal ≠ [] := fun hcon =>
    hne (List.map_eq_nil_iff.mp hcon)
  have hl0 : ∀ a ∈ A.map toDegVal, 0 ≤ a ∧ a < 360 := by
    intro a ha
    obtain ⟨s, _, rfl⟩ := List.mem_map.mp ha
    exact toDegVal_mem s
  obtain ⟨w, hwb, _, hwmin⟩ := Fd_exists_min (A.map toDegVal) hlne hl0
  constructor
  · refine ⟨CircVal.convert T (CircVal.ofRat degT w), ?_⟩
    rw [CircAverage_mem_iff T A hne]
    exact ⟨w, hwb, hwmin, rfl⟩
  · intro x hx y
    rw [CircAverage_mem_iff T A hne] at hx
    obtain ⟨m, hmb, hmmin, rfl⟩ := hx
    have hscale : (0 : ℚ) < (360 / T.R) ^ 2 := by
      have := T.R_pos
      positivity
    have h1 := Fd_toDegVal T A (CircVal.convert T (CircVal.ofRat degT m))
    have h2 := Fd_toDegVal T A y
    rw [toDegVal_convert_ofRat, degT_Wrap_eq_self hmb.1 hmb.2] at h1
    have hym := toDegVal_mem y
    have h3 : Fd (A.map toDegVal) m ≤ Fd (A.map toDegVal) (toDegVal y) :=
      hmmin _ hym.1 hym.2
    rw [h1, h2] at h3
    exact le_of_mul_le_mul_left h3 hscale

/-- The C1 hypothesis holds at a concrete one-sample list, and the
conclusion follows there. -/
theorem C1_average_global_min_witness :
    ([CircVal.ofRat degT 45] ≠ []) ∧
      ((CircAverage degT [CircVal.ofRat degT 45]).Nonempty ∧
        ∀ x ∈ CircAverage degT [CircVal.ofRat degT 45],
          ∀ y : CircVal degT,
            avgObj degT [CircVal.ofRat degT 45] x
              ≤ avgObj degT [CircVal.ofRat degT 45] y) :=
  ⟨List.cons_ne_nil _ _,
    C1_average_global_min degT [CircVal.ofRat degT 45] (List.cons_ne_nil _ _)⟩

/-- The recording step of the `CircAverage2` loop, on the
`(fMinSumSqrDiff, MinShiftIdx)` part of the state. -/
def Test2 (p : ℚ × List ℕ) (i : ℕ) (v : ℚ) : ℚ × List ℕ :=
  if v < p.1 then (v, [i]) else if v = p.1 then (p.1, p.2 ++ [i]) else p

/-- One step of the `CircAverage2` loop, rewritten through `Test2`. -/
theorem avg2Loop_cons (count fSum a : ℚ) (rest : List ℚ) (i : ℕ)
    (run : ℚ) (p : ℚ × List ℕ) :
    avg2Loop count fSum (a :: rest) i (run, p)
      = avg2Loop count fSum rest (i + 1)
          (run + 720 * a,
            Test2 p i (run + 720 * a + 360 * 360 * (i : ℚ)
              - Sqr (fSum + 360 * (i : ℚ)) / count)) := by
  obtain ⟨m, idxs⟩ := p
  simp only [avg2Loop, Test2]
  split_ifs <;> rfl

theorem Test2_ge {M : ℚ} {p : ℚ × List ℕ} {i : ℕ} {v : ℚ}
    (h : M ≤ p.1) (hv : M ≤ v) : M ≤ (Test2 p i v).1 := by
  unfold Test2
  split_ifs with h1 h2
  · exact hv
  · exact h
  · exact h

theorem Test2_got {M : ℚ} {p : ℚ × List ℕ} {i : ℕ} (h : M ≤ p.1) :
    (Test2 p i M).1 = M ∧ i ∈ (Test2 p i M).2 := by
  unfold Test2
  split_ifs with h1 h2
  · exact ⟨rfl, List.mem_singleton_self i⟩
  · exact ⟨h2.symm, List.mem_append_right _ (List.mem_singleton_self i)⟩
  · exact absurd (lt_of_le_of_ne h h2) h1

theorem Test2_keep {M : ℚ} {j : ℕ} {p : ℚ × List ℕ} {i : ℕ} {v : ℚ}
    (hg : p.1 = M ∧ j ∈ p.2) (hv : M ≤ v) :
    (Test2 p i v).1 = M ∧ j ∈ (Test2 p i v).2 := by
  unfold Test2
  split_ifs with h1 h2
  · rw [hg.1] at h1
    linarith
  · exact ⟨hg.1, List.mem_append_left _ hg.2⟩
  · exact hg

theorem Test2_sound {g : ℕ → ℚ} {p : ℚ × List ℕ} {i : ℕ} {v : ℚ}
    (hs : ∀ j ∈ p.2, g j ≤ p.1) (hv : g i ≤ v) :
    ∀ j ∈ (Test2 p i v).2, g j ≤ (Test2 p i v).1 := by
  unfold Test2
  split_ifs with h1 h2
  · intro j hj
    simp only [List.mem_singleton] at hj
    subst hj
    exact hv
  · intro j hj
    simp only [List.mem_append, List.mem_singleton] at hj
    rcases hj with hj | hj
    · exact hs j hj
    · subst hj
      rw [← h2]
      exact hv
  · exact hs

/-- The shifted-mean candidate position of `CircAverage2` at shift `i`. -/
def a2pos (l : List ℚ) (i : ℕ) : ℚ :=
  (l.sum + 360 * (i : ℚ)) / (l.length : ℚ)

/-- The objective value recorded by `CircAverage2` at shift `i` over the
ascending sort `s` of the sample. -/
def a2V (l s : List ℚ) (i : ℕ) : ℚ :=
  (l.map Sqr).sum + 720 * (s.take i).sum + 360 * 360 * (i : ℚ)
    - Sqr (l.sum + 360 * (i : ℚ)) / (l.length : ℚ)

/-- The incremental value of `CircAverage2` is the `SumSqrD` formula at the
shifted mean with the first `i` sorted samples wrapped up. -/
theorem a2V_eq_SumSqrDf (l s : List ℚ) (hne : l ≠ []) {i : ℕ}
    (hi : i ≤ s.length) :
    a2V l s i = SumSqrDf (l.length : ℚ) l.sum ((l.map Sqr).sum) (a2pos l i)
      ((s.take i).length : ℚ) ((s.take i).sum) := by
  have hlen : (s.take i).length = i := by
    rw [List.length_take]
    exact min_eq_left hi
  rw [hlen]
  have hn : ((l.length : ℚ)) ≠ 0 :=
    Nat.cast_ne_zero.mpr (List.length_pos.mpr hne).ne'
  unfold a2V a2pos SumSqrDf Sqr
  field_simp
  ring

/-- Every `CircAverage2` candidate value over-approximates the wrapped
objective at its position. -/
theorem a2V_ge (l s : List ℚ) (hl0 : ∀ a ∈ l, 0 ≤ a ∧ a < 360)
    (hne : l ≠ []) (hperm : s.Perm l) {i : ℕ} (hi : i ≤ s.length) :
    Fd l (degT.Wrap (a2pos l i)) ≤ a2V l s i := by
  rw [a2V_eq_SumSqrDf l s hne hi]
  exact candD_ge l hl0 (s.take i) (s.drop i)
    (by rw [List.take_append_drop]; exact hperm) (a2pos l i)

/-- In an ascending sorted list, the elements below a threshold are exactly
the prefix of the filter count's length. -/
theorem sorted_split_lt (t : ℚ) :
    ∀ s : List ℚ, List.Sorted (· ≤ ·) s →
      (∀ a ∈ s.take ((s.filter (fun a => a < t)).length), a < t) ∧
      (∀ a ∈ s.drop ((s.filter (fun a => a < t)).length), ¬ a < t) := by
  intro s
  induction s with
  | nil => exact fun _ => ⟨fun a ha => absurd ha (List.not_mem_nil a),
      fun a ha => absurd ha (List.not_mem_nil a)⟩
  | cons x s ih =>
    intro hsort
    have hx := (List.sorted_cons.mp hsort).1
    have hs := (List.sorted_cons.mp hsort).2
    by_cases h : x < t
    · rw [List.filter_cons_of_pos (by simpa using h)]
      constructor
      · intro a ha
        rw [List.length_cons, List.take_succ_cons] at ha
        rcases List.mem_cons.mp ha with ha | ha
        · rw [ha]
          exact h
        · exact (ih hs).1 a ha
      · intro a ha
        rw [List.length_cons, List.drop_succ_cons] at ha
        exact (ih hs).2 a ha
    · have hnone : s.filter (fun a => a < t) = [] := by
        rw [List.filter_eq_nil_iff]
        intro a ha
        simp only [decide_eq_true_eq]
        intro hcon
        exact h (lt_of_le_of_lt (hx a ha) hcon)
      rw [List.filter_cons_of_neg (by simpa using h), hnone]
      constructor
      · intro a ha
        simp only [List.length_nil, List.take_zero] at ha
        exact absurd ha (List.not_mem_nil a)
      · intro a ha
        simp only [List.length_nil, List.drop_zero] at ha
        rcases List.mem_cons.mp ha with ha | ha
        · rw [ha]
          exact h
        · intro hcon
          exact h (lt_of_le_of_lt (hx a ha) hcon)

/-- In an ascending sorted list, the elements above a threshold are exactly
the suffix past the complementary filter count. -/
theorem sorted_split_gt (t : ℚ) :
    ∀ s : List ℚ, List.Sorted (· ≤ ·) s →
      (∀ a ∈ s.take ((s.filter (fun a => ¬ t < a)).length), ¬ t < a) ∧
      (∀ a ∈ s.drop ((s.filter (fun a => ¬ t < a)).length), t < a) := by
  intro s
  induction s with
  | nil => exact fun _ => ⟨fun a ha => absurd ha (List.not_mem_nil a),
      fun a ha => absurd ha (List.not_mem_nil a)⟩
  | cons x s ih =>
    intro hsort
    have hx := (List.sorted_cons.mp hsort).1
    have hs := (List.sorted_cons.mp hsort).2
    by_cases h : t < x
    · have hnone : s.filter (fun a => ¬ t < a) = [] := by
        rw [List.filter_eq_nil_iff]
        intro a ha
        simp only [decide_eq_true_eq, not_not]
        exact lt_of_lt_of_le h (hx a ha)
      rw [List.filter_cons_of_neg (by simp [h]), hnone]
      constructor
      · intro a ha
        simp only [List.length_nil, List.take_zero] at ha
        exact absurd ha (List.not_mem_nil a)
      · intro a ha
        simp only [List.length_nil, List.drop_zero] at ha
        rcases List.mem_cons.mp ha with ha | ha
        · rw [ha]
          exact h
        · exact lt_of_lt_of_le h (hx a ha)
    · rw [List.filter_cons_of_pos (by simp [h])]
      constructor
      · intro a ha
        rw [List.length_cons, List.take_succ_cons] at ha
        rcases List.mem_cons.mp ha with ha | ha
        · rw [ha]
          exact h
        · exact (ih hs).1 a ha
      · intro a ha
        rw [List.length_cons, List.drop_succ_cons] at ha
        exact (ih hs).2 a ha

/-- A threshold splits the list length into the two filter counts. -/
theorem filter_length_split (t : ℚ) (s : List ℚ) :
    (s.filter (fun a => ¬ t < a)).length + (s.filter (fun a => t < a)).length
      = s.length := by
  induction s with
  | nil => rfl
  | cons x s ih =>
    by_cases h : t < x
    · rw [List.filter_cons_of_neg (by simp [h]),
        List.filter_cons_of_pos (by simp [h])]
      simp only [List.length_cons]
      omega
    · rw [List.filter_cons_of_pos (by simp [h]),
        List.filter_cons_of_neg (by simp [h])]
      simp only [List.length_cons]
      omega

/-- Squared-distance sums are translation invariant. -/
theorem SumSq_shift (P : List ℚ) (c x : ℚ) :
    SumSq (P.map (fun a => a + c)) (x + c) = SumSq P x := by
  unfold SumSq
  rw [List.map_map]
  induction P with
  | nil => simp
  | cons a P ih =>
    simp only [List.map_cons, List.sum_cons, Function.comp] at *
    rw [ih]
    ring

/-- The `C` cover fixes a list that is entirely at or below the
threshold. -/
theorem coverC_all_le (t : ℚ) :
    ∀ s : List ℚ, (∀ a ∈ s, ¬ t < a) → coverC t s = s := by
  intro s
  induction s with
  | nil => exact fun _ => rfl
  | cons b s ih =>
    intro h
    have hb := h b (List.mem_cons_self b s)
    show (if t < b then b - 360 else b) :: coverC t s = b :: s
    rw [if_neg hb, ih fun a ha => h a (List.mem_cons_of_mem b ha)]

/-- When the prefix is at or below the threshold and the suffix above it,
the `C` cover is an explicit bump of the suffix. -/
theorem coverC_eq_append_suffix (t : ℚ) (pre mid : List ℚ)
    (hpre : ∀ a ∈ pre, ¬ t < a) (hmid : ∀ a ∈ mid, t < a) :
    coverC t (pre ++ mid) = pre ++ mid.map (fun a => a - 360) := by
  unfold coverC
  rw [List.map_append]
  congr 1
  · rw [show pre = pre.map id from (List.map_id pre).symm]
    rw [List.map_map]
    exact List.map_congr_left fun a ha => by
      simp only [Function.comp_apply, id]
      exact if_neg (hpre a (by simpa using ha))
  · exact List.map_congr_left fun a ha => if_pos (hmid a ha)

/-- Every global minimizer of the degree objective is probed exactly by
some `CircAverage2` shift candidate `i < count`. -/
theorem minimizer_index (l s : List ℚ) (hperm : s.Perm l)
    (hsort : List.Sorted (· ≤ ·) s) (hne : l ≠ [])
    (hl0 : ∀ a ∈ l, 0 ≤ a ∧ a < 360) {w : ℚ} (hw0 : 0 ≤ w) (hw1 : w < 360)
    (hmin : ∀ y, 0 ≤ y → y < 360 → Fd l w ≤ Fd l y) :
    ∃ i : ℕ, i < l.length ∧ a2V l s i = Fd l w ∧
      degT.Wrap (a2pos l i) = w := by
  have hlen0 : 0 < l.length := List.length_pos.mpr hne
  have hslen : s.length = l.length := hperm.length_eq
  have hn : ((l.length : ℚ)) ≠ 0 := Nat.cast_ne_zero.mpr hlen0.ne'
  have hnpos : (0 : ℚ) < (l.length : ℚ) := by exact_mod_cast hlen0
  have hsum0 : 0 ≤ l.sum := List.sum_nonneg fun a ha => (hl0 a ha).1
  have hs0 : ∀ a ∈ s, 0 ≤ a ∧ a < 360 := fun a ha => hl0 a (hperm.subset ha)
  rcases le_or_lt 180 w with hw180 | hw180
  · set d := (l.filter (fun a => a < w - 180)).length with hd
    have hvert := minimizer_vertexD hne hl0 hw180 hw1 hmin
    rw [← hd] at hvert
    have hdf : (s.filter (fun a => a < w - 180)).length = d := by
      rw [hd]
      exact (hperm.filter _).length_eq
    have hdles : d ≤ s.length := by
      rw [← hdf]
      exact List.length_filter_le _ _
    have hposw : a2pos l d = w := by
      rw [a2pos, hvert]
    have hdlt : d < l.length := by
      have heq : w * (l.length : ℚ) = l.sum + 360 * (d : ℚ) := by
        rw [hvert]
        field_simp
      have h2 : w * (l.length : ℚ) < 360 * (l.length : ℚ) :=
        mul_lt_mul_of_pos_right hw1 hnpos
      have hq : (d : ℚ) < (l.length : ℚ) := by linarith
      exact_mod_cast hq
    have hsplit := sorted_split_lt (w - 180) s hsort
    rw [hdf] at hsplit
    have hcv : (s.take d).map (fun a => a + 360) ++ s.drop d
        = coverD (w - 180) s := by
      conv_rhs => rw [← List.take_append_drop d s]
      rw [coverD_eq_append (w - 180) (s.take d) (s.drop d) hsplit.1
        hsplit.2]
    have hVal : a2V l s d = Fd l w := by
      rw [a2V_eq_SumSqrDf l s hne hdles,
        SumSqrDf_eq_SumSq (s.take d) (s.drop d)
          (by rw [List.take_append_drop]; exact hperm),
        hposw, hcv, coverD_exact hs0 hw180 hw1]
      exact Fd_perm hperm w
    exact ⟨d, hdlt, hVal, by rw [hposw]; exact degT_Wrap_eq_self hw0 hw1⟩
  · set c := (l.filter (fun a => w + 180 < a)).length with hc
    have hvert := minimizer_vertexC hne hl0 hw0 (by linarith) hmin
    rw [← hc] at hvert
    have hcf : (s.filter (fun a => w + 180 < a)).length = c := by
      rw [hc]
      exact (hperm.filter _).length_eq
    set i := (s.filter (fun a => ¬ w + 180 < a)).length with hidef
    have hic : i + c = s.length := by
      rw [hidef, ← hcf]
      exact filter_length_split (w + 180) s
    have hsplit := sorted_split_gt (w + 180) s hsort
    rw [← hidef] at hsplit
    by_cases hc0 : c = 0
    · have hall : ∀ a ∈ s, ¬ w + 180 < a := by
        have hnil : s.filter (fun a => w + 180 < a) = [] :=
          List.length_eq_zero.mp (by rw [hcf, hc0])
        intro a ha
        have := List.filter_eq_nil_iff.mp hnil a ha
        simpa using this
      have hposw : a2pos l 0 = w := by
        rw [a2pos, hvert, hc0]
        norm_num
      have hVal : a2V l s 0 = Fd l w := by
        rw [a2V_eq_SumSqrDf l s hne (Nat.zero_le _),
          SumSqrDf_eq_SumSq (s.take 0) (s.drop 0)
            (by rw [List.take_append_drop]; exact hperm),
          hposw]
        simp only [List.take_zero, List.map_nil, List.nil_append,
          List.drop_zero]
        rw [← coverC_all_le (w + 180) s hall,
          coverC_exact hs0 hw0 (by linarith)]
        exact Fd_perm hperm w
      exact ⟨0, hlen0, hVal,
        by rw [hposw]; exact degT_Wrap_eq_self hw0 hw1⟩
    · have hc1 : 1 ≤ c := Nat.one_le_iff_ne_zero.mpr hc0
      have hiles : i ≤ s.length := by omega
      have hilt : i < l.length := by omega
      have hiq : (i : ℚ) = (l.length : ℚ) - (c : ℚ) := by
        have : i = l.length - c := by omega
        rw [this]
        push_cast [Nat.cast_sub (show c ≤ l.length by omega)]
        ring
      have hposw : a2pos l i = w + 360 := by
        rw [a2pos, hiq]
        rw [show l.sum + 360 * ((l.length : ℚ) - (c : ℚ))
            = w * (l.length : ℚ) + 360 * (l.length : ℚ) from by
          have heq : w * (l.length : ℚ) = l.sum - 360 * (c : ℚ) := by
            rw [hvert]
            field_simp
          linarith]
        field_simp
        ring
      have hwrap : degT.Wrap (a2pos l i) = w := by
        rw [hposw, show w + 360 = w + degT.R from by rw [degT_R],
          degT.Wrap_add_R]
        exact degT_Wrap_eq_self hw0 hw1
      have hmapback : ((s.drop i).map (fun a => a - 360)).map
          (fun a => a + 360) = s.drop i := by
        rw [List.map_map]
        conv_rhs => rw [← List.map_id (s.drop i)]
        exact List.map_congr_left fun a _ => by
          simp only [Function.comp_apply, id]
          ring
      have hVal : a2V l s i = Fd l w := by
        rw [a2V_eq_SumSqrDf l s hne hiles,
          SumSqrDf_eq_SumSq (s.take i) (s.drop i)
            (by rw [List.take_append_drop]; exact hperm),
          hposw]
        rw [show (s.take i).map (fun a => a + 360) ++ s.drop i
            = (s.take i ++ (s.drop i).map (fun a => a - 360)).map
                (fun a => a + 360) from by
          rw [List.map_append, hmapback]]
        rw [SumSq_shift]
        rw [show s.take i ++ (s.drop i).map (fun a => a - 360)
            = coverC (w + 180) s from by
          conv_rhs => rw [← List.take_append_drop i s]
          exact (coverC_eq_append_suffix (w + 180) (s.take i) (s.drop i)
            hsplit.1 hsplit.2).symm]
        rw [coverC_exact hs0 hw0 (by linarith)]
        exact Fd_perm hperm w
      exact ⟨i, hilt, hVal, hwrap⟩

/-- The `CircAverage2` loop preserves any predicate stable under its
recording steps. -/
theorem avg2Loop_preserve (l s : List ℚ)
    (Q : ℚ × List ℕ → Prop)
    (hQ : ∀ p (i : ℕ), i ≤ s.length → Q p → Q (Test2 p i (a2V l s i))) :
    ∀ (rest pre : List ℚ) (run : ℚ) (p : ℚ × List ℕ),
      pre ++ rest = s.dropLast →
      run = (l.map Sqr).sum + 720 * pre.sum → Q p →
      Q (avg2Loop (l.length : ℚ) l.sum rest (pre.length + 1) (run, p)).2 := by
  intro rest
  induction rest with
  | nil =>
    intro pre run p hpre hrun hq
    simp only [avg2Loop]
    exact hq
  | cons a rest ih =>
    intro pre run p hpre hrun hq
    rw [avg2Loop_cons]
    have hpre' : (pre ++ [a]) ++ rest = s.dropLast := by
      rw [← hpre]
      simp
    have hlenle : pre.length + 1 ≤ s.length := by
      have h1 : (s.dropLast).length = s.length - 1 := List.length_dropLast s
      have h2 : (pre ++ a :: rest).length = (s.dropLast).length := by
        rw [hpre]
      simp only [List.length_append, List.length_cons] at h2
      omega
    have htake : s.take (pre.length + 1) = pre ++ [a] := by
      have h1 : s.dropLast.take (pre.length + 1) = pre ++ [a] := by
        rw [← hpre, show pre ++ a :: rest = (pre ++ [a]) ++ rest from by
          simp]
        rw [List.take_append_of_le_length (by simp)]
        exact List.take_of_length_le (by simp)
      rw [List.dropLast_eq_take, List.take_take] at h1
      have h2 : (s.dropLast).length = s.length - 1 := List.length_dropLast s
      have h3 : (pre ++ a :: rest).length = (s.dropLast).length := by
        rw [hpre]
      simp only [List.length_append, List.length_cons] at h3
      rwa [min_eq_left (by omega)] at h1
    have hv : run + 720 * a + 360 * 360 * ((pre.length + 1 : ℕ) : ℚ)
        - Sqr (l.sum + 360 * ((pre.length + 1 : ℕ) : ℚ)) / (l.length : ℚ)
        = a2V l s (pre.length + 1) := by
      rw [hrun, a2V, htake]
      simp only [List.sum_append, List.sum_cons, List.sum_nil]
      ring
    rw [hv]
    have hres := ih (pre ++ [a]) (run + 720 * a)
      (Test2 p (pre.length + 1) (a2V l s (pre.length + 1)))
      hpre'
      (by
        rw [hrun]
        simp only [List.sum_append, List.sum_cons, List.sum_nil]
        ring)
      (hQ p (pre.length + 1) hlenle hq)
    simpa using hres

/-- If shift `iw` probes the minimizer exactly, the `CircAverage2` loop
starting before `iw` records the minimum value and the index `iw`. -/
theorem avg2Loop_reach (l s : List ℚ) (hperm : s.Perm l) (hne : l ≠ [])
    (hl0 : ∀ a ∈ l, 0 ≤ a ∧ a < 360) {w : ℚ}
    (hmin : ∀ y, 0 ≤ y → y < 360 → Fd l w ≤ Fd l y)
    {iw : ℕ} (hiw : iw < l.length) (hVal : a2V l s iw = Fd l w) :
    ∀ (rest pre : List ℚ) (run : ℚ) (p : ℚ × List ℕ),
      pre ++ rest = s.dropLast →
      run = (l.map Sqr).sum + 720 * pre.sum →
      pre.length + 1 ≤ iw →
      Fd l w ≤ p.1 →
      ((avg2Loop (l.length : ℚ) l.sum rest (pre.length + 1)
          (run, p)).2.1 = Fd l w ∧
        iw ∈ (avg2Loop (l.length : ℚ) l.sum rest (pre.length + 1)
          (run, p)).2.2) := by
  have hslen : s.length = l.length := hperm.length_eq
  have hQkeep : ∀ p (i : ℕ), i ≤ s.length →
      (p.1 = Fd l w ∧ iw ∈ p.2) →
      ((Test2 p i (a2V l s i)).1 = Fd l w ∧
        iw ∈ (Test2 p i (a2V l s i)).2) := by
    intro p i hi hg
    refine Test2_keep hg ?_
    have h1 := a2V_ge l s hl0 hne hperm hi
    have hwm := degT.Wrap_mem (a2pos l i)
    rw [degT_L, degT_H] at hwm
    exact le_trans (hmin _ hwm.1 hwm.2) h1
  intro rest
  induction rest with
  | nil =>
    intro pre run p hpre hrun hless hge
    exfalso
    rw [List.append_nil] at hpre
    have h1 : pre.length = s.length - 1 := by
      rw [hpre]
      exact List.length_dropLast s
    omega
  | cons a rest ih =>
    intro pre run p hpre hrun hless hge
    rw [avg2Loop_cons]
    have hpre' : (pre ++ [a]) ++ rest = s.dropLast := by
      rw [← hpre]
      simp
    have hlenle : pre.length + 1 ≤ s.length := by
      have h2 : (pre ++ a :: rest).length = (s.dropLast).length := by
        rw [hpre]
      have h1 : (s.dropLast).length = s.length - 1 := List.length_dropLast s
      simp only [List.length_append, List.length_cons] at h2
      omega
    have htake : s.take (pre.length + 1) = pre ++ [a] := by
      have h1 : s.dropLast.take (pre.length + 1) = pre ++ [a] := by
        rw [← hpre, show pre ++ a :: rest = (pre ++ [a]) ++ rest from by
          simp]
        rw [List.take_append_of_le_length (by simp)]
        exact List.take_of_length_le (by simp)
      rw [List.dropLast_eq_take, List.take_take] at h1
      have h3 : (pre ++ a :: rest).length = (s.dropLast).length := by
        rw [hpre]
      have h2 : (s.dropLast).length = s.length - 1 := List.length_dropLast s
      simp only [List.length_append, List.length_cons] at h3
      rwa [min_eq_left (by omega)] at h1
    have hv : run + 720 * a + 360 * 360 * ((pre.length + 1 : ℕ) : ℚ)
        - Sqr (l.sum + 360 * ((pre.length + 1 : ℕ) : ℚ)) / (l.length : ℚ)
        = a2V l s (pre.length + 1) := by
      rw [hrun, a2V, htake]
      simp only [List.sum_append, List.sum_cons, List.sum_nil]
      ring
    rw [hv]
    have hrun' : run + 720 * a = (l.map Sqr).sum + 720 * (pre ++ [a]).sum := by
      rw [hrun]
      simp only [List.sum_append, List.sum_cons, List.sum_nil]
      ring
    rcases eq_or_lt_of_le hless with heq | hlt
    · have hgot : (Test2 p (pre.length + 1) (a2V l s (pre.length + 1))).1
          = Fd l w ∧
          iw ∈ (Test2 p (pre.length + 1) (a2V l s (pre.length + 1))).2 := by
        have hV2 : a2V l s (pre.length + 1) = Fd l w := by
          rw [heq]
          exact hVal
        rw [hV2, ← heq]
        exact Test2_got hge
      have hres := avg2Loop_preserve l s
        (fun q => q.1 = Fd l w ∧ iw ∈ q.2) hQkeep rest (pre ++ [a])
        (run + 720 * a)
        (Test2 p (pre.length + 1) (a2V l s (pre.length + 1)))
        hpre' hrun' hgot
      simpa using hres
    · have hstep : Fd l w
          ≤ (Test2 p (pre.length + 1) (a2V l s (pre.length + 1))).1 := by
        refine Test2_ge hge ?_
        have h1 := a2V_ge l s hl0 hne hperm hlenle
        have hwm := degT.Wrap_mem (a2pos l (pre.length + 1))
        rw [degT_L, degT_H] at hwm
        exact le_trans (hmin _ hwm.1 hwm.2) h1
      have hres := ih (pre ++ [a]) (run + 720 * a)
        (Test2 p (pre.length + 1) (a2V l s (pre.length + 1)))
        hpre' hrun' (by simpa using hlt) hstep
      simpa using hres

/-- The `CircAverage2` state computes the global minimum, records a shift
hitting any prescribed minimizer, and every recorded shift wraps to a
minimizer. -/
theorem circAvg2State_char (l : List ℚ) (hne : l ≠ [])
    (hl0 : ∀ a ∈ l, 0 ≤ a ∧ a < 360) {w : ℚ} (hw0 : 0 ≤ w) (hw1 : w < 360)
    (hmin : ∀ y, 0 ≤ y → y < 360 → Fd l w ≤ Fd l y) :
    (circAvg2State l).1 = Fd l w ∧
      (∃ i ∈ (circAvg2State l).2, degT.Wrap (a2pos l i) = w) ∧
      ∀ j ∈ (circAvg2State l).2, Fd l (degT.Wrap (a2pos l j)) = Fd l w := by
  classical
  set s := List.insertionSort (· ≤ ·) l with hsdef
  have hperm : s.Perm l := List.perm_insertionSort _ l
  have hsort : List.Sorted (· ≤ ·) s := List.sorted_insertionSort _ l
  set p0 : ℚ × List ℕ :=
    ((l.map Sqr).sum - Sqr l.sum / (l.length : ℚ), [0]) with hp0
  set res := avg2Loop (l.length : ℚ) l.sum s.dropLast 1
    ((l.map Sqr).sum, p0) with hresdef
  have hstate : circAvg2State l = (res.2.1, res.2.2) := rfl
  have hv0 : p0.1 = a2V l s 0 := by
    rw [hp0, a2V]
    simp
  have hge0 : ∀ j ∈ p0.2, Fd l (degT.Wrap (a2pos l j)) ≤ p0.1 := by
    intro j hj
    rw [hp0] at hj
    simp only [List.mem_singleton] at hj
    subst hj
    rw [hv0]
    exact a2V_ge l s hl0 hne hperm (Nat.zero_le _)
  have hQs : ∀ p (i : ℕ), i ≤ s.length →
      (∀ j ∈ p.2, Fd l (degT.Wrap (a2pos l j)) ≤ p.1) →
      ∀ j ∈ (Test2 p i (a2V l s i)).2,
        Fd l (degT.Wrap (a2pos l j)) ≤ (Test2 p i (a2V l s i)).1 :=
    fun _ i hi hp => Test2_sound hp (a2V_ge l s hl0 hne hperm hi)
  have hsound : ∀ j ∈ res.2.2, Fd l (degT.Wrap (a2pos l j)) ≤ res.2.1 := by
    have h := avg2Loop_preserve l s
      (fun q => ∀ j ∈ q.2, Fd l (degT.Wrap (a2pos l j)) ≤ q.1) hQs
      s.dropLast [] ((l.map Sqr).sum) p0 (by simp) (by simp) hge0
    exact h
  obtain ⟨iw, hiwlt, hiwVal, hiwpos⟩ := minimizer_index l s hperm hsort hne
    hl0 hw0 hw1 hmin
  have hQkeep : ∀ p (i : ℕ), i ≤ s.length →
      (p.1 = Fd l w ∧ iw ∈ p.2) →
      ((Test2 p i (a2V l s i)).1 = Fd l w ∧
        iw ∈ (Test2 p i (a2V l s i)).2) := by
    intro p i hi hg
    refine Test2_keep hg ?_
    have h1 := a2V_ge l s hl0 hne hperm hi
    have hwm := degT.Wrap_mem (a2pos l i)
    rw [degT_L, degT_H] at hwm
    exact le_trans (hmin _ hwm.1 hwm.2) h1
  have hgot : res.2.1 = Fd l w ∧ iw ∈ res.2.2 := by
    by_cases hiw0 : iw = 0
    · have hg0 : p0.1 = Fd l w ∧ iw ∈ p0.2 := by
        subst hiw0
        refine ⟨by rw [hv0]; exact hiwVal, ?_⟩
        rw [hp0]
        exact List.mem_singleton_self 0
      exact avg2Loop_preserve l s
        (fun q => q.1 = Fd l w ∧ iw ∈ q.2) hQkeep
        s.dropLast [] ((l.map Sqr).sum) p0 (by simp) (by simp) hg0
    · have hge : Fd l w ≤ p0.1 := by
        rw [hv0]
        have h1 := a2V_ge l s hl0 hne hperm (Nat.zero_le _)
        have hwm := degT.Wrap_mem (a2pos l 0)
        rw [degT_L, degT_H] at hwm
        exact le_trans (hmin _ hwm.1 hwm.2) h1
      exact avg2Loop_reach l s hperm hne hl0 hmin hiwlt hiwVal
        s.dropLast [] ((l.map Sqr).sum) p0 (by simp) (by simp)
        (by simp only [List.length_nil]; omega) hge
  refine ⟨?_, ?_, ?_⟩
  · rw [hstate]
    exact hgot.1
  · rw [hstate]
    exact ⟨iw, hgot.2, hiwpos⟩
  · intro j hj
    rw [hstate] at hj
    have h1 := hsound j hj
    have hwm := degT.Wrap_mem (a2pos l j)
    rw [degT_L, degT_H] at hwm
    have h2 := hmin _ hwm.1 hwm.2
    rw [hgot.1] at h1
    exact le_antisymm h1 h2

/-- Membership in the `CircAverage2` result set, described through the
degree-frame minimizers. -/
theorem CircAverage2_mem_iff (T : CircType) (A : List (CircVal T))
    (hne : A ≠ []) (x : CircVal T) :
    x ∈ CircAverage2 T A ↔
      ∃ m, (0 ≤ m ∧ m < 360) ∧
        (∀ y, 0 ≤ y → y < 360 →
          Fd (A.map toDegVal) m ≤ Fd (A.map toDegVal) y) ∧
        x = CircVal.convert T (CircVal.ofRat degT m) := by
  have hlne : A.map toDegVal ≠ [] := fun hcon =>
    hne (List.map_eq_nil_iff.mp hcon)
  have hl0 : ∀ a ∈ A.map toDegVal, 0 ≤ a ∧ a < 360 := by
    intro a ha
    obtain ⟨s, _, rfl⟩ := List.mem_map.mp ha
    exact toDegVal_mem s
  have hposmatch : ∀ i : ℕ,
      ((A.map toDegVal).sum + 360 * (i : ℚ)) / ((A.length : ℚ))
        = a2pos (A.map toDegVal) i := by
    intro i
    rw [a2pos, List.length_map]
  constructor
  · intro hx
    rw [CircAverage2, List.mem_toFinset] at hx
    simp only [List.mem_map] at hx
    obtain ⟨i, hi, hxi⟩ := hx
    obtain ⟨w, hwb, _, hwmin⟩ := Fd_exists_min (A.map toDegVal) hlne hl0
    have hchar := circAvg2State_char (A.map toDegVal) hlne hl0 hwb.1 hwb.2
      hwmin
    have hi2 := hchar.2.2 i hi
    have hwm := degT.Wrap_mem (a2pos (A.map toDegVal) i)
    rw [degT_L, degT_H] at hwm
    refine ⟨degT.Wrap (a2pos (A.map toDegVal) i), hwm, ?_, ?_⟩
    · intro y hy0 hy1
      rw [hi2]
      exact hwmin y hy0 hy1
    · rw [← hxi, hposmatch i]
      congr 1
      apply Subtype.ext
      rw [CircVal.ofRat_val, CircVal.ofRat_val, degT.Wrap_idem]
  · rintro ⟨m, hmb, hmmin, rfl⟩
    have hchar := circAvg2State_char (A.map toDegVal) hlne hl0 hmb.1 hmb.2
      hmmin
    obtain ⟨i, hi, hipos⟩ := hchar.2.1
    rw [CircAverage2, List.mem_toFinset]
    simp only [List.mem_map]
    refine ⟨i, hi, ?_⟩
    rw [hposmatch i]
    congr 1
    apply Subtype.ext
    rw [CircVal.ofRat_val, CircVal.ofRat_val, ← hipos, degT.Wrap_idem]

/-- C3: for every non-empty sample vector, `CircAverage` and `CircAverage2`
return exactly the same result set, tie sets included. -/
theorem C3_average2_equivalent (T : CircType) (A : List (CircVal T))
    (hne : A ≠ []) :
    CircAverage T A = CircAverage2 T A := by
  apply Finset.ext
  intro x
  rw [CircAverage_mem_iff T A hne, CircAverage2_mem_iff T A hne]

/-- The C3 hypothesis holds at a concrete one-sample list, and the
conclusion follows there. -/
theorem C3_average2_equivalent_witness :
    ([CircVal.ofRat degT 45] ≠ []) ∧
      CircAverage degT [CircVal.ofRat degT 45]
        = CircAverage2 degT [CircVal.ofRat degT 45] :=
  ⟨List.cons_ne_nil _ _,
    C3_average2_equivalent degT [CircVal.ofRat degT 45]
      (List.cons_ne_nil _ _)⟩

/-- `TestSum` commutes with a strictly increasing affine change of the
objective scale. -/
theorem TestSum_affine {w0 : ℚ} (c : ℚ) (hw : 0 < w0) (st : MinState)
    (v val : ℚ) :
    TestSum (w0 * st.1 + c, st.2) v (w0 * val + c)
      = (w0 * (TestSum st v val).1 + c, (TestSum st v val).2) := by
  unfold TestSum
  rcases lt_trichotomy val st.1 with h1 | h1 | h1
  · rw [if_pos (show w0 * val + c < (w0 * st.1 + c, st.2).1 from by
      simp only []
      nlinarith), if_pos h1]
  · rw [if_neg (show ¬ w0 * val + c < (w0 * st.1 + c, st.2).1 from by
      simp only []
      nlinarith),
      if_pos (show w0 * val + c = (w0 * st.1 + c, st.2).1 from by
        simp only []
        rw [h1]),
      if_neg (show ¬ val < st.1 from by rw [h1]; exact lt_irrefl _),
      if_pos h1]
  · rw [if_neg (show ¬ w0 * val + c < (w0 * st.1 + c, st.2).1 from by
      simp only []
      nlinarith),
      if_neg (show ¬ w0 * val + c = (w0 * st.1 + c, st.2).1 from by
        simp only []
        intro hcon
        nlinarith),
      if_neg (show ¬ val < st.1 from by linarith),
      if_neg (show ¬ val = st.1 from by linarith)]

/-- `orderedInsert` commutes with an order-reflecting map. -/
theorem orderedInsert_map (f : ℚ → ℚ × ℚ) (r : ℚ → ℚ → Prop)
    [DecidableRel r] (rp : ℚ × ℚ → ℚ × ℚ → Prop) [DecidableRel rp]
    (hrel : ∀ a b, rp (f a) (f b) ↔ r a b) (a : ℚ) :
    ∀ l : List ℚ, List.orderedInsert rp (f a) (l.map f)
      = (List.orderedInsert r a l).map f := by
  intro l
  induction l with
  | nil => rfl
  | cons b l ih =>
    simp only [List.map_cons, List.orderedInsert]
    by_cases h : r a b
    · rw [if_pos ((hrel a b).mpr h), if_pos h]
      rfl
    · rw [if_neg (fun hcon => h ((hrel a b).mp hcon)), if_neg h,
        List.map_cons, ih]

/-- `insertionSort` commutes with an order-reflecting map. -/
theorem insertionSort_map (f : ℚ → ℚ × ℚ) (r : ℚ → ℚ → Prop)
    [DecidableRel r] (rp : ℚ × ℚ → ℚ × ℚ → Prop) [DecidableRel rp]
    (hrel : ∀ a b, rp (f a) (f b) ↔ r a b) :
    ∀ l : List ℚ, List.insertionSort rp (l.map f)
      = (List.insertionSort r l).map f := by
  intro l
  induction l with
  | nil => rfl
  | cons b l ih =>
    simp only [List.map_cons, List.insertionSort, ih]
    exact orderedInsert_map f r rp hrel b _

/-- Equal-weight pairs compare lexicographically exactly as their angles. -/
theorem pairLe_const (w0 a b : ℚ) :
    pairLe (a, w0) (b, w0) ↔ a ≤ b := by
  unfold pairLe
  constructor
  · rintro (h | h)
    · exact le_of_lt h
    · exact le_of_eq h.1
  · intro h
    rcases lt_or_eq_of_le h with h | h
    · exact Or.inl h
    · exact Or.inr ⟨h, le_refl _⟩

/-- Equal-weight pairs compare in descending order exactly as their
angles. -/
theorem pairGe_const (w0 a b : ℚ) :
    pairGe (a, w0) (b, w0) ↔ a ≥ b := pairLe_const w0 b a

/-- Total weight of an equal-weight pairing. -/
theorem pair_sum_snd (w0 : ℚ) (l : List ℚ) :
    ((l.map (fun a => (a, w0))).map (fun p => p.2)).sum
      = w0 * (l.length : ℚ) := by
  rw [List.map_map]
  induction l with
  | nil => simp
  | cons a l ih =>
    simp only [List.map_cons, List.sum_cons, List.length_cons,
      Function.comp] at *
    rw [ih]
    push_cast
    ring

/-- Total weighted angle of an equal-weight pairing. -/
theorem pair_sum_mul (w0 : ℚ) (l : List ℚ) :
    ((l.map (fun a => (a, w0))).map (fun p => p.2 * p.1)).sum
      = w0 * l.sum := by
  rw [List.map_map]
  induction l with
  | nil => simp
  | cons a l ih =>
    simp only [List.map_cons, List.sum_cons, Function.comp] at *
    rw [ih]
    ring

/-- Filtering equal-weight pairs by a first-component bound is filtering
the angles. -/
theorem pair_filter_lower (w0 : ℚ) (l : List ℚ) :
    (l.map (fun a => (a, w0))).filter (fun p => p.1 < 180)
      = (l.filter (fun a => a < 180)).map (fun a => (a, w0)) := by
  rw [List.filter_map]
  congr 1

/-- Filtering equal-weight pairs by a first-component lower bound is
filtering the angles. -/
theorem pair_filter_upper (w0 : ℚ) (l : List ℚ) :
    (l.map (fun a => (a, w0))).filter (fun p => 180 < p.1)
      = (l.filter (fun a => 180 < a)).map (fun a => (a, w0)) := by
  rw [List.filter_map]
  congr 1

/-- The weighted `D` sweep with equal weights tracks the unweighted sweep
through the affine value map `v ↦ w0·v + (A2 − w0·Σa²)`. -/
theorem sweepDW_lockstep (n fSum fSumSqr A2 : ℚ) {w0 : ℚ} (hw : 0 < w0) :
    ∀ (xs : List ℚ) (d : ℕ) (fSumD bound : ℚ) (st : MinState),
      sweepDW (w0 * n) (w0 * fSum) A2 (xs.map (fun a => (a, w0)))
        (w0 * (d : ℚ)) (w0 * fSumD) bound
        (w0 * st.1 + (A2 - w0 * fSumSqr), st.2)
      = (w0 * (sweepD n fSum fSumSqr xs d fSumD bound st).1
          + (A2 - w0 * fSumSqr),
        (sweepD n fSum fSumSqr xs d fSumD bound st).2) := by
  have hpos : ∀ d' : ℚ, (w0 * fSum + 360 * (w0 * d')) / (w0 * n)
      = (fSum + 360 * d') / n := by
    intro d'
    rw [show w0 * fSum + 360 * (w0 * d') = w0 * (fSum + 360 * d') from by
      ring]
    exact mul_div_mul_left _ _ hw.ne'
  have hval : ∀ x d' fSumD' : ℚ,
      WSumSqrDf (w0 * n) (w0 * fSum) A2 x (w0 * d') (w0 * fSumD')
        = w0 * SumSqrDf n fSum fSumSqr x d' fSumD'
          + (A2 - w0 * fSumSqr) := by
    intro x d' fSumD'
    unfold WSumSqrDf SumSqrDf
    ring
  intro xs
  induction xs with
  | nil =>
    intro d fSumD bound st
    simp only [List.map_nil, sweepDW, sweepD]
    rw [hpos]
    by_cases hc : (fSum + 360 * (d : ℚ)) / n < 360 ∧
        (fSum + 360 * (d : ℚ)) / n > bound
    · rw [if_pos hc, if_pos hc, hval]
      exact TestSum_affine _ hw st _ _
    · rw [if_neg hc, if_neg hc]
  | cons a xs ih =>
    intro d fSumD bound st
    simp only [List.map_cons, sweepDW, sweepD]
    rw [hpos]
    have e1 : w0 * (d : ℚ) + w0 = w0 * (((d + 1 : ℕ)) : ℚ) := by
      push_cast
      ring
    have e2 : w0 * fSumD + w0 * a = w0 * (fSumD + a) := by
      ring
    by_cases hc : (fSum + 360 * (d : ℚ)) / n > bound + 180 ∧
        (fSum + 360 * (d : ℚ)) / n ≤ a + 180
    · rw [if_pos hc, if_pos hc, hval,
        TestSum_affine (A2 - w0 * fSumSqr) hw st _ _, e1, e2]
      exact ih (d + 1) (fSumD + a) a _
    · rw [if_neg hc, if_neg hc, e1, e2]
      exact ih (d + 1) (fSumD + a) a st

/-- The weighted `C` sweep with equal weights tracks the unweighted sweep
through the same affine value map. -/
theorem sweepCW_lockstep (n fSum fSumSqr A2 : ℚ) {w0 : ℚ} (hw : 0 < w0) :
    ∀ (xs : List ℚ) (c : ℕ) (fSumC bound : ℚ) (st : MinState),
      sweepCW (w0 * n) (w0 * fSum) A2 (xs.map (fun a => (a, w0)))
        (w0 * (c : ℚ)) (w0 * fSumC) bound
        (w0 * st.1 + (A2 - w0 * fSumSqr), st.2)
      = (w0 * (sweepC n fSum fSumSqr xs c fSumC bound st).1
          + (A2 - w0 * fSumSqr),
        (sweepC n fSum fSumSqr xs c fSumC bound st).2) := by
  have hpos : ∀ c' : ℚ, (w0 * fSum - 360 * (w0 * c')) / (w0 * n)
      = (fSum - 360 * c') / n := by
    intro c'
    rw [show w0 * fSum - 360 * (w0 * c') = w0 * (fSum - 360 * c') from by
      ring]
    exact mul_div_mul_left _ _ hw.ne'
  have hval : ∀ x c' fSumC' : ℚ,
      WSumSqrCf (w0 * n) (w0 * fSum) A2 x (w0 * c') (w0 * fSumC')
        = w0 * SumSqrCf n fSum fSumSqr x c' fSumC'
          + (A2 - w0 * fSumSqr) := by
    intro x c' fSumC'
    unfold WSumSqrCf SumSqrCf
    ring
  intro xs
  induction xs with
  | nil =>
    intro c fSumC bound st
    simp only [List.map_nil, sweepCW, sweepC]
    rw [hpos]
    by_cases hc : (fSum - 360 * (c : ℚ)) / n ≥ 0 ∧
        (fSum - 360 * (c : ℚ)) / n < bound
    · rw [if_pos hc, if_pos hc, hval]
      exact TestSum_affine _ hw st _ _
    · rw [if_neg hc, if_neg hc]
  | cons a xs ih =>
    intro c fSumC bound st
    simp only [List.map_cons, sweepCW, sweepC]
    rw [hpos]
    have e1 : w0 * (c : ℚ) + w0 = w0 * (((c + 1 : ℕ)) : ℚ) := by
      push_cast
      ring
    have e2 : w0 * fSumC + w0 * a = w0 * (fSumC + a) := by
      ring
    by_cases hc : (fSum - 360 * (c : ℚ)) / n ≥ a - 180 ∧
        (fSum - 360 * (c : ℚ)) / n < bound - 180
    · rw [if_pos hc, if_pos hc, hval,
        TestSum_affine (A2 - w0 * fSumSqr) hw st _ _, e1, e2]
      exact ih (c + 1) (fSumC + a) a _
    · rw [if_neg hc, if_neg hc, e1, e2]
      exact ih (c + 1) (fSumC + a) a st

/-- With equal weights the weighted sweep state equals the unweighted one,
up to the affine shift coming from the overwritten `fASumWA2`
accumulator. -/
theorem circWAvgState_lockstep (l : List ℚ) {w0 : ℚ} (hw : 0 < w0) :
    circWAvgState (l.map (fun a => (a, w0)))
      = (w0 * (circAvgState l).1
          + ((l.map (fun a => (a, w0))).foldl
              (fun _ p => p.2 * p.1 * p.1) 0
            - w0 * ((l.map Sqr).sum)),
        (circAvgState l).2) := by
  simp only [circWAvgState, circAvgState]
  rw [pair_sum_snd, pair_sum_mul, pair_filter_lower, pair_filter_upper,
    insertionSort_map (fun a => (a, w0)) (· ≤ ·) pairLe (pairLe_const w0),
    insertionSort_map (fun a => (a, w0)) (· ≥ ·) pairGe (pairGe_const w0)]
  have hseed : WSumSqrSeed (w0 * ((l.length : ℚ))) (w0 * l.sum)
      ((l.map (fun a => (a, w0))).foldl (fun _ p => p.2 * p.1 * p.1) 0)
      = w0 * SumSqrSeed (l.length : ℚ) l.sum ((l.map Sqr).sum)
        + ((l.map (fun a => (a, w0))).foldl (fun _ p => p.2 * p.1 * p.1) 0
          - w0 * ((l.map Sqr).sum)) := by
    unfold WSumSqrSeed SumSqrSeed
    ring
  rw [hseed]
  have hD := sweepDW_lockstep (l.length : ℚ) l.sum ((l.map Sqr).sum)
    ((l.map (fun a => (a, w0))).foldl (fun _ p => p.2 * p.1 * p.1) 0) hw
    (List.insertionSort (· ≤ ·) (l.filter (fun a => a < 180))) 0 0 0
    (SumSqrSeed (l.length : ℚ) l.sum ((l.map Sqr).sum), [180])
  simp only [Nat.cast_zero, mul_zero] at hD
  rw [hD]
  have hC := sweepCW_lockstep (l.length : ℚ) l.sum ((l.map Sqr).sum)
    ((l.map (fun a => (a, w0))).foldl (fun _ p => p.2 * p.1 * p.1) 0) hw
    (List.insertionSort (· ≥ ·) (l.filter (fun a => 180 < a))) 0 0 360
    (sweepD (l.length : ℚ) l.sum ((l.map Sqr).sum)
      (List.insertionSort (· ≤ ·) (l.filter (fun a => a < 180))) 0 0 0
      (SumSqrSeed (l.length : ℚ) l.sum ((l.map Sqr).sum), [180]))
  simp only [Nat.cast_zero, mul_zero] at hC
  rw [hC]

/-- C4: equal positive weights on every sample reproduce the unweighted
`CircAverage` result set exactly. -/
theorem C4_weighted_equal (T : CircType) (A : List (CircVal T)) (w0 : ℚ)
    (hw : 0 < w0) (hne : A ≠ []) :
    WeightedCircAverage T (A.map (fun s => (s, w0))) = CircAverage T A := by
  unfold WeightedCircAverage CircAverage
  congr 1
  have hmm : (A.map (fun s => (s, w0))).map (fun p => (toDegVal p.1, p.2))
      = (A.map toDegVal).map (fun a => (a, w0)) := by
    rw [List.map_map, List.map_map]
    exact List.map_congr_left fun s _ => rfl
  rw [hmm, circWAvgState_lockstep (A.map toDegVal) hw]

/-- The C4 hypotheses hold at a concrete weight and one-sample list, and
the conclusion follows there. -/
theorem C4_weighted_equal_witness :
    ((0 : ℚ) < 2 ∧ [CircVal.ofRat degT 45] ≠ []) ∧
      WeightedCircAverage degT
          ([CircVal.ofRat degT 45].map (fun s => (s, (2 : ℚ))))
        = CircAverage degT [CircVal.ofRat degT 45] :=
  ⟨⟨by norm_num, List.cons_ne_nil _ _⟩,
    C4_weighted_equal degT [CircVal.ofRat degT 45] 2 (by norm_num)
      (List.cons_ne_nil _ _)⟩

/-- C8: for the sample `{0°, 180°}` over the unsigned-degree descriptor,
`CircAverage` returns exactly the two-element tie set `{90°, 270°}`. -/
theorem C8_sample_zero_180 :
    CircAverage degT [CircVal.ofRat degT 0, CircVal.ofRat degT 180]
      = {CircVal.ofRat degT 90, CircVal.ofRat degT 270} := by
  have hdeg : ∀ u : ℚ, 0 ≤ u → u < 360 →
      toDegVal (CircVal.ofRat degT u) = u := by
    intro u h0 h1
    rw [toDegVal_eq, degT_R, Pdist_degT_zero, CircVal.ofRat_val,
      degT_Wrap_eq_self h0 h1]
    norm_num
  have hmap : [CircVal.ofRat degT 0, CircVal.ofRat degT 180].map toDegVal
      = [0, 180] := by
    rw [List.map_cons, List.map_cons, List.map_nil,
      hdeg 0 (by norm_num) (by norm_num),
      hdeg 180 (by norm_num) (by norm_num)]
  rw [CircAverage, hmap]
  have hstate : (circAvgState [0, 180]).2 = [270, 90] := by
    norm_num [circAvgState, SumSqrSeed, Sqr, List.insertionSort,
      List.orderedInsert, List.filter, sweepD, sweepC, TestSum, SumSqrDf,
      SumSqrCf]
  rw [hstate]
  have hconv : ∀ u : ℚ, 0 ≤ u → u < 360 →
      CircVal.convert degT (CircVal.ofRat degT u)
        = CircVal.ofRat degT u := by
    intro u h0 h1
    apply Subtype.ext
    show toDegVal (CircVal.ofRat degT u) = (CircVal.ofRat degT u).val
    rw [hdeg u h0 h1, CircVal.ofRat_val, degT_Wrap_eq_self h0 h1]
  rw [List.map_cons, List.map_cons, List.map_nil,
    hconv 270 (by norm_num) (by norm_num),
    hconv 90 (by norm_num) (by norm_num)]
  apply Finset.ext
  intro x
  simp only [List.toFinset_cons, List.toFinset_nil, Finset.mem_insert,
    Finset.mem_singleton, Finset.not_mem_empty, or_false]
  tauto

/-- Reading a degree value back through `toDegVal` is the identity on
`[0, 360)`. -/
theorem toDegVal_ofRat_degT {u : ℚ} (h0 : 0 ≤ u) (h1 : u < 360) :
    toDegVal (CircVal.ofRat degT u) = u := by
  rw [toDegVal_eq, degT_R, Pdist_degT_zero, CircVal.ofRat_val,
    degT_Wrap_eq_self h0 h1]
  norm_num

/-- Degree-to-degree conversion is the identity. -/
theorem convert_ofRat_degT {u : ℚ} (h0 : 0 ≤ u) (h1 : u < 360) :
    CircVal.convert degT (CircVal.ofRat degT u) = CircVal.ofRat degT u := by
  apply Subtype.ext
  show toDegVal (CircVal.ofRat degT u) = (CircVal.ofRat degT u).val
  rw [toDegVal_ofRat_degT h0 h1, CircVal.ofRat_val, degT_Wrap_eq_self h0 h1]

/-- C9: the sampled-signal averager reports no result before any
measurement; after one measurement of 45° it yields 45°; after the two
measurements 0° at time 0 and 90° at time 1 it has accumulated exactly the
one interval pseudo-sample (midpoint 45°, weight 1) and yields 45°. -/
theorem C9_sampled_averager :
    GetAvrg (AvrgSampledState.init degT) = ⊤ ∧
    GetAvrg (AddMeasurement (AvrgSampledState.init degT)
        (CircVal.ofRat degT 45) 0)
      = (CircVal.ofRat degT 45 : WithTop (CircVal degT)) ∧
    (AddMeasurement (AddMeasurement (AvrgSampledState.init degT)
        (CircVal.ofRat degT 0) 0) (CircVal.ofRat degT 90) 1).intervals
      = [(CircVal.ofRat degT 45, 1)] ∧
    GetAvrg (AddMeasurement (AddMeasurement (AvrgSampledState.init degT)
        (CircVal.ofRat degT 0) 0) (CircVal.ofRat degT 90) 1)
      = (CircVal.ofRat degT 45 : WithTop (CircVal degT)) := by
  have hs2 : AddMeasurement (AddMeasurement (AvrgSampledState.init degT)
      (CircVal.ofRat degT 0) 0) (CircVal.ofRat degT 90) 1
      = ⟨2, CircVal.ofRat degT 90, 1, [(CircVal.ofRat degT 45, 1)]⟩ := by
    norm_num [AddMeasurement, AvrgSampledState.init,
      AvrgSampledState.mk.injEq, CircVal.ofRat, CircVal.Sdist, CircVal.zero,
      CircType.Wrap, Mod, degT, CircType.R, CircType.R2, Subtype.ext_iff]
  have hwavg : WeightedCircAverage degT [(CircVal.ofRat degT 45, 1)]
      = {CircVal.ofRat degT 45} := by
    rw [WeightedCircAverage]
    have hmap2 : [(CircVal.ofRat degT 45, (1 : ℚ))].map
        (fun p => (toDegVal p.1, p.2)) = [((45 : ℚ), (1 : ℚ))] := by
      simp only [List.map_cons, List.map_nil]
      rw [toDegVal_ofRat_degT (by norm_num) (by norm_num)]
    rw [hmap2]
    have hst : (circWAvgState [((45 : ℚ), (1 : ℚ))]).2 = [45] := by
      norm_num [circWAvgState, WSumSqrSeed, WSumSqrDf, WSumSqrCf, sweepDW,
        sweepCW, TestSum, List.insertionSort, List.orderedInsert,
        List.filter, List.foldl, pairLe, pairGe]
    rw [hst]
    simp only [List.map_cons, List.map_nil]
    rw [convert_ofRat_degT (by norm_num) (by norm_num)]
    simp
  refine ⟨rfl, rfl, ?_, ?_⟩
  · rw [hs2]
  · rw [hs2]
    show (WeightedCircAverage degT [(CircVal.ofRat degT 45, 1)]).min
      = (CircVal.ofRat degT 45 : WithTop (CircVal degT))
    rw [hwavg, Finset.min_singleton]

/-- A list image has a minimizing element. -/
theorem exists_image_min (f : ℚ → ℚ) :
    ∀ l : List ℚ, l ≠ [] → ∃ a ∈ l, ∀ b ∈ l, f a ≤ f b := by
  intro l
  induction l with
  | nil => intro h; exact absurd rfl h
  | cons x xs ih =>
    intro _
    by_cases hxs : xs = []
    · subst hxs
      exact ⟨x, List.mem_singleton_self x, by
        intro b hb
        rw [List.mem_singleton.mp hb]⟩
    · obtain ⟨a, ha, hale⟩ := ih hxs
      by_cases hle : f x ≤ f a
      · refine ⟨x, List.mem_cons_self x xs, ?_⟩
        intro b hb
        rcases List.mem_cons.mp hb with hb | hb
        · rw [hb]
        · exact le_trans hle (hale b hb)
      · refine ⟨a, List.mem_cons_of_mem x ha, ?_⟩
        intro b hb
        rcases List.mem_cons.mp hb with hb | hb
        · rw [hb]
          linarith [not_le.mp hle]
        · exact hale b hb

/-- The circular L1 objective of `CircMedian` over raw positions. -/
def GA (T : CircType) (l : List ℚ) (x : ℚ) : ℚ :=
  (l.map (fun a => |sdw T.R (a - x)|)).sum

/-- Sum of absolute distances on the line. -/
def SumAbs (P : List ℚ) (x : ℚ) : ℚ := (P.map (fun p => |x - p|)).sum

/-- The nearest-representative cover of the samples around `x`. -/
def covM (T : CircType) (x : ℚ) (l : List ℚ) : List ℚ :=
  l.map (fun a => x + sdw T.R (a - x))

/-- `P` lists one representative per sample, in order, each a whole number
of turns away. -/
abbrev IsCoverT (T : CircType) (P l : List ℚ) : Prop :=
  List.Forall₂ (fun (p a : ℚ) => ∃ k : ℤ, p = a + (k : ℚ) * T.R) P l

/-- The `CircMedian` objective through the raw position objective. -/
theorem medObj_eq_GA (T : CircType) (A : List (CircVal T)) (b : CircVal T) :
    medObj T A b = GA T (A.map (fun a => a.val)) b.val := by
  unfold medObj GA
  rw [List.map_map]
  congr 1

theorem covM_isCover (T : CircType) (x : ℚ) (l : List ℚ) :
    IsCoverT T (covM T x l) l := by
  induction l with
  | nil => exact List.Forall₂.nil
  | cons a l ih =>
    simp only [covM, List.map_cons]
    refine List.Forall₂.cons ?_ ih
    obtain ⟨k, hk⟩ := sdw_sub_int T.R (a - x)
    exact ⟨k, by rw [hk]; ring⟩

theorem SumAbs_covM (T : CircType) (x : ℚ) (l : List ℚ) :
    SumAbs (covM T x l) x = GA T l x := by
  unfold SumAbs covM GA
  rw [List.map_map]
  congr 1
  apply List.map_congr_left
  intro a _
  simp only [Function.comp_apply]
  rw [show x - (x + sdw T.R (a - x)) = -sdw T.R (a - x) from by ring,
    abs_neg]

theorem covM_window (T : CircType) {x : ℚ} (hx0 : T.L ≤ x) (hx1 : x < T.H)
    {l : List ℚ} (hl : ∀ a ∈ l, T.L ≤ a ∧ a < T.H) :
    ∀ p ∈ covM T x l, x - T.R / 2 ≤ p ∧ p < x + T.R / 2 := by
  intro p hp
  obtain ⟨a, ha, rfl⟩ := List.mem_map.mp hp
  have hb := hl a ha
  have hRe : T.R = T.H - T.L := rfl
  have hm := sdw_mem T.R_pos
    (show -T.R < a - x by linarith [hb.1, hb.2])
    (show a - x < T.R by linarith [hb.1, hb.2])
  constructor
  · linarith [hm.1]
  · linarith [hm.2]

/-- Members of a cover are whole-turn shifts of members of the sample. -/
theorem IsCoverT_mem {T : CircType} {P l : List ℚ} (h : IsCoverT T P l) :
    ∀ p ∈ P, ∃ a ∈ l, ∃ k : ℤ, p = a + (k : ℚ) * T.R := by
  induction h with
  | nil =>
    intro p hp
    exact absurd hp (List.not_mem_nil p)
  | @cons p a P2 l2 hpa _ ih =>
    intro q hq
    rcases List.mem_cons.mp hq with hq | hq
    · subst hq
      exact ⟨a, List.mem_cons_self a l2, hpa⟩
    · obtain ⟨b, hb, hk⟩ := ih q hq
      exact ⟨b, List.mem_cons_of_mem a hb, hk⟩

/-- The wrapped circular objective never exceeds the line objective of any
cover. -/
theorem GA_wrap_le_SumAbs (T : CircType) {l P : List ℚ}
    (hl : ∀ a ∈ l, T.L ≤ a ∧ a < T.H) (hc : IsCoverT T P l) (y : ℚ) :
    GA T l (T.Wrap y) ≤ SumAbs P y := by
  induction hc with
  | nil => simp [GA, SumAbs]
  | @cons p a P2 l2 hpa hrest ih =>
    simp only [GA, SumAbs, List.map_cons, List.sum_cons] at *
    have hbounds := hl a (List.mem_cons_self a l2)
    have hwm := T.Wrap_mem y
    obtain ⟨j, hj⟩ := T.Wrap_sub_self y
    obtain ⟨k, hk⟩ := hpa
    have hRe : T.R = T.H - T.L := rfl
    have hterm : |sdw T.R (a - T.Wrap y)| ≤ |y - p| := by
      have h1 : -T.R < a - T.Wrap y := by
        linarith [hbounds.1, hbounds.2, hwm.1, hwm.2]
      have h2 : a - T.Wrap y < T.R := by
        linarith [hbounds.1, hbounds.2, hwm.1, hwm.2]
      have hrw : |y - p| = |a - T.Wrap y + ((j + k : ℤ) : ℚ) * T.R| := by
        rw [hk, hj]
        rw [show y - (a + (k : ℚ) * T.R)
            = -(a - (y + (j : ℚ) * T.R) + ((j + k : ℤ) : ℚ) * T.R) from by
          push_cast
          ring, abs_neg]
      rw [hrw]
      exact abs_sdw_le T.R_pos h1 h2 (j + k)
    have hrest2 : GA T l2 (T.Wrap y) ≤ SumAbs P2 y :=
      ih fun b hb => hl b (List.mem_cons_of_mem a hb)
    simp only [GA, SumAbs] at hrest2
    linarith

theorem SumAbs_perm {P P2 : List ℚ} (h : P.Perm P2) (x : ℚ) :
    SumAbs P x = SumAbs P2 x := by
  unfold SumAbs
  exact (h.map _).sum_eq

theorem SumAbs_cons (p : ℚ) (P : List ℚ) (x : ℚ) :
    SumAbs (p :: P) x = |x - p| + SumAbs P x := rfl

/-- On the line, some datum minimizes the sum of absolute distances. -/
theorem SumAbs_exists_min :
    ∀ (n : ℕ) (P : List ℚ), P.length = n → P ≠ [] →
      ∀ x : ℚ, ∃ p ∈ P, SumAbs P p ≤ SumAbs P x := by
  intro n
  induction n using Nat.strong_induction_on with
  | _ n ih =>
    intro P hlen hne x
    obtain ⟨pmin, hminmem, hminle⟩ := exists_image_min id P hne
    obtain ⟨pmax, hmaxmem, hmaxle⟩ := exists_image_min (fun p => -p) P hne
    simp only [id] at hminle
    have hmaxle2 : ∀ b ∈ P, b ≤ pmax := by
      intro b hb
      have := hmaxle b hb
      linarith
    by_cases hall : ∀ b ∈ P, b = pmin
    · refine ⟨pmin, hminmem, ?_⟩
      have hz : SumAbs P pmin = 0 := by
        unfold SumAbs
        apply List.sum_eq_zero
        intro q hq
        obtain ⟨b, hb, rfl⟩ := List.mem_map.mp hq
        rw [hall b hb]
        simp
      rw [hz]
      unfold SumAbs
      apply List.sum_nonneg
      intro q hq
      obtain ⟨b, _, rfl⟩ := List.mem_map.mp hq
      exact abs_nonneg _
    · push_neg at hall
      obtain ⟨b0, hb0, hb0ne⟩ := hall
      have hlt : pmin < pmax := by
        rcases lt_or_eq_of_le (hminle b0 hb0) with h | h
        · exact lt_of_lt_of_le h (hmaxle2 b0 hb0)
        · exact absurd h.symm hb0ne
      have hmaxP1 : pmax ∈ P.erase pmin :=
        (List.mem_erase_of_ne hlt.ne').mpr hmaxmem
      set P2 := (P.erase pmin).erase pmax with hP2
      have hperm : P.Perm (pmin :: pmax :: P2) := by
        refine (List.perm_cons_erase hminmem).trans ?_
        exact List.Perm.cons pmin (List.perm_cons_erase hmaxP1)
      have hsplit : ∀ y : ℚ, SumAbs P y
          = |y - pmin| + (|y - pmax| + SumAbs P2 y) := by
        intro y
        rw [SumAbs_perm hperm, SumAbs_cons, SumAbs_cons]
      have htri : pmax - pmin ≤ |x - pmin| + |x - pmax| := by
        have h1 : pmax - x ≤ |x - pmax| := by
          rw [abs_sub_comm]
          exact le_abs_self _
        have h2 : x - pmin ≤ |x - pmin| := le_abs_self _
        linarith
      by_cases hP2ne : P2 = []
      · refine ⟨pmin, hminmem, ?_⟩
        rw [hsplit pmin, hsplit x, hP2ne]
        rw [show SumAbs ([] : List ℚ) pmin = 0 from rfl,
          show SumAbs ([] : List ℚ) x = 0 from rfl]
        rw [show |pmin - pmin| = 0 from by simp,
          show |pmin - pmax| = pmax - pmin from by
            rw [abs_sub_comm]
            exact abs_of_nonneg (by linarith)]
        linarith
      · have hlen2 : P2.length < n := by
          have h1 := hperm.length_eq
          simp only [List.length_cons] at h1
          omega
        obtain ⟨p2, hp2, hp2le⟩ :=
          ih P2.length hlen2 P2 rfl hP2ne x
        have hp2P : p2 ∈ P :=
          List.mem_of_mem_erase (List.mem_of_mem_erase hp2)
        have hb1 : pmin ≤ p2 := hminle p2 hp2P
        have hb2 : p2 ≤ pmax := hmaxle2 p2 hp2P
        refine ⟨p2, hp2P, ?_⟩
        rw [hsplit p2, hsplit x]
        rw [show |p2 - pmin| = p2 - pmin from abs_of_nonneg (by linarith),
          show |p2 - pmax| = pmax - p2 from by
            rw [abs_sub_comm]
            exact abs_of_nonneg (by linarith)]
        linarith

/-- Some sample globally minimizes the circular L1 objective. -/
theorem GA_exists_sample_min (T : CircType) (l : List ℚ) (hne : l ≠ [])
    (hl : ∀ a ∈ l, T.L ≤ a ∧ a < T.H) :
    ∃ s ∈ l, ∀ y : ℚ, GA T l s ≤ GA T l (T.Wrap y) := by
  obtain ⟨s, hs, hsmin⟩ := exists_image_min (GA T l) l hne
  refine ⟨s, hs, ?_⟩
  intro y
  have hPne : covM T (T.Wrap y) l ≠ [] := fun hcon =>
    hne (List.map_eq_nil_iff.mp hcon)
  obtain ⟨p, hp, hple⟩ := SumAbs_exists_min (covM T (T.Wrap y) l).length
    (covM T (T.Wrap y) l) rfl hPne (T.Wrap y)
  obtain ⟨a, ha, k, hk⟩ := IsCoverT_mem (covM_isCover T (T.Wrap y) l) p hp
  have h1 : GA T l (T.Wrap p) ≤ SumAbs (covM T (T.Wrap y) l) p :=
    GA_wrap_le_SumAbs T hl (covM_isCover T (T.Wrap y) l) p
  have h2 : T.Wrap p = a := by
    rw [hk, T.Wrap_add_int_mul, T.Wrap_eq_of_mem (hl a ha).1 (hl a ha).2]
  calc GA T l s ≤ GA T l a := hsmin a ha
    _ = GA T l (T.Wrap p) := by rw [h2]
    _ ≤ SumAbs (covM T (T.Wrap y) l) p := h1
    _ ≤ SumAbs (covM T (T.Wrap y) l) (T.Wrap y) := hple
    _ = GA T l (T.Wrap y) := SumAbs_covM T (T.Wrap y) l

/-- The evaluation loop of `CircMedian` computes the running minimum with
exact ties over the processed candidates. -/
theorem medEvalLoop_go (T : CircType) (A : List (CircVal T)) :
    ∀ (L : List (CircVal T)) (m : ℚ) (X : Finset (CircVal T)),
      X.Nonempty → (∀ x ∈ X, medObj T A x = m) →
      ∃ m2, (medEvalLoop T A L (some m, X)).1 = some m2 ∧ m2 ≤ m ∧
        (∀ b ∈ L, m2 ≤ medObj T A b) ∧
        (medEvalLoop T A L (some m, X)).2.Nonempty ∧
        ∀ x ∈ (medEvalLoop T A L (some m, X)).2, medObj T A x = m2 := by
  intro L
  induction L with
  | nil =>
    intro m X hXne hX
    exact ⟨m, rfl, le_refl m, fun b hb => absurd hb (List.not_mem_nil b),
      hXne, hX⟩
  | cons b L ih =>
    intro m X hXne hX
    simp only [medEvalLoop]
    by_cases h1 : medObj T A b = m
    · rw [if_pos h1]
      obtain ⟨m2, e1, e2, e3, e4, e5⟩ := ih m (insert b X)
        (Finset.insert_nonempty b X)
        (by
          intro x hx
          rcases Finset.mem_insert.mp hx with hx | hx
          · rw [hx, h1]
          · exact hX x hx)
      refine ⟨m2, e1, e2, ?_, e4, e5⟩
      intro c hc
      rcases List.mem_cons.mp hc with hc | hc
      · rw [hc, h1]
        exact e2
      · exact e3 c hc
    · rw [if_neg h1]
      by_cases h2 : medObj T A b < m
      · rw [if_pos h2]
        obtain ⟨m2, e1, e2, e3, e4, e5⟩ := ih (medObj T A b) {b}
          (Finset.singleton_nonempty b)
          (by
            intro x hx
            rw [Finset.mem_singleton.mp hx])
        refine ⟨m2, e1, le_trans e2 h2.le, ?_, e4, e5⟩
        intro c hc
        rcases List.mem_cons.mp hc with hc | hc
        · rw [hc]
          exact e2
        · exact e3 c hc
      · rw [if_neg h2]
        obtain ⟨m2, e1, e2, e3, e4, e5⟩ := ih m X hXne hX
        refine ⟨m2, e1, e2, ?_, e4, e5⟩
        intro c hc
        rcases List.mem_cons.mp hc with hc | hc
        · rw [hc]
          have h3 := not_lt.mp h2
          linarith
        · exact e3 c hc

/-- Starting from the empty running state, the evaluation loop returns the
tied minimizers over the candidate list. -/
theorem medEvalLoop_start (T : CircType) (A : List (CircVal T))
    (L : List (CircVal T)) (hL : L ≠ []) :
    ∃ m2, (medEvalLoop T A L (none, ∅)).1 = some m2 ∧
      (∀ b ∈ L, m2 ≤ medObj T A b) ∧
      (medEvalLoop T A L (none, ∅)).2.Nonempty ∧
      ∀ x ∈ (medEvalLoop T A L (none, ∅)).2, medObj T A x = m2 := by
  obtain ⟨b, L2, rfl⟩ := List.exists_cons_of_ne_nil hL
  simp only [medEvalLoop]
  obtain ⟨m2, e1, e2, e3, e4, e5⟩ := medEvalLoop_go T A L2 (medObj T A b)
    {b} (Finset.singleton_nonempty b)
    (by
      intro x hx
      rw [Finset.mem_singleton.mp hx])
  refine ⟨m2, e1, ?_, e4, e5⟩
  intro c hc
  rcases List.mem_cons.mp hc with hc | hc
  · rw [hc]
    exact e2
  · exact e3 c hc

/-- Two-way filter count split at a strict threshold. -/
theorem filter_length_split_lt (t : ℚ) (P : List ℚ) :
    (P.filter (fun p => p < t)).length
      + (P.filter (fun p => ¬ p < t)).length = P.length := by
  induction P with
  | nil => rfl
  | cons p P ih =>
    by_cases h : p < t
    · rw [List.filter_cons_of_pos (by simp [h]),
        List.filter_cons_of_neg (by simp [h])]
      simp only [List.length_cons]
      omega
    · rw [List.filter_cons_of_neg (by simp [h]),
        List.filter_cons_of_pos (by simp [h])]
      simp only [List.length_cons]
      omega

/-- Three-way filter count split at a point. -/
theorem filter_length_trichotomy (t : ℚ) (P : List ℚ) :
    (P.filter (fun p => p < t)).length + (P.filter (fun p => p = t)).length
      + (P.filter (fun p => t < p)).length = P.length := by
  induction P with
  | nil => rfl
  | cons p P ih =>
    rcases lt_trichotomy p t with h | h | h
    · rw [List.filter_cons_of_pos (by simp [h]),
        List.filter_cons_of_neg (by simp [h.ne]),
        List.filter_cons_of_neg (by simp [not_lt.mpr h.le])]
      simp only [List.length_cons]
      omega
    · rw [List.filter_cons_of_neg (by simp [h]),
        List.filter_cons_of_pos (by simp [h]),
        List.filter_cons_of_neg (by simp [h])]
      simp only [List.length_cons]
      omega
    · rw [List.filter_cons_of_neg (by simp [not_lt.mpr h.le]),
        List.filter_cons_of_neg (by simp [h.ne']),
        List.filter_cons_of_pos (by simp [h])]
      simp only [List.length_cons]
      omega

/-- Across a representative-free stretch, the line objective changes
linearly with slope given by the two side counts. -/
theorem SumAbs_step (P : List ℚ) {y1 y2 : ℚ} (h12 : y1 ≤ y2)
    (hgap : ∀ p ∈ P, p ≤ y1 ∨ y2 ≤ p) :
    SumAbs P y2 - SumAbs P y1
      = (y2 - y1) * (((P.filter (fun p => p ≤ y1)).length : ℚ)
          - ((P.filter (fun p => y2 ≤ p)).length : ℚ)) := by
  rcases eq_or_lt_of_le h12 with heq | hlt
  · subst heq
    simp
  · induction P with
    | nil => simp [SumAbs]
    | cons p P ih =>
      have hp := hgap p (List.mem_cons_self p P)
      have htail := ih fun q hq => hgap q (List.mem_cons_of_mem p hq)
      rw [SumAbs_cons, SumAbs_cons]
      rcases hp with hc | hc
      · rw [List.filter_cons_of_pos (by simpa using hc),
          List.filter_cons_of_neg (by
            simp only [decide_eq_true_eq]
            intro hcon
            linarith)]
        simp only [List.length_cons]
        rw [show |y2 - p| = y2 - p from abs_of_nonneg (by linarith),
          show |y1 - p| = y1 - p from abs_of_nonneg (by linarith)]
        push_cast
        linear_combination htail
      · rw [List.filter_cons_of_neg (by
            simp only [decide_eq_true_eq]
            intro hcon
            linarith),
          List.filter_cons_of_pos (by simpa using hc)]
        simp only [List.length_cons]
        rw [show |y2 - p| = p - y2 from by
            rw [abs_sub_comm]
            exact abs_of_nonneg (by linarith),
          show |y1 - p| = p - y1 from by
            rw [abs_sub_comm]
            exact abs_of_nonneg (by linarith)]
        push_cast
        linear_combination htail

/-- Pointwise strict bounds add up strictly over a non-empty list. -/
theorem sum_lt_sum_of_lt (f g : ℚ → ℚ) :
    ∀ L : List ℚ, L ≠ [] → (∀ a ∈ L, f a < g a) →
      (L.map f).sum < (L.map g).sum := by
  intro L
  induction L with
  | nil =>
    intro h
    exact absurd rfl h
  | cons a L ih =>
    intro _ hlt
    simp only [List.map_cons, List.sum_cons]
    by_cases hL : L = []
    · subst hL
      simpa using hlt a (List.mem_cons_self a [])
    · have h1 := hlt a (List.mem_cons_self a L)
      have h2 := ih hL fun b hb => hlt b (List.mem_cons_of_mem a hb)
      linarith

/-- At a global minimizer of the circular L1 objective, a
representative-free stretch around the optimum spans at most half the
range. -/
theorem gap_bound (T : CircType) {l : List ℚ} (hne : l ≠ [])
    (hl : ∀ a ∈ l, T.L ≤ a ∧ a < T.H) {P : List ℚ} (hcov : IsCoverT T P l)
    {q1 q2 : ℚ} (hq : q1 ≤ q2)
    (hsplit : ∀ p ∈ P, p ≤ q1 ∨ q2 ≤ p)
    (hopt : ∀ y : ℚ, SumAbs P ((q1 + q2) / 2) ≤ GA T l (T.Wrap y)) :
    q2 - q1 ≤ T.R / 2 := by
  by_contra hcon
  push_neg at hcon
  set μ := (q1 + q2) / 2 with hμ
  set z := μ + T.R / 2 with hz
  set sh : ℚ → ℚ := fun p => if p ≤ q1 then p + T.R else p with hsh
  have hcov2 : IsCoverT T (P.map sh) l := by
    refine List.forall₂_map_left_iff.mpr ?_
    refine hcov.imp ?_
    intro p a hpa
    obtain ⟨k, hk⟩ := hpa
    by_cases hple : p ≤ q1
    · refine ⟨k + 1, ?_⟩
      simp only [hsh, if_pos hple]
      rw [hk]
      push_cast
      ring
    · refine ⟨k, ?_⟩
      simp only [hsh, if_neg hple]
      exact hk
  have hPne : P ≠ [] := by
    intro hcon2
    subst hcon2
    cases hcov
    exact hne rfl
  have hstrict : ∀ p ∈ P, |z - sh p| < |μ - p| := by
    intro p hp
    rcases hsplit p hp with hc | hc
    · have hd : T.R / 4 < μ - p := by
        rw [hμ]
        linarith
      rw [show z - sh p = (μ - p) - T.R / 2 from by
        simp only [hsh, if_pos hc, hz]
        ring]
      rw [show |μ - p| = μ - p from abs_of_nonneg (by
        linarith [T.R_pos])]
      rw [abs_lt]
      constructor
      · linarith [T.R_pos]
      · linarith [T.R_pos]
    · have hgt : ¬ p ≤ q1 := by
        intro hcon3
        have := T.R_pos
        linarith
      have hd : T.R / 4 < p - μ := by
        rw [hμ]
        linarith
      rw [show z - sh p = T.R / 2 - (p - μ) from by
        simp only [hsh, if_neg hgt, hz]
        ring]
      rw [show |μ - p| = p - μ from by
        rw [abs_sub_comm]
        exact abs_of_nonneg (by linarith [T.R_pos])]
      rw [abs_lt]
      constructor
      · linarith [T.R_pos]
      · linarith [T.R_pos]
  have hlt2 : SumAbs (P.map sh) z < SumAbs P μ := by
    unfold SumAbs
    rw [List.map_map]
    refine sum_lt_sum_of_lt _ _ P hPne fun p hp => ?_
    simpa using hstrict p hp
  have h3 := GA_wrap_le_SumAbs T hl hcov2 z
  have h4 := hopt z
  linarith

/-- For an even sample count, around any sample that minimizes the
circular L1 objective there is a representative-free stretch `[q1, q2]` of
width at most half the range whose midpoint also attains the minimum. -/
theorem even_midpoint_min (T : CircType) {l : List ℚ} (hne : l ≠ [])
    (heven : l.length % 2 = 0)
    (hl : ∀ a ∈ l, T.L ≤ a ∧ a < T.H) {s : ℚ} (hsmem : s ∈ l)
    (hsmin : ∀ y : ℚ, GA T l s ≤ GA T l (T.Wrap y)) :
    ∃ q1 q2 : ℚ, q1 ∈ covM T s l ∧ q2 ∈ covM T s l ∧ q1 ≤ q2 ∧
      q2 - q1 ≤ T.R / 2 ∧
      (∀ p ∈ covM T s l, p ≤ q1 ∨ q2 ≤ p) ∧
      GA T l (T.Wrap ((q1 + q2) / 2)) = GA T l s ∧
      (q1 = q2 → 2 ≤ (l.filter (fun a => a = T.Wrap q1)).length) := by
  have hsb := hl s hsmem
  have hRpos := T.R_pos
  have hRe : T.R = T.H - T.L := rfl
  set P := covM T s l with hP
  have hcov : IsCoverT T P l := covM_isCover T s l
  have hlen : P.length = l.length := by
    rw [hP, covM, List.length_map]
  have hsP : s ∈ P := by
    rw [hP, covM]
    refine List.mem_map.mpr ⟨s, hsmem, ?_⟩
    show s + sdw T.R (s - s) = s
    rw [sub_self, sdw_eq_self (by linarith) (by linarith)]
    ring
  have hPmin : ∀ y : ℚ, SumAbs P s ≤ SumAbs P y := by
    intro y
    have h1 : SumAbs P s = GA T l s := by
      rw [hP]
      exact SumAbs_covM T s l
    have h2 : GA T l (T.Wrap y) ≤ SumAbs P y := GA_wrap_le_SumAbs T hl hcov y
    rw [h1]
    exact le_trans (hsmin y) h2
  have hGAs : SumAbs P s = GA T l s := by
    rw [hP]
    exact SumAbs_covM T s l
  set cl := (P.filter (fun p => p < s)).length with hcl
  set ce := (P.filter (fun p => p = s)).length with hce
  set cg := (P.filter (fun p => s < p)).length with hcg
  have htri : cl + ce + cg = l.length := by
    rw [hcl, hce, hcg, filter_length_trichotomy, hlen]
  have hce1 : 1 ≤ ce := by
    have hmem : s ∈ P.filter (fun p => p = s) :=
      List.mem_filter.mpr ⟨hsP, by simp⟩
    have := List.length_pos.mpr (List.ne_nil_of_mem hmem)
    omega
  have hfe : ∀ a ∈ l, (s + sdw T.R (a - s) = s) ↔ (a = s) := by
    intro a ha
    have hab := hl a ha
    constructor
    · intro h
      have h0 : sdw T.R (a - s) = 0 := by linarith
      obtain ⟨k, hk⟩ := sdw_sub_int T.R (a - s)
      rw [h0] at hk
      have hb1 : -T.R < a - s := by linarith [hab.1, hab.2, hsb.1, hsb.2]
      have hb2 : a - s < T.R := by linarith [hab.1, hab.2, hsb.1, hsb.2]
      have hk1 : (-1 : ℚ) < (k : ℚ) := by nlinarith
      have hk2 : (k : ℚ) < 1 := by nlinarith
      have hk1i : (-1 : ℤ) < k := by exact_mod_cast hk1
      have hk2i : k < (1 : ℤ) := by exact_mod_cast hk2
      have hk0 : k = 0 := by omega
      rw [hk0] at hk
      push_cast at hk
      linarith
    · intro h
      rw [h, sub_self, sdw_eq_self (by linarith) (by linarith)]
      ring
  have hce_l : ce = (l.filter (fun a => a = s)).length := by
    rw [hce, hP, covM, List.filter_map, List.length_map]
    congr 1
    apply List.filter_congr
    intro a ha
    simp only [Function.comp_apply]
    exact decide_eq_decide.mpr (hfe a ha)
  by_cases hce2 : 2 ≤ ce
  · refine ⟨s, s, hsP, hsP, le_refl s, by linarith, ?_, ?_, ?_⟩
    · intro p hp
      rcases le_or_lt p s with h | h
      · exact Or.inl h
      · exact Or.inr h.le
    · rw [show (s + s) / 2 = s from by ring,
        T.Wrap_eq_of_mem hsb.1 hsb.2]
    · intro _
      rw [T.Wrap_eq_of_mem hsb.1 hsb.2, ← hce_l]
      exact hce2
  · have hceq : ce = 1 := by omega
    have hcl2 : 2 * cl ≤ l.length := by
      by_cases hcl0 : cl = 0
      · omega
      · have hfne : P.filter (fun p => p < s) ≠ [] := by
          intro hcon
          rw [hcl, hcon] at hcl0
          exact hcl0 rfl
        obtain ⟨l0, hl0mem, hl0max⟩ :=
          exists_image_min (fun p => -p) (P.filter (fun p => p < s)) hfne
        have hl0P : l0 ∈ P := (List.mem_filter.mp hl0mem).1
        have hl0lt : l0 < s := by
          have h := (List.mem_filter.mp hl0mem).2
          simpa using h
        have hl0max2 : ∀ p ∈ P, p < s → p ≤ l0 := by
          intro p hp hps
          have h := hl0max p (List.mem_filter.mpr ⟨hp, by simpa using hps⟩)
          simp only [] at h
          linarith
        have hgap : ∀ p ∈ P, p ≤ l0 ∨ s ≤ p := by
          intro p hp
          rcases lt_or_le p s with h | h
          · exact Or.inl (hl0max2 p hp h)
          · exact Or.inr h
        have hstep := SumAbs_step P hl0lt.le hgap
        have hc1 : (P.filter (fun p => p ≤ l0)).length = cl := by
          rw [hcl]
          congr 1
          apply List.filter_congr
          intro p hp
          apply decide_eq_decide.mpr
          constructor
          · intro h
            linarith
          · intro h
            exact hl0max2 p hp h
        have hc2 : (P.filter (fun p => s ≤ p)).length = l.length - cl := by
          have hs1 := filter_length_split_lt s P
          have he : P.filter (fun p => ¬ p < s)
              = P.filter (fun p => s ≤ p) := by
            apply List.filter_congr
            intro p _
            exact decide_eq_decide.mpr not_lt
          rw [he, ← hcl, hlen] at hs1
          omega
        have hclen : cl ≤ l.length := by omega
        have hmin0 : SumAbs P s - SumAbs P l0 ≤ 0 := by
          have h := hPmin l0
          linarith
        rw [hstep, hc1, hc2] at hmin0
        rw [Nat.cast_sub hclen] at hmin0
        have hpos : (0 : ℚ) < s - l0 := by linarith
        have hq : 2 * (cl : ℚ) ≤ (l.length : ℚ) := by nlinarith
        exact_mod_cast hq
    have hcg2 : 2 * cg ≤ l.length := by
      by_cases hcg0 : cg = 0
      · omega
      · have hfne : P.filter (fun p => s < p) ≠ [] := by
          intro hcon
          rw [hcg, hcon] at hcg0
          exact hcg0 rfl
        obtain ⟨u0, hu0mem, hu0min⟩ :=
          exists_image_min id (P.filter (fun p => s < p)) hfne
        have hu0P : u0 ∈ P := (List.mem_filter.mp hu0mem).1
        have hu0gt : s < u0 := by
          have h := (List.mem_filter.mp hu0mem).2
          simpa using h
        have hu0min2 : ∀ p ∈ P, s < p → u0 ≤ p := by
          intro p hp hps
          have h := hu0min p (List.mem_filter.mpr ⟨hp, by simpa using hps⟩)
          simpa using h
        have hgap : ∀ p ∈ P, p ≤ s ∨ u0 ≤ p := by
          intro p hp
          rcases le_or_lt p s with h | h
          · exact Or.inl h
          · exact Or.inr (hu0min2 p hp h)
        have hstep := SumAbs_step P hu0gt.le hgap
        have hc1 : (P.filter (fun p => p ≤ s)).length = l.length - cg := by
          have hs1 := filter_length_split_lt u0 P
          have he1 : P.filter (fun p => p < u0)
              = P.filter (fun p => p ≤ s) := by
            apply List.filter_congr
            intro p hp
            apply decide_eq_decide.mpr
            constructor
            · intro h
              by_contra hcon
              push_neg at hcon
              have := hu0min2 p hp hcon
              linarith
            · intro h
              linarith
          have he2 : P.filter (fun p => ¬ p < u0)
              = P.filter (fun p => s < p) := by
            apply List.filter_congr
            intro p hp
            apply decide_eq_decide.mpr
            constructor
            · intro h
              push_neg at h
              linarith
            · intro h
              rw [not_lt]
              exact hu0min2 p hp h
          rw [he1, he2, ← hcg, hlen] at hs1
          omega
        have hc2 : (P.filter (fun p => u0 ≤ p)).length = cg := by
          rw [hcg]
          congr 1
          apply List.filter_congr
          intro p hp
          apply decide_eq_decide.mpr
          constructor
          · intro h
            linarith
          · intro h
            exact hu0min2 p hp h
        have hcglen : cg ≤ l.length := by omega
        have hmin0 : 0 ≤ SumAbs P u0 - SumAbs P s := by
          have h := hPmin u0
          linarith
        rw [hstep, hc1, hc2] at hmin0
        rw [Nat.cast_sub hcglen] at hmin0
        have hpos : (0 : ℚ) < u0 - s := by linarith
        have hq : 2 * (cg : ℚ) ≤ (l.length : ℚ) := by nlinarith
        exact_mod_cast hq
    have hclcg : cl ≠ cg := by omega
    rcases lt_or_gt_of_ne hclcg with hlt | hgt
    · -- cg > cl : flat gap to the right, q1 = s, q2 = u0
      have hcg1 : 1 ≤ cg := by omega
      have h2cg : 2 * cg = l.length := by omega
      have hfne : P.filter (fun p => s < p) ≠ [] := by
        intro hcon
        have : cg = 0 := by rw [hcg, hcon]; rfl
        omega
      obtain ⟨u0, hu0mem, hu0min⟩ :=
        exists_image_min id (P.filter (fun p => s < p)) hfne
      have hu0P : u0 ∈ P := (List.mem_filter.mp hu0mem).1
      have hu0gt : s < u0 := by
        have h := (List.mem_filter.mp hu0mem).2
        simpa using h
      have hu0min2 : ∀ p ∈ P, s < p → u0 ≤ p := by
        intro p hp hps
        have h := hu0min p (List.mem_filter.mpr ⟨hp, by simpa using hps⟩)
        simpa using h
      have hgap : ∀ p ∈ P, p ≤ s ∨ u0 ≤ p := by
        intro p hp
        rcases le_or_lt p s with h | h
        · exact Or.inl h
        · exact Or.inr (hu0min2 p hp h)
      set μ := (s + u0) / 2 with hμ
      have hμlt : s < μ := by
        rw [hμ]
        linarith
      have hμlt2 : μ < u0 := by
        rw [hμ]
        linarith
      have hgapμ : ∀ p ∈ P, p ≤ s ∨ μ ≤ p := by
        intro p hp
        rcases hgap p hp with h | h
        · exact Or.inl h
        · exact Or.inr (by linarith)
      have hcnt1 : (P.filter (fun p => p ≤ s)).length = cl + 1 := by
        have hs1 := filter_length_split_lt s P
        have he : P.filter (fun p => ¬ p < s)
            = P.filter (fun p => s ≤ p) := by
          apply List.filter_congr
          intro p _
          exact decide_eq_decide.mpr not_lt
        rw [he, ← hcl, hlen] at hs1
        have hs2 := filter_length_split_lt u0 P
        have he1 : P.filter (fun p => p < u0)
            = P.filter (fun p => p ≤ s) := by
          apply List.filter_congr
          intro p hp
          apply decide_eq_decide.mpr
          constructor
          · intro h
            by_contra hcon
            push_neg at hcon
            have := hu0min2 p hp hcon
            linarith
          · intro h
            linarith
        have he2 : P.filter (fun p => ¬ p < u0)
            = P.filter (fun p => s < p) := by
          apply List.filter_congr
          intro p hp
          apply decide_eq_decide.mpr
          constructor
          · intro h
            push_neg at h
            linarith
          · intro h
            rw [not_lt]
            exact hu0min2 p hp h
        rw [he1, he2, ← hcg, hlen] at hs2
        omega
      have hcnt2 : (P.filter (fun p => μ ≤ p)).length = cg := by
        rw [hcg]
        congr 1
        apply List.filter_congr
        intro p hp
        apply decide_eq_decide.mpr
        constructor
        · intro h
          rcases hgap p hp with hcase | hcase
          · linarith
          · linarith
        · intro h
          have := hu0min2 p hp h
          linarith
      have hstepμ := SumAbs_step P hμlt.le
        (by
          intro p hp
          rcases hgapμ p hp with h | h
          · exact Or.inl h
          · exact Or.inr h)
      rw [hcnt1, hcnt2] at hstepμ
      have hflat : SumAbs P μ = SumAbs P s := by
        have hco : (((cl + 1 : ℕ) : ℚ)) - ((cg : ℚ)) = 0 := by
          have : cl + 1 = cg := by omega
          rw [this]
          ring
        rw [hco, mul_zero] at hstepμ
        linarith
      have hopt : ∀ y : ℚ, SumAbs P ((s + u0) / 2) ≤ GA T l (T.Wrap y) := by
        intro y
        rw [← hμ, hflat, hGAs]
        exact hsmin y
      have hgapb := gap_bound T hne hl hcov hu0gt.le hgap hopt
      refine ⟨s, u0, hsP, hu0P, hu0gt.le, hgapb, hgap, ?_, ?_⟩
      · have hle : GA T l (T.Wrap ((s + u0) / 2)) ≤ GA T l s := by
          have h1 := GA_wrap_le_SumAbs T hl hcov ((s + u0) / 2)
          rw [← hμ] at h1
          rw [hflat, hGAs] at h1
          exact h1
        exact le_antisymm hle (hsmin _)
      · intro hq12
        exact absurd hq12 (ne_of_lt hu0gt)
    · -- cl > cg : flat gap to the left, q1 = l0, q2 = s
      have hcl1 : 1 ≤ cl := by omega
      have h2cl : 2 * cl = l.length := by omega
      have hfne : P.filter (fun p => p < s) ≠ [] := by
        intro hcon
        have : cl = 0 := by rw [hcl, hcon]; rfl
        omega
      obtain ⟨l0, hl0mem, hl0max⟩ :=
        exists_image_min (fun p => -p) (P.filter (fun p => p < s)) hfne
      have hl0P : l0 ∈ P := (List.mem_filter.mp hl0mem).1
      have hl0lt : l0 < s := by
        have h := (List.mem_filter.mp hl0mem).2
        simpa using h
      have hl0max2 : ∀ p ∈ P, p < s → p ≤ l0 := by
        intro p hp hps
        have h := hl0max p (List.mem_filter.mpr ⟨hp, by simpa using hps⟩)
        simp only [] at h
        linarith
      have hgap : ∀ p ∈ P, p ≤ l0 ∨ s ≤ p := by
        intro p hp
        rcases lt_or_le p s with h | h
        · exact Or.inl (hl0max2 p hp h)
        · exact Or.inr h
      set μ := (l0 + s) / 2 with hμ
      have hμgt : μ < s := by
        rw [hμ]
        linarith
      have hμgt2 : l0 < μ := by
        rw [hμ]
        linarith
      have hcnt1 : (P.filter (fun p => p ≤ μ)).length = cl := by
        rw [hcl]
        congr 1
        apply List.filter_congr
        intro p hp
        apply decide_eq_decide.mpr
        constructor
        · intro h
          linarith
        · intro h
          have := hl0max2 p hp h
          linarith
      have hcnt2 : (P.filter (fun p => s ≤ p)).length = cl := by
        have hs1 := filter_length_split_lt s P
        have he : P.filter (fun p => ¬ p < s)
            = P.filter (fun p => s ≤ p) := by
          apply List.filter_congr
          intro p _
          exact decide_eq_decide.mpr not_lt
        rw [he, ← hcl, hlen] at hs1
        omega
      have hstepμ := SumAbs_step P hμgt.le
        (by
          intro p hp
          rcases hgap p hp with h | h
          · exact Or.inl (by linarith)
          · exact Or.inr h)
      rw [hcnt1, hcnt2] at hstepμ
      have hflat : SumAbs P μ = SumAbs P s := by
        rw [sub_self, mul_zero] at hstepμ
        linarith
      have hopt : ∀ y : ℚ, SumAbs P ((l0 + s) / 2) ≤ GA T l (T.Wrap y) := by
        intro y
        rw [← hμ, hflat, hGAs]
        exact hsmin y
      have hgapb := gap_bound T hne hl hcov hl0lt.le hgap hopt
      refine ⟨l0, s, hl0P, hsP, hl0lt.le, hgapb, hgap, ?_, ?_⟩
      · have hle : GA T l (T.Wrap ((l0 + s) / 2)) ≤ GA T l s := by
          have h1 := GA_wrap_le_SumAbs T hl hcov ((l0 + s) / 2)
          rw [← hμ] at h1
          rw [hflat, hGAs] at h1
          exact h1
        exact le_antisymm hle (hsmin _)
      · intro hq12
        exact absurd hq12 (ne_of_lt hl0lt)

/-- The circularly-consecutive pairs visited by `CircMedian`. -/
theorem zip_rotate_pair {α : Type} (S : List α) (i i2 : ℕ)
    (hi : i < S.length) (hi2 : i2 < S.length)
    (hmod : (i + 1) % S.length = i2) :
    (S.get ⟨i, hi⟩, S.get ⟨i2, hi2⟩) ∈ S.zip (S.rotate 1) := by
  subst hmod
  have hzlen : (S.zip (S.rotate 1)).length = S.length := by
    rw [List.length_zip, List.length_rotate, min_self]
  refine List.mem_iff_get.mpr ⟨⟨i, by omega⟩, ?_⟩
  rw [List.get_zip]
  congr 1
  rw [List.get_rotate]

/-- In a sorted sample list, positions below the `≤ t` filter count hold
values at most `t`, later positions hold larger values. -/
theorem sorted_split_get (T : CircType) (t : ℚ) :
    ∀ S : List (CircVal T), List.Sorted (· ≤ ·) S →
      ∀ (i : ℕ) (h : i < S.length),
        (i < (S.filter (fun a => a.val ≤ t)).length →
          (S.get ⟨i, h⟩).val ≤ t) ∧
        ((S.filter (fun a => a.val ≤ t)).length ≤ i →
          t < (S.get ⟨i, h⟩).val) := by
  intro S
  induction S with
  | nil =>
    intro _ i h
    simp at h
  | cons x S ih =>
    intro hsort i h
    have hx := (List.sorted_cons.mp hsort).1
    have hs := (List.sorted_cons.mp hsort).2
    by_cases hcase : x.val ≤ t
    · rw [List.filter_cons_of_pos (by simpa using hcase)]
      match i with
      | 0 =>
        refine ⟨fun _ => hcase, fun habs => ?_⟩
        simp only [List.length_cons] at habs
        omega
      | i + 1 =>
        have hih := ih hs i (by
          simp only [List.length_cons] at h
          omega)
        simp only [List.length_cons]
        exact ⟨fun hlt => hih.1 (by omega), fun hge => hih.2 (by omega)⟩
    · have hnone : S.filter (fun a => a.val ≤ t) = [] := by
        rw [List.filter_eq_nil_iff]
        intro b hb
        simp only [decide_eq_true_eq]
        intro hcon
        have hxb : x.val ≤ b.val := Subtype.coe_le_coe.mpr (hx b hb)
        exact hcase (le_trans hxb hcon)
      rw [List.filter_cons_of_neg (by simpa using hcase), hnone]
      refine ⟨fun habs => by simp at habs, fun _ => ?_⟩
      match i with
      | 0 => exact not_le.mp hcase
      | i + 1 =>
        have hmem : S.get ⟨i, by
            simp only [List.length_cons] at h
            omega⟩ ∈ S := S.get_mem _ _
        have hxb : x.val ≤ (S.get ⟨i, by
            simp only [List.length_cons] at h
            omega⟩).val := Subtype.coe_le_coe.mpr (hx _ hmem)
        exact lt_of_lt_of_le (not_le.mp hcase) hxb

/-- A value occurring at least twice in a sorted list occurs at two
adjacent positions. -/
theorem sorted_adjacent_dup {T : CircType} (x : CircVal T) :
    ∀ S : List (CircVal T), List.Sorted (· ≤ ·) S →
      2 ≤ (S.filter (fun a => a = x)).length →
      ∃ i : ℕ, ∃ h : i + 1 < S.length,
        S.get ⟨i, by omega⟩ = x ∧ S.get ⟨i + 1, h⟩ = x := by
  intro S
  induction S with
  | nil =>
    intro _ h2
    simp at h2
  | cons y S ih =>
    intro hsort h2
    have hy := (List.sorted_cons.mp hsort).1
    have hs := (List.sorted_cons.mp hsort).2
    by_cases hyx : y = x
    · have h1 : 1 ≤ (S.filter (fun a => a = x)).length := by
        rw [List.filter_cons_of_pos (by simp [hyx])] at h2
        simp only [List.length_cons] at h2
        omega
      have hne : S.filter (fun a => a = x) ≠ [] := by
        intro hcon
        rw [hcon] at h1
        simp at h1
      obtain ⟨z, hz⟩ := List.exists_mem_of_ne_nil _ hne
      have hzmem := (List.mem_filter.mp hz).1
      have hzx : z = x := by
        have h := (List.mem_filter.mp hz).2
        simpa using h
      match S, hzmem with
      | w :: S2, hzmem =>
        have hwx : w = x := by
          have hyw : y ≤ w := hy w (List.mem_cons_self w S2)
          have hwz : w ≤ z := by
            rcases List.mem_cons.mp hzmem with hc | hc
            · rw [hc]
            · exact (List.sorted_cons.mp hs).1 z hc
          rw [hyx] at hyw
          rw [hzx] at hwz
          exact le_antisymm hwz hyw
        exact ⟨0, by simp, hyx, hwx⟩
    · have h2s : 2 ≤ (S.filter (fun a => a = x)).length := by
        rw [List.filter_cons_of_neg (by simp [hyx])] at h2
        exact h2
      obtain ⟨i, hlt, ha, hb⟩ := ih hs h2s
      exact ⟨i + 1, by
        simp only [List.length_cons]
        omega, ha, hb⟩

/-- Two occurring values with nothing strictly between appear as an
adjacent pair of the sorted circular sweep. -/
theorem sorted_pair_adjacent (T : CircType) (S : List (CircVal T))
    (hsort : List.Sorted (· ≤ ·) S) {v1 v2 : ℚ} (h12 : v1 < v2)
    (h1 : ∃ a ∈ S, a.val = v1) (h2 : ∃ a ∈ S, a.val = v2)
    (hno : ∀ a ∈ S, ¬ (v1 < a.val ∧ a.val < v2)) :
    ∃ p ∈ S.zip (S.rotate 1), p.1.val = v1 ∧ p.2.val = v2 := by
  obtain ⟨a1, ha1S, ha1v⟩ := h1
  obtain ⟨a2, ha2S, ha2v⟩ := h2
  set j := (S.filter (fun a => a.val ≤ v1)).length with hj
  have hsplit := sorted_split_get T v1 S hsort
  have hj1 : 1 ≤ j := by
    have hmem : a1 ∈ S.filter (fun a => a.val ≤ v1) :=
      List.mem_filter.mpr ⟨ha1S, by simp [ha1v]⟩
    have := List.length_pos.mpr (List.ne_nil_of_mem hmem)
    omega
  obtain ⟨⟨i2, hi2lt⟩, hget2⟩ := List.mem_iff_get.mp ha2S
  have hi2ge : j ≤ i2 := by
    by_contra hcon
    push_neg at hcon
    have := (hsplit i2 hi2lt).1 hcon
    rw [hget2, ha2v] at this
    linarith
  have hjlt : j < S.length := by omega
  have hj1lt : j - 1 < S.length := by omega
  obtain ⟨⟨i1, hi1lt⟩, hget1⟩ := List.mem_iff_get.mp ha1S
  have hi1lt2 : i1 < j := by
    by_contra hcon
    push_neg at hcon
    have := (hsplit i1 hi1lt).2 hcon
    rw [hget1, ha1v] at this
    linarith
  have hga : (S.get ⟨j - 1, hj1lt⟩).val = v1 := by
    have hle : (S.get ⟨j - 1, hj1lt⟩).val ≤ v1 :=
      (hsplit (j - 1) hj1lt).1 (by omega)
    have hge : v1 ≤ (S.get ⟨j - 1, hj1lt⟩).val := by
      have hmono : S.get ⟨i1, hi1lt⟩ ≤ S.get ⟨j - 1, hj1lt⟩ :=
        hsort.rel_get_of_le (by
          show i1 ≤ j - 1
          omega)
      have := Subtype.coe_le_coe.mpr hmono
      rw [hget1, ha1v] at this
      exact this
    exact le_antisymm hle hge
  have hgb : (S.get ⟨j, hjlt⟩).val = v2 := by
    have hgt : v1 < (S.get ⟨j, hjlt⟩).val :=
      (hsplit j hjlt).2 (le_refl j)
    have hle : (S.get ⟨j, hjlt⟩).val ≤ v2 := by
      have hmono : S.get ⟨j, hjlt⟩ ≤ S.get ⟨i2, hi2lt⟩ :=
        hsort.rel_get_of_le (by
          show j ≤ i2
          omega)
      have := Subtype.coe_le_coe.mpr hmono
      rw [hget2, ha2v] at this
      exact this
    have hnb := hno _ (S.get_mem j hjlt)
    push_neg at hnb
    have := hnb hgt
    linarith
  refine ⟨(S.get ⟨j - 1, hj1lt⟩, S.get ⟨j, hjlt⟩), ?_, hga, hgb⟩
  exact zip_rotate_pair S (j - 1) j hj1lt hjlt (by
    rw [show j - 1 + 1 = j from by omega]
    exact Nat.mod_eq_of_lt hjlt)

/-- The extreme values appear as the wrap-around pair of the sorted
circular sweep. -/
theorem sorted_pair_wrap (T : CircType) (S : List (CircVal T))
    (hsort : List.Sorted (· ≤ ·) S) (hne : S ≠ []) {v1 v2 : ℚ}
    (h1 : ∃ a ∈ S, a.val = v1) (h2 : ∃ a ∈ S, a.val = v2)
    (hmax : ∀ a ∈ S, a.val ≤ v1) (hmin : ∀ a ∈ S, v2 ≤ a.val) :
    ∃ p ∈ S.zip (S.rotate 1), p.1.val = v1 ∧ p.2.val = v2 := by
  obtain ⟨a1, ha1S, ha1v⟩ := h1
  obtain ⟨a2, ha2S, ha2v⟩ := h2
  have hlen : 0 < S.length := List.length_pos.mpr hne
  have hn1 : S.length - 1 < S.length := by omega
  obtain ⟨⟨i1, hi1lt⟩, hget1⟩ := List.mem_iff_get.mp ha1S
  obtain ⟨⟨i2, hi2lt⟩, hget2⟩ := List.mem_iff_get.mp ha2S
  have hga : (S.get ⟨S.length - 1, hn1⟩).val = v1 := by
    have hle : (S.get ⟨S.length - 1, hn1⟩).val ≤ v1 :=
      hmax _ (S.get_mem _ _)
    have hge : v1 ≤ (S.get ⟨S.length - 1, hn1⟩).val := by
      have hmono : S.get ⟨i1, hi1lt⟩ ≤ S.get ⟨S.length - 1, hn1⟩ :=
        hsort.rel_get_of_le (by
          show i1 ≤ S.length - 1
          omega)
      have := Subtype.coe_le_coe.mpr hmono
      rw [hget1, ha1v] at this
      exact this
    exact le_antisymm hle hge
  have hgb : (S.get ⟨0, hlen⟩).val = v2 := by
    have hge : v2 ≤ (S.get ⟨0, hlen⟩).val := hmin _ (S.get_mem _ _)
    have hle : (S.get ⟨0, hlen⟩).val ≤ v2 := by
      have hmono : S.get ⟨0, hlen⟩ ≤ S.get ⟨i2, hi2lt⟩ :=
        hsort.rel_get_of_le (by
          show 0 ≤ i2
          omega)
      have := Subtype.coe_le_coe.mpr hmono
      rw [hget2, ha2v] at this
      exact this
    exact le_antisymm hle hge
  refine ⟨(S.get ⟨S.length - 1, hn1⟩, S.get ⟨0, hlen⟩), ?_, hga, hgb⟩
  exact zip_rotate_pair S (S.length - 1) 0 hn1 hlen (by
    rw [show S.length - 1 + 1 = S.length from by omega]
    exact Nat.mod_self _)

/-- Any whole-turn shift of a sample landing in the half-range window
around `x` is the sample's canonical representative there. -/
theorem window_rep_mem (T : CircType) {x : ℚ} (hx : T.L ≤ x ∧ x < T.H)
    {l : List ℚ} (hl : ∀ a ∈ l, T.L ≤ a ∧ a < T.H) {t : ℚ}
    (ht1 : x - T.R / 2 ≤ t) (ht2 : t < x + T.R / 2) {a : ℚ} (ha : a ∈ l)
    (hcong : ∃ k : ℤ, t = a + (k : ℚ) * T.R) :
    t ∈ covM T x l := by
  have hab := hl a ha
  have hRe : T.R = T.H - T.L := rfl
  have hRpos := T.R_pos
  have hr := sdw_mem T.R_pos
    (show -T.R < a - x by linarith [hab.1, hab.2, hx.1, hx.2])
    (show a - x < T.R by linarith [hab.1, hab.2, hx.1, hx.2])
  obtain ⟨k0, hk0⟩ := sdw_sub_int T.R (a - x)
  obtain ⟨k, hk⟩ := hcong
  have huniq : t - x = sdw T.R (a - x) := by
    refine halfRange_rep_unique T.R_pos hr.1 hr.2 (by linarith)
      (by linarith) ⟨k - k0, ?_⟩
    rw [hk, hk0]
    push_cast
    ring
  refine List.mem_map.mpr ⟨a, ha, ?_⟩
  show x + sdw T.R (a - x) = t
  linarith [huniq]

/-- The shortest signed walk between circular values whose raw positions
are the wraps of nearby representatives. -/
theorem pair_sdist_eq (T : CircType) {u v : CircVal T} {q1 q2 : ℚ}
    (hu : u.val = T.Wrap q1) (hv : v.val = T.Wrap q2) (hle : 0 ≤ q2 - q1)
    (hlt : q2 - q1 < T.R / 2) : CircVal.Sdist u v = q2 - q1 := by
  obtain ⟨j1, hj1⟩ := T.Wrap_sub_self q1
  obtain ⟨j2, hj2⟩ := T.Wrap_sub_self q2
  have hsub := CircVal.val_sub_mem u v
  rw [CircVal.Sdist_eq_sdw]
  obtain ⟨k0, hk0⟩ := sdw_sub_int T.R (v.val - u.val)
  have hmm := sdw_mem T.R_pos hsub.1 hsub.2
  refine halfRange_rep_unique T.R_pos (by linarith) hlt hmm.1 hmm.2
    ⟨k0 + j2 - j1, ?_⟩
  rw [hk0, hu, hv, hj1, hj2]
  push_cast
  ring

/-- The antipodal special case of the shortest signed walk. -/
theorem pair_sdist_antipodal (T : CircType) {u v : CircVal T} {q1 q2 : ℚ}
    (hu : u.val = T.Wrap q1) (hv : v.val = T.Wrap q2)
    (heq : q2 - q1 = T.R / 2) : CircVal.Sdist u v = -(T.R / 2) := by
  obtain ⟨j1, hj1⟩ := T.Wrap_sub_self q1
  obtain ⟨j2, hj2⟩ := T.Wrap_sub_self q2
  have hsub := CircVal.val_sub_mem u v
  rw [CircVal.Sdist_eq_sdw]
  obtain ⟨k0, hk0⟩ := sdw_sub_int T.R (v.val - u.val)
  have hmm := sdw_mem T.R_pos hsub.1 hsub.2
  have hRpos := T.R_pos
  refine halfRange_rep_unique T.R_pos (by linarith) (by linarith) hmm.1
    hmm.2 ⟨k0 + j2 - j1 + 1, ?_⟩
  rw [hk0, hu, hv, hj1, hj2]
  push_cast
  have hq : q2 = q1 + T.R / 2 := by linarith
  rw [hq]
  ring

/-- Membership in the consecutive-pair midpoint candidate list. -/
theorem medPairCands_mem (T : CircType) (S : List (CircVal T))
    {p : CircVal T × CircVal T} (hp : p ∈ S.zip (S.rotate 1))
    {c : CircVal T}
    (hc : c ∈ (if CircVal.Sdist p.1 p.2 = -(T.R / 2) then
        [CircVal.ofRat T (p.1.val + CircVal.Sdist p.1 p.2 / 2),
          CircVal.ofRat T (p.2.val + CircVal.Sdist p.1 p.2 / 2)]
      else [CircVal.ofRat T (p.1.val + CircVal.Sdist p.1 p.2 / 2)])) :
    c ∈ medPairCands T S := by
  unfold medPairCands
  exact List.mem_flatten.mpr ⟨_, List.mem_map_of_mem _ hp, hc⟩

/-- If two wraps of positions a short gap apart land in ascending order, the
whole-turn shift indices agree. -/
theorem wrap_index_adjacent {R g : ℚ} {j1 j2 : ℤ} (hR : 0 < R) (hg0 : 0 < g)
    (hgR : g ≤ R / 2) {e : ℚ} (he : e = g + ((j2 : ℚ) - (j1 : ℚ)) * R)
    (he0 : 0 < e) (heR : e < R) : j2 = j1 := by
  by_contra hcon
  rcases lt_or_gt_of_ne hcon with h2 | h2
  · have hcq : (j2 : ℚ) - (j1 : ℚ) ≤ -1 := by
      have h9 : j2 - j1 ≤ -1 := by omega
      exact_mod_cast h9
    have hprod := mul_le_mul_of_nonneg_right hcq hR.le
    linarith
  · have hcq : (1 : ℚ) ≤ (j2 : ℚ) - (j1 : ℚ) := by
      have h9 : 1 ≤ j2 - j1 := by omega
      exact_mod_cast h9
    have hprod := mul_le_mul_of_nonneg_right hcq hR.le
    linarith

/-- If two wraps of positions a short gap apart land in descending order, the
second shift index is one less than the first. -/
theorem wrap_index_wraparound {R g : ℚ} {j1 j2 : ℤ} (hR : 0 < R) (hg0 : 0 < g)
    (hgR : g ≤ R / 2) {e : ℚ} (he : e = g + ((j2 : ℚ) - (j1 : ℚ)) * R)
    (he0 : e ≤ 0) (heR : -R < e) : j2 = j1 - 1 := by
  by_contra hcon
  rcases lt_or_gt_of_ne hcon with h2 | h2
  · have hcq : (j2 : ℚ) - (j1 : ℚ) ≤ -2 := by
      have h9 : j2 - j1 ≤ -2 := by omega
      exact_mod_cast h9
    have hprod := mul_le_mul_of_nonneg_right hcq hR.le
    linarith
  · have hcq : (0 : ℚ) ≤ (j2 : ℚ) - (j1 : ℚ) := by
      have h9 : 0 ≤ j2 - j1 := by omega
      exact_mod_cast h9
    have hprod := mul_nonneg hcq hR.le
    linarith

set_option maxHeartbeats 1600000 in
/-- For an even sample count, some probed consecutive-pair midpoint candidate
of `CircMedian` attains the global minimum of the circular L1 objective. -/
theorem even_case_candidate (T : CircType) (A : List (CircVal T))
    (hne : A ≠ []) (heven : A.length % 2 = 0) :
    ∃ b ∈ medPairCands T (List.insertionSort (· ≤ ·) A),
      ∀ y : CircVal T, medObj T A b ≤ medObj T A y := by
  classical
  set l := A.map (fun a => a.val) with hldef
  have hlne : l ≠ [] := fun hcon => hne (List.map_eq_nil_iff.mp hcon)
  have hl : ∀ a ∈ l, T.L ≤ a ∧ a < T.H := by
    intro a ha
    rw [hldef] at ha
    obtain ⟨c, _, rfl⟩ := List.mem_map.mp ha
    exact c.property
  have hevenl : l.length % 2 = 0 := by
    rw [hldef, List.length_map]
    exact heven
  obtain ⟨s, hsmem, hsmin⟩ := GA_exists_sample_min T l hlne hl
  have hsb := hl s hsmem
  obtain ⟨q1, q2, hq1P, hq2P, hq12, hgapR, hsplit, hmid, hdup⟩ :=
    even_midpoint_min T hlne hevenl hl hsmem hsmin
  set S := List.insertionSort (· ≤ ·) A with hS
  have hSsort : List.Sorted (· ≤ ·) S := List.sorted_insertionSort (· ≤ ·) A
  have hSperm : S.Perm A := List.perm_insertionSort (· ≤ ·) A
  have hSne : S ≠ [] := by
    intro hcon
    rw [hcon] at hSperm
    exact hne (List.Perm.eq_nil hSperm.symm)
  have hRpos := T.R_pos
  have hRe : T.R = T.H - T.L := rfl
  have hwin := covM_window T hsb.1 hsb.2 hl
  have hq1w := hwin q1 hq1P
  have hq2w := hwin q2 hq2P
  obtain ⟨a1, ha1l, k1, hk1⟩ := IsCoverT_mem (covM_isCover T s l) q1 hq1P
  obtain ⟨a2, ha2l, k2, hk2⟩ := IsCoverT_mem (covM_isCover T s l) q2 hq2P
  have ha1b := hl a1 ha1l
  have ha2b := hl a2 ha2l
  have hW1 : T.Wrap q1 = a1 := by
    rw [hk1, T.Wrap_add_int_mul, T.Wrap_eq_of_mem ha1b.1 ha1b.2]
  have hW2 : T.Wrap q2 = a2 := by
    rw [hk2, T.Wrap_add_int_mul, T.Wrap_eq_of_mem ha2b.1 ha2b.2]
  have hc1 : ∃ c ∈ S, c.val = T.Wrap q1 := by
    rw [hldef] at ha1l
    obtain ⟨c, hcA, hcv⟩ := List.mem_map.mp ha1l
    exact ⟨c, hSperm.mem_iff.mpr hcA, by rw [hcv, hW1]⟩
  have hc2 : ∃ c ∈ S, c.val = T.Wrap q2 := by
    rw [hldef] at ha2l
    obtain ⟨c, hcA, hcv⟩ := List.mem_map.mp ha2l
    exact ⟨c, hSperm.mem_iff.mpr hcA, by rw [hcv, hW2]⟩
  have hnorep : ∀ t : ℚ, q1 < t → t < q2 →
      (∃ a ∈ l, ∃ k : ℤ, t = a + (k : ℚ) * T.R) → False := by
    intro t h1 h2 hex
    obtain ⟨a, ha, k, hk⟩ := hex
    have hmem : t ∈ covM T s l :=
      window_rep_mem T ⟨hsb.1, hsb.2⟩ hl (by linarith [hq1w.1])
        (by linarith [hq2w.2]) ha ⟨k, hk⟩
    rcases hsplit t hmem with h | h
    · linarith
    · linarith
  have hbmin : ∀ b : CircVal T, b.val = T.Wrap ((q1 + q2) / 2) →
      ∀ y : CircVal T, medObj T A b ≤ medObj T A y := by
    intro b hb y
    rw [medObj_eq_GA, medObj_eq_GA, ← hldef, hb, hmid]
    have hyw : T.Wrap y.val = y.val :=
      T.Wrap_eq_of_mem y.property.1 y.property.2
    calc GA T l s ≤ GA T l (T.Wrap y.val) := hsmin y.val
      _ = GA T l y.val := by rw [hyw]
  obtain ⟨p, hp, hu, hv⟩ : ∃ p ∈ S.zip (S.rotate 1),
      p.1.val = T.Wrap q1 ∧ p.2.val = T.Wrap q2 := by
    rcases eq_or_lt_of_le hq12 with hq1eq | hq1lt
    · have hdup2 := hdup hq1eq
      have hcnt : 2 ≤ (S.filter (fun c => c = CircVal.ofRat T q1)).length := by
        have e1 : (l.filter (fun a => a = T.Wrap q1)).length =
            (A.filter (fun c => c = CircVal.ofRat T q1)).length := by
          rw [hldef, List.filter_map, List.length_map]
          refine congrArg List.length (List.filter_congr ?_)
          intro c hc
          show decide (c.val = T.Wrap q1) = decide (c = CircVal.ofRat T q1)
          rw [decide_eq_decide]
          constructor
          · intro h
            exact Subtype.ext h
          · intro h
            rw [h]
            rfl
        have e2 : (S.filter (fun c => c = CircVal.ofRat T q1)).length =
            (A.filter (fun c => c = CircVal.ofRat T q1)).length :=
          (hSperm.filter (fun c => c = CircVal.ofRat T q1)).length_eq
        omega
      obtain ⟨i, h, hgi, hgi1⟩ :=
        sorted_adjacent_dup (CircVal.ofRat T q1) S hSsort hcnt
      refine ⟨(S.get ⟨i, by omega⟩, S.get ⟨i + 1, h⟩),
        zip_rotate_pair S i (i + 1) (by omega) h (Nat.mod_eq_of_lt h),
        ?_, ?_⟩
      · rw [hgi]
        rfl
      · rw [← hq1eq, hgi1]
        rfl
    · obtain ⟨j1, hj1⟩ := T.Wrap_sub_self q1
      obtain ⟨j2, hj2⟩ := T.Wrap_sub_self q2
      have hWm1 := T.Wrap_mem q1
      have hWm2 := T.Wrap_mem q2
      rcases lt_or_le (T.Wrap q1) (T.Wrap q2) with hlt | hle
      · have hDeq : j2 = j1 :=
          wrap_index_adjacent hRpos (by linarith) hgapR
            (show T.Wrap q2 - T.Wrap q1 =
              (q2 - q1) + ((j2 : ℚ) - (j1 : ℚ)) * T.R by
                rw [hj1, hj2]; ring)
            (by linarith) (by linarith [hWm1.1, hWm2.2])
        have hno : ∀ a ∈ S, ¬ (T.Wrap q1 < a.val ∧ a.val < T.Wrap q2) := by
          intro a haS hcon2
          have hal : a.val ∈ l := by
            rw [hldef]
            exact List.mem_map_of_mem _ (hSperm.mem_iff.mp haS)
          refine hnorep (a.val - (j1 : ℚ) * T.R) ?_ ?_
            ⟨a.val, hal, -j1, by push_cast; ring⟩
          · have h3 := hcon2.1
            rw [hj1] at h3
            linarith
          · have h3 := hcon2.2
            rw [hj2, hDeq] at h3
            linarith
        obtain ⟨p, hp, hu, hv⟩ := sorted_pair_adjacent T S hSsort hlt hc1 hc2 hno
        exact ⟨p, hp, hu, hv⟩
      · have hDeq : j2 = j1 - 1 :=
          wrap_index_wraparound hRpos (by linarith) hgapR
            (show T.Wrap q2 - T.Wrap q1 =
              (q2 - q1) + ((j2 : ℚ) - (j1 : ℚ)) * T.R by
                rw [hj1, hj2]; ring)
            (by linarith) (by linarith [hWm1.2, hWm2.1])
        have hjr : (j1 : ℚ) * T.R = (j2 : ℚ) * T.R + T.R := by
          have hj1e : (j1 : ℚ) = (j2 : ℚ) + 1 := by
            rw [hDeq]
            push_cast
            ring
          rw [hj1e]
          ring
        have hmax : ∀ a ∈ S, a.val ≤ T.Wrap q1 := by
          intro a haS
          by_contra hcon
          push_neg at hcon
          have hal : a.val ∈ l := by
            rw [hldef]
            exact List.mem_map_of_mem _ (hSperm.mem_iff.mp haS)
          refine hnorep (a.val - (j1 : ℚ) * T.R) ?_ ?_
            ⟨a.val, hal, -j1, by push_cast; ring⟩
          · rw [hj1] at hcon
            linarith
          · have hH := (hl a.val hal).2
            linarith [hWm2.1, hj2, hjr, hH]
        have hmin2 : ∀ a ∈ S, T.Wrap q2 ≤ a.val := by
          intro a haS
          by_contra hcon
          push_neg at hcon
          have hal : a.val ∈ l := by
            rw [hldef]
            exact List.mem_map_of_mem _ (hSperm.mem_iff.mp haS)
          refine hnorep (a.val - (j2 : ℚ) * T.R) ?_ ?_
            ⟨a.val, hal, -j2, by push_cast; ring⟩
          · have hLb := (hl a.val hal).1
            linarith [hWm1.2, hj1, hjr, hLb]
          · linarith [hj2, hcon]
        exact sorted_pair_wrap T S hSsort hSne hc1 hc2 hmax hmin2
  rcases lt_or_eq_of_le hgapR with hglt | hgeq
  · have hd : CircVal.Sdist p.1 p.2 = q2 - q1 :=
      pair_sdist_eq T hu hv (by linarith) hglt
    have hdne : ¬ (CircVal.Sdist p.1 p.2 = -(T.R / 2)) := by
      rw [hd]
      intro hcon
      linarith
    have hmem : CircVal.ofRat T (p.1.val + CircVal.Sdist p.1 p.2 / 2)
        ∈ medPairCands T S := by
      refine medPairCands_mem T S hp ?_
      rw [if_neg hdne]
      exact List.mem_singleton.mpr rfl
    refine ⟨_, hmem, hbmin _ ?_⟩
    obtain ⟨j1, hj1⟩ := T.Wrap_sub_self q1
    show T.Wrap (p.1.val + CircVal.Sdist p.1 p.2 / 2) = T.Wrap ((q1 + q2) / 2)
    have harg : p.1.val + CircVal.Sdist p.1 p.2 / 2 =
        (q1 + q2) / 2 + (j1 : ℚ) * T.R := by
      rw [hd, hu, hj1]
      ring
    rw [harg, T.Wrap_add_int_mul]
  · have hd : CircVal.Sdist p.1 p.2 = -(T.R / 2) :=
      pair_sdist_antipodal T hu hv hgeq
    have hmem : CircVal.ofRat T (p.2.val + CircVal.Sdist p.1 p.2 / 2)
        ∈ medPairCands T S := by
      refine medPairCands_mem T S hp ?_
      rw [if_pos hd]
      exact List.mem_cons_of_mem _ (List.mem_singleton.mpr rfl)
    refine ⟨_, hmem, hbmin _ ?_⟩
    obtain ⟨j2, hj2⟩ := T.Wrap_sub_self q2
    show T.Wrap (p.2.val + CircVal.Sdist p.1 p.2 / 2) = T.Wrap ((q1 + q2) / 2)
    have harg : p.2.val + CircVal.Sdist p.1 p.2 / 2 =
        (q1 + q2) / 2 + (j2 : ℚ) * T.R := by
      rw [hd, hv, hj2]
      have h8 : q1 = q2 - T.R / 2 := by linarith
      rw [h8]
      ring
    rw [harg, T.Wrap_add_int_mul]

/-- Some candidate probed by `CircMedian` attains the global minimum of the
circular L1 objective, for either parity of the sample count. -/
theorem medCand_exists_min (T : CircType) (A : List (CircVal T))
    (hne : A ≠ []) :
    ∃ b ∈ medCandSet T A, ∀ y : CircVal T, medObj T A b ≤ medObj T A y := by
  unfold medCandSet
  by_cases hpar : A.length % 2 = 0
  · rw [if_pos hpar]
    obtain ⟨b, hb, hmin⟩ := even_case_candidate T A hne hpar
    exact ⟨b, List.mem_toFinset.mpr hb, hmin⟩
  · rw [if_neg hpar]
    set l := A.map (fun a => a.val) with hldef
    have hlne : l ≠ [] := fun hcon => hne (List.map_eq_nil_iff.mp hcon)
    have hl : ∀ a ∈ l, T.L ≤ a ∧ a < T.H := by
      intro a ha
      rw [hldef] at ha
      obtain ⟨c, _, rfl⟩ := List.mem_map.mp ha
      exact c.property
    obtain ⟨s, hsmem, hsmin⟩ := GA_exists_sample_min T l hlne hl
    rw [hldef] at hsmem
    obtain ⟨c, hcA, hcv⟩ := List.mem_map.mp hsmem
    refine ⟨c, List.mem_toFinset.mpr hcA, ?_⟩
    intro y
    rw [medObj_eq_GA, medObj_eq_GA, ← hldef, hcv]
    have hyw : T.Wrap y.val = y.val :=
      T.Wrap_eq_of_mem y.property.1 y.property.2
    calc GA T l s ≤ GA T l (T.Wrap y.val) := hsmin y.val
      _ = GA T l y.val := by rw [hyw]

/-- C5: for every non-empty sample vector, `CircMedian` returns a non-empty
set, and every member achieves the true global minimum of the objective
`Σ |Sdist(x, sᵢ)|` over the whole circle. -/
theorem C5_median_global_min (T : CircType) (A : List (CircVal T))
    (hne : A ≠ []) :
    (CircMedian T A).Nonempty ∧
      ∀ x ∈ CircMedian T A, ∀ y : CircVal T,
        medObj T A x ≤ medObj T A y := by
  obtain ⟨b, hbmem, hbmin⟩ := medCand_exists_min T A hne
  set L := (medCandSet T A).sort (· ≤ ·) with hL
  have hbL : b ∈ L := (Finset.mem_sort (· ≤ ·)).mpr hbmem
  have hLne : L ≠ [] := List.ne_nil_of_mem hbL
  obtain ⟨m2, hm1, hm2, hm3, hm4⟩ := medEvalLoop_start T A L hLne
  unfold CircMedian
  rw [← hL]
  refine ⟨hm3, ?_⟩
  intro x hx y
  calc medObj T A x = m2 := hm4 x hx
    _ ≤ medObj T A b := hm2 b hbL
    _ ≤ medObj T A y := hbmin y

theorem C5_median_global_min_witness :
    ([CircVal.ofRat degT 45] ≠ ([] : List (CircVal degT))) ∧
      ((CircMedian degT [CircVal.ofRat degT 45]).Nonempty ∧
        ∀ x ∈ CircMedian degT [CircVal.ofRat degT 45],
          ∀ y : CircVal degT,
            medObj degT [CircVal.ofRat degT 45] x ≤
              medObj degT [CircVal.ofRat degT 45] y) :=
  ⟨List.cons_ne_nil _ _,
    C5_median_global_min degT [CircVal.ofRat degT 45] (List.cons_ne_nil _ _)⟩

end Circular
